import Mathlib

/-!
Shallow embedding of the layout-computation engines of the D3.js_Dify
repository: `ConceptMapAgent.enhance_spec` (src/concept_map_agent.py) and
`MindMapAgent.enhance_spec` (src/mind_map_agent.py), together with proofs
settling the frozen claims C1–C10.

Modelling conventions:
* Python strings are `List Char` (`PyStr`); `len`, slicing and per-character
  operations coincide with the source's code-point semantics.
* Python floats are modelled as exact rationals (`ℚ`) where the source only
  performs field operations and comparisons, and as real numbers (`ℝ`) where
  trigonometric functions enter; `int(x)` on a nonnegative value is the floor
  `⌊x⌋`, `math.ceil` is `⌈x⌉`, and `//` on nonnegative integers is `/`.
* Python dicts are association lists keyed in insertion order; Python sets are
  insertion-ordered lists without duplicates (`setAdd`).  Iteration order of a
  CPython set is unspecified; no settled claim depends on it.
* `random.uniform` draws are read from an explicit stream `rng : ℕ → ℝ`
  threaded through the layout code (`rng42` is the stream of the global
  generator after the `random.seed(42)` call in `_generate_layout_sectors`).
* A Python exception caught by the top-level `except` of `enhance_spec`
  becomes the `.err` constructor carrying an error message.
-/

/-- A Python string, as its list of code points. -/
abbrev PyStr := List Char

/-- Characters Python's `str.split()` / `str.strip()` treat as whitespace
(ASCII fragment; the repository's data never exercises the non-ASCII ones). -/
def pyIsSpace (c : Char) : Bool :=
  c = ' ' || c = '\t' || c = '\n' || c = '\x0b' || c = '\x0c' || c = '\r'

/-- A Python value, as far as the two agents inspect one: `None`, booleans,
integers, strings, lists and string-keyed dicts. -/
inductive PyVal where
  | none
  | bool (b : Bool)
  | int (n : ℤ)
  | str (s : PyStr)
  | list (xs : List PyVal)
  | dict (kvs : List (PyStr × PyVal))

/-- Python truthiness of a `PyVal` (`bool(v)`). -/
def pyTruthy : PyVal → Bool
  | .none => false
  | .bool b => b
  | .int n => decide (n ≠ 0)
  | .str s => decide (s ≠ [])
  | .list xs => !xs.isEmpty
  | .dict kvs => !kvs.isEmpty

/-- `d.get(k)` on an association list: first entry whose key is `k`
(Python dict keys are unique, so first = only). -/
def dictGet (kvs : List (PyStr × PyVal)) (k : PyStr) : Option PyVal :=
  (kvs.find? (fun kv => kv.1 == k)).map (·.2)

/-- `spec.get(k)`, yielding `None` when the key is absent. -/
def pyGet (v : PyVal) (k : PyStr) : PyVal :=
  match v with
  | .dict kvs => (dictGet kvs k).getD .none
  | _ => .none

/-- `x or y` for Python values: `x` when truthy, else `y`. -/
def pyOr (x y : PyVal) : PyVal :=
  if pyTruthy x then x else y

/-- `str.split()` helper: accumulates the current (reversed) word while
scanning; mirrors Python's split-on-whitespace-runs with no empty tokens. -/
def wordsAcc : List Char → List Char → List (List Char)
  | cur, [] => if cur = [] then [] else [cur.reverse]
  | cur, c :: cs =>
    if pyIsSpace c then
      if cur = [] then wordsAcc [] cs else cur.reverse :: wordsAcc [] cs
    else wordsAcc (c :: cur) cs

/-- `text.split()`. -/
def pyWords (l : PyStr) : List (List Char) :=
  wordsAcc [] l

/-- `text.rstrip()`. -/
def pyRstrip (l : PyStr) : PyStr :=
  (l.reverse.dropWhile pyIsSpace).reverse

/-- `text.lstrip()` composed with `rstrip`: Python's `text.strip()`. -/
def pyStrip (l : PyStr) : PyStr :=
  pyRstrip (l.dropWhile pyIsSpace)

/-- `ConceptMapAgent._clean_text` on an actual string: collapse whitespace
via `" ".join(text.split())`, then truncate to `maxLen` with an ellipsis. -/
def cleanText (maxLen : ℕ) (t : PyStr) : PyStr :=
  let cleaned := List.intercalate [' '] (pyWords t)
  if cleaned.length > maxLen then pyRstrip (cleaned.take (maxLen - 1)) ++ ['…']
  else cleaned

/-- `ConceptMapAgent._clean_text` on an arbitrary value: non-strings map
to the empty string. -/
def cleanTextPy (maxLen : ℕ) (v : PyVal) : PyStr :=
  match v with
  | .str s => cleanText maxLen s
  | _ => []

/-- The `canonical` helper of `ConceptMapAgent.enhance_spec`: lowercase,
then delete every whitespace character. -/
def canonical (l : PyStr) : PyStr :=
  (l.map Char.toLower).filter (fun c => !(pyIsSpace c))

/-- Lexicographic string comparison by code point (Python `<=` on `str`),
used by `sorted` on a two-string tuple. -/
def strLe : PyStr → PyStr → Bool
  | [], _ => true
  | _ :: _, [] => false
  | a :: as, b :: bs => if a = b then strLe as bs else decide (a < b)

/-- `tuple(sorted((a, b)))` for two strings. -/
def sortedPair (a b : PyStr) : PyStr × PyStr :=
  if strLe a b then (a, b) else (b, a)

/-- `s.add(x)` on a Python set modelled as an insertion-ordered list. -/
def setAdd (l : List PyStr) (x : PyStr) : List PyStr :=
  if x ∈ l then l else l ++ [x]

/-- Association-list lookup used for `canon_to_display.get`. -/
def assocGet (m : List (PyStr × PyStr)) (k : PyStr) : Option PyStr :=
  (m.find? (fun kv => kv.1 == k)).map (·.2)

example : cleanText 60 "  héllo   World  ".toList = "héllo World".toList := by decide
example : canonical "Héllo World".toList = "hélloworld".toList := by decide
example : pyStrip "  a b ".toList = "a b".toList := by decide
example : sortedPair "b".toList "a".toList = ("a".toList, "b".toList) := by decide

/-- A sanitized relationship (`{"from": ..., "to": ..., "label": ...}`). -/
structure RelOut where
  frm : PyStr
  dst : PyStr
  label : PyStr
deriving DecidableEq

/-- State of the concept-normalization loop of `ConceptMapAgent.enhance_spec`
(`normalized_concepts`, `seen`, `canon_to_display`). -/
structure ConceptAcc where
  concepts : List PyStr
  seen : List PyStr
  canonToDisplay : List (PyStr × PyStr)
deriving DecidableEq

/-- The `for c in concepts` loop of `ConceptMapAgent.enhance_spec`
(lines 69–79): clean, dedupe case/space-insensitively, drop the topic's
display text, and stop once 30 concepts are kept.  Non-string items
`continue` before the cap check, exactly as in the source. -/
def conceptLoop (topic : PyStr) : List PyVal → ConceptAcc → ConceptAcc
  | [], acc => acc
  | c :: cs, acc =>
    match c with
    | .str raw =>
      let cleaned := cleanText 60 raw
      let canon := canonical cleaned
      let acc2 :=
        if cleaned ≠ [] ∧ canon ∉ acc.seen ∧ cleaned ≠ topic then
          { concepts := acc.concepts ++ [cleaned]
            seen := acc.seen ++ [canon]
            canonToDisplay := acc.canonToDisplay ++ [(canon, cleaned)] }
        else acc
      if acc2.concepts.length ≥ 30 then acc2 else conceptLoop topic cs acc2
    | _ => conceptLoop topic cs acc

/-- State of the relationship-sanitization loop (`sanitized_relationships`,
`missing_concepts`, `pair_seen_unordered`). -/
structure RelAcc where
  rels : List RelOut
  missing : List PyStr
  pairSeen : List (PyStr × PyStr)
deriving DecidableEq

/-- One iteration of the `for rel in relationships` loop
(lines 87–114): clean the endpoints and label, drop empty fields,
self-loops (canonically) and duplicate unordered pairs, resolve endpoint
display text through `canon_to_display`, and record unknown endpoints in
`missing_concepts` (as canonical forms). -/
def relStep (topic : PyStr) (seen : List PyStr) (c2d : List (PyStr × PyStr))
    (acc : RelAcc) (r : PyVal) : RelAcc :=
  match r with
  | .dict kvs =>
    let frmRaw := cleanTextPy 60 ((dictGet kvs "from".toList).getD (.str []))
    let toRaw := cleanTextPy 60 ((dictGet kvs "to".toList).getD (.str []))
    let label := cleanTextPy 60 ((dictGet kvs "label".toList).getD (.str []))
    if frmRaw = [] ∨ toRaw = [] ∨ label = [] then acc
    else
      let frmC := canonical frmRaw
      let toC := canonical toRaw
      let topicC := canonical topic
      if frmC = toC then acc
      else
        let frm := (assocGet c2d frmC).getD frmRaw
        let toD := (assocGet c2d toC).getD toRaw
        let key := sortedPair frmC toC
        if key ∈ acc.pairSeen then acc
        else
          let missing1 :=
            if frmC ∉ seen ∧ frmC ≠ topicC then setAdd acc.missing frmC
            else acc.missing
          let missing2 :=
            if toC ∉ seen ∧ toC ≠ topicC then setAdd missing1 toC
            else missing1
          { rels := acc.rels ++ [⟨frm, toD, label⟩]
            missing := missing2
            pairSeen := acc.pairSeen ++ [key] }
  | _ => acc

/-- The whole relationship-sanitization loop. -/
def relLoop (topic : PyStr) (seen : List PyStr) (c2d : List (PyStr × PyStr))
    (rels : List PyVal) : RelAcc :=
  rels.foldl (relStep topic seen c2d) ⟨[], [], []⟩

/-- The display-text search of the promotion loop (lines 120–130): the first
raw relationship whose cleaned `from` (checked first) or `to` endpoint has
the canonical form `mcCanon`. -/
def findDisplayFor (relsRaw : List PyVal) (mcCanon : PyStr) : Option PyStr :=
  relsRaw.findSome? (fun r =>
    match r with
    | .dict kvs =>
      let frmRaw := cleanTextPy 60 ((dictGet kvs "from".toList).getD (.str []))
      let toRaw := cleanTextPy 60 ((dictGet kvs "to".toList).getD (.str []))
      if canonical frmRaw = mcCanon then some frmRaw
      else if canonical toRaw = mcCanon then some toRaw
      else Option.none
    | _ => Option.none)

/-- The promotion loop (lines 117–135): walk the snapshot of
`missing_concepts` and append each still-missing endpoint to the concept
list while fewer than 30 concepts are kept.  `if mc_display:` is Python
truthiness, so an empty display is not appended. -/
def promoteLoop (relsRaw : List PyVal) : List PyStr → ConceptAcc → ConceptAcc
  | [], acc => acc
  | mc :: ms, acc =>
    let acc2 :=
      if acc.concepts.length < 30 ∧ mc ∉ acc.seen then
        match findDisplayFor relsRaw mc with
        | some d =>
          if d ≠ [] then
            { concepts := acc.concepts ++ [d]
              seen := acc.seen ++ [mc]
              canonToDisplay := acc.canonToDisplay ++ [(mc, d)] }
          else acc
        | Option.none => acc
      else acc
    promoteLoop relsRaw ms acc2

/-- The final relationship filter (lines 137–143): both endpoints must be a
kept concept or the topic. -/
def finalFilter (topic : PyStr) (concepts : List PyStr) (rels : List RelOut) :
    List RelOut :=
  rels.filter (fun r =>
    (r.frm ∈ concepts ∨ r.frm = topic) ∧ (r.dst ∈ concepts ∨ r.dst = topic))

/-- The normalized data `ConceptMapAgent.enhance_spec` computes before any
layout runs: cleaned topic, deduplicated/capped/promoted concept list, and
sanitized relationship list. -/
structure NormOut where
  topic : PyStr
  concepts : List PyStr
  rels : List RelOut
deriving DecidableEq

/-- Lines 54–143 of `ConceptMapAgent.enhance_spec`: the full normalization
pipeline from the raw `topic` string and the raw `concepts` /
`relationships` lists. -/
def normalizeSpec (topicRaw : PyStr) (conceptsV relsV : List PyVal) : NormOut :=
  let topic := cleanText 60 topicRaw
  let cacc := conceptLoop topic conceptsV ⟨[], [], []⟩
  let racc := relLoop topic cacc.seen cacc.canonToDisplay relsV
  let pacc := promoteLoop relsV racc.missing cacc
  let rels := finalFilter topic pacc.concepts racc.rels
  ⟨topic, pacc.concepts, rels⟩

example :
    (normalizeSpec "T".toList
      [.str "Apple".toList, .str "apple ".toList, .str "APPLE".toList] []).concepts
      = ["Apple".toList] := by decide

example :
    (normalizeSpec "T".toList [.str "A".toList]
      [.dict [("from".toList, .str "A".toList), ("to".toList, .str "A".toList),
              ("label".toList, .str "x".toList)]]).rels = [] := by decide

example :
    (normalizeSpec "T".toList []
      [.dict [("from".toList, .str "A".toList), ("to".toList, .str "B".toList),
              ("label".toList, .str "x".toList)]]).concepts
      = ["A".toList, "B".toList] := by decide

/-- A normalized 2D position, a value of the `positions` dict.  The source
computes floats; coordinates that never meet a trigonometric function are
produced in `ℚ` and cast. -/
structure GPos where
  x : ℝ
  y : ℝ

/-- A concept-map layout result.  The renderer metadata the source also
stores (`params`, `layers`, `keys`, `key_parts`) is a constant-shaped
by-product no claim refers to and is not modelled. -/
structure CMLayout where
  algorithm : String
  positions : List (PyStr × GPos)
  edgeCurvatures : List (PyStr × ℚ)

/-- Python's stable `sorted` with a key order given as a boolean `le`
relation (a total preorder): modelled by stable insertion sort, whose output
agrees with any stable sort. -/
def pySortBy (le : α → α → Bool) (l : List α) : List α :=
  List.insertionSort (fun a b => le a b = true) l

/-- Sort key `(-degree, name)` used to initialize layer orderings. -/
def degNameLe (deg : PyStr → ℕ) (a b : PyStr) : Bool :=
  if (deg a : ℤ) = deg b then strLe a b else decide (-(deg a : ℤ) < -(deg b : ℤ))

/-- The insertion-ordered neighbour set `adj[n]` of the undirected adjacency
built from the sanitized relationships, restricted to known nodes
(`_generate_layout_sugiyama` lines 820–824). -/
def adjOf (rels : List RelOut) (nodes : List PyStr) (n : PyStr) : List PyStr :=
  rels.foldl (fun acc r =>
    if r.frm ∈ nodes ∧ r.dst ∈ nodes then
      let acc1 := if r.frm = n then setAdd acc r.dst else acc
      if r.dst = n then setAdd acc1 r.frm else acc1
    else acc) []

/-- Breadth-first search from the topic (lines 827–835).  The layer map holds
exactly the visited nodes (`math.inf` = absent).  Every node is enqueued at
most once, so `nodes.length` units of fuel always outlast the real queue. -/
def bfsAux (adjF : PyStr → List PyStr) :
    ℕ → List PyStr → List (PyStr × ℕ) → List (PyStr × ℕ)
  | 0, _, lay => lay
  | _ + 1, [], lay => lay
  | fuel + 1, cur :: q, lay =>
    let curL := ((lay.find? (fun kv => kv.1 == cur)).map (·.2)).getD 0
    let st := (adjF cur).foldl
      (fun (st : List (PyStr × ℕ) × List PyStr) nb =>
        if (st.1.find? (fun kv => kv.1 == nb)).isNone then
          (st.1 ++ [(nb, curL + 1)], st.2 ++ [nb])
        else st)
      (lay, q)
    bfsAux adjF fuel st.2 st.1

/-- BFS layers of all nodes, seeded with the topic at layer 0. -/
def bfsLayers (adjF : PyStr → List PyStr) (topic : PyStr) (nodes : List PyStr) :
    List (PyStr × ℕ) :=
  bfsAux adjF nodes.length [topic] [(topic, 0)]

/-- `layer[n]` after the disconnected-node resolution (lines 836–841):
unvisited nodes land on `maxFinite + 1`. -/
def layerOfNode (lay : List (PyStr × ℕ)) (maxFinite : ℕ) (n : PyStr) : ℕ :=
  (((lay.find? (fun kv => kv.1 == n)).map (·.2))).getD (maxFinite + 1)

/-- Directed edge list from lower to higher layer (lines 857–867); edges
inside one layer are skipped. -/
def dirEdges (layer : PyStr → ℕ) (nodes : List PyStr) (rels : List RelOut) :
    List (PyStr × PyStr) :=
  rels.foldl (fun acc r =>
    if r.frm ∈ nodes ∧ r.dst ∈ nodes then
      if layer r.frm = layer r.dst then acc
      else if layer r.frm < layer r.dst then acc ++ [(r.frm, r.dst)]
      else acc ++ [(r.dst, r.frm)]
    else acc) []

/-- Order on the sort keys `(bc_val, -degree, name)` of `barycenter_order`;
`Option.none` stands for `float('inf')` (childless nodes sort last). -/
def bcKeyLe (a b : Option ℚ × ℤ × PyStr) : Bool :=
  if a.1 = b.1 then
    if a.2.1 = b.2.1 then strLe a.2.2 b.2.2 else decide (a.2.1 < b.2.1)
  else
    match a.1, b.1 with
    | Option.none, _ => false
    | some _, Option.none => true
    | some x, some y => decide (x < y)

/-- `barycenter_order` (lines 870–885): reorder a layer by the mean index of
each node's neighbours in the adjacent, already-ordered layer. -/
def barycenterOrder (deg : PyStr → ℕ) (cur neighborLayer : List PyStr)
    (edges : List (PyStr × PyStr)) (lowerToUpper : Bool) : List PyStr :=
  let idxOf := fun nb => (neighborLayer.findIdx? (fun m => m = nb)).getD 0
  let keyOf := fun n =>
    let neighbors :=
      if lowerToUpper then (edges.filter (fun e => e.1 = n)).map (·.2)
      else (edges.filter (fun e => e.2 = n)).map (·.1)
    let bcVal : Option ℚ :=
      if neighbors = [] then Option.none
      else some (((neighbors.map (fun nb => (idxOf nb : ℚ))).sum) / neighbors.length)
    (bcVal, (-(deg n : ℤ), n))
  (pySortBy bcKeyLe ((cur.map keyOf))).map (·.2.2)

/-- One full barycenter sweep (downward then upward, lines 888–898),
updating the per-layer orderings in place. -/
def sweepOnce (deg : PyStr → ℕ) (edges : List (PyStr × PyStr)) (maxLayer : ℕ)
    (a : List (List PyStr)) : List (List PyStr) :=
  let down := (List.range' 1 maxLayer).foldl
    (fun a l => a.set l (barycenterOrder deg (a.getD l []) (a.getD (l - 1) []) edges false)) a
  (List.range maxLayer).reverse.foldl
    (fun a l => a.set l (barycenterOrder deg (a.getD l []) (a.getD (l + 1) []) edges true)) down

/-- `approx_width` (lines 901–906): ≈9 px per character, capped, plus fixed
padding. -/
def approxWidth (label : PyStr) (isTopic : Bool) : ℚ :=
  let maxText : ℚ := if isTopic then 260 else 220
  min maxText (9 * ((max 1 label.length : ℕ) : ℚ)) + 32

/-- Horizontal slot assignment inside one layer (lines 909–930): cumulative
widths with a 40 px gap, centred at 0; returns the centre abscissas and the
layer's span. -/
def layerXPositions (topic : PyStr) (nodesInLayer : List PyStr) :
    List (PyStr × ℚ) × ℚ :=
  let widths := nodesInLayer.map (fun n => approxWidth n (n = topic))
  let span := widths.sum + 40 * ((nodesInLayer.length - 1 : ℕ) : ℚ)
  let step := fun (st : List (PyStr × ℚ) × ℚ) (nw : PyStr × ℚ) =>
    (st.1 ++ [(nw.1, st.2 + nw.2 / 2)], st.2 + nw.2 + 40)
  (((nodesInLayer.zip widths).foldl step ([], -(span / 2))).1, span)

/-- `_generate_layout_sugiyama` (lines 801–963). -/
def sugiyamaLayout (topic : PyStr) (concepts : List PyStr) (rels : List RelOut) :
    CMLayout :=
  if concepts = [] then { algorithm := "sugiyama", positions := [], edgeCurvatures := [] }
  else
    let nodes := topic :: concepts
    let adjF := adjOf rels nodes
    let lay := bfsLayers adjF topic nodes
    let maxFinite := (lay.map (·.2)).foldl max 0
    let layer := layerOfNode lay maxFinite
    let maxLayer := (nodes.map layer).foldl max 0
    let deg := fun n => (adjF n).length
    let initLayers := (List.range (maxLayer + 1)).map
      (fun l => pySortBy (degNameLe deg) (nodes.filter (fun n => layer n = l)))
    let edges := dirEdges layer nodes rels
    let finalLayers :=
      sweepOnce deg edges maxLayer (sweepOnce deg edges maxLayer
        (sweepOnce deg edges maxLayer (sweepOnce deg edges maxLayer initLayers)))
    let layerPos := (List.range (maxLayer + 1)).map
      (fun l => layerXPositions topic (finalLayers.getD l []))
    let maxSpan := (layerPos.map (·.2)).foldl max 0
    let d : ℚ := 0.9 / ((max 1 maxLayer : ℕ) : ℚ)
    let yOf := fun (l : ℕ) =>
      if l = 0 then (0 : ℚ) else (if l % 2 = 1 then 1 else -1) * ((l : ℚ) * d)
    let positions := ((List.range (maxLayer + 1)).map (fun l =>
      ((layerPos.getD l ([], 0)).1.map (fun ncx =>
        let xn : ℚ := if maxSpan = 0 then 0 else ncx.2 / (maxSpan / 2)
        let xc := max (-0.95) (min 0.95 xn)
        (ncx.1, GPos.mk (xc : ℚ) (max (-0.95) (min 0.95 (yOf l)) : ℚ)))))).flatten
    let curv := ((List.range (maxLayer + 1)).map (fun l =>
      (((layerPos.getD l ([], 0)).1.enum).map (fun np =>
        (np.2.1, ([0, 12, -12, 24, -24].getD (np.1 % 5) 0 : ℚ)))))).flatten
    { algorithm := "sugiyama", positions := positions, edgeCurvatures := curv }

/-- Decimal digits of a natural number, fuel-recursive so that it reduces
definitionally (`fuel ≥ n` always holds at the call site `natRepr`). -/
def natReprAux : ℕ → ℕ → PyStr
  | 0, n => [Nat.digitChar n]
  | fuel + 1, n =>
    if n < 10 then [Nat.digitChar n] else natReprAux fuel (n / 10) ++ [Nat.digitChar (n % 10)]

/-- Python's decimal rendering `str(n)` of a natural number. -/
def natRepr (n : ℕ) : PyStr :=
  natReprAux n n

/-- Python's decimal rendering `str(n)` of an integer. -/
def intRepr (n : ℤ) : PyStr :=
  if n < 0 then '-' :: natRepr n.natAbs else natRepr n.natAbs

mutual

/-- `repr(v)`.  String escaping inside `repr` is not modelled; no claim
inspects these renderings. -/
def pyReprVal : PyVal → PyStr
  | .none => "None".toList
  | .bool true => "True".toList
  | .bool false => "False".toList
  | .int n => intRepr n
  | .str s => Char.ofNat 39 :: s ++ [Char.ofNat 39]
  | .list xs => '[' :: List.intercalate ", ".toList (pyReprList xs) ++ [']']
  | .dict kvs => Char.ofNat 123 :: List.intercalate ", ".toList (pyReprDict kvs) ++ [Char.ofNat 125]

/-- `repr` of the elements of a list value. -/
def pyReprList : List PyVal → List PyStr
  | [] => []
  | v :: vs => pyReprVal v :: pyReprList vs

/-- `repr` of the entries of a dict value. -/
def pyReprDict : List (PyStr × PyVal) → List PyStr
  | [] => []
  | kv :: kvs =>
    ((Char.ofNat 39 :: kv.1 ++ [Char.ofNat 39]) ++ ": ".toList ++ pyReprVal kv.2) ::
      pyReprDict kvs

end

/-- Python `str(v)`: the string itself for strings, `repr`-style rendering
otherwise. -/
def pyToStr (v : PyVal) : PyStr :=
  match v with
  | .str s => s
  | _ => pyReprVal v

/-- Insertion-ordered grouping `defaultdict(list)` keyed by the second
component (used for the radial strategy's rings). -/
def groupInsOrder (pairs : List (PyStr × ℕ)) : List (ℕ × List PyStr) :=
  pairs.foldl (fun acc p =>
    if (acc.find? (fun g => g.1 == p.2)).isSome then
      acc.map (fun g => if g.1 = p.2 then (g.1, g.2 ++ [p.1]) else g)
    else acc ++ [(p.2, [p.1])]) []

/-- `_generate_layout_radial` (lines 1386–1510).  The BFS of lines
1407–1424 is dead code — its `concept_layers`/`unassigned` results are
overwritten at line 1442 before any use — and is therefore not modelled.
`rng` is the stream of `random.uniform(-0.1, 0.1)` draws of the global,
unseeded generator; one draw is consumed per node of every ring that holds
more than one concept, in ring-insertion order. -/
noncomputable def radialLayout (rng : ℕ → ℝ) (topic : PyStr) (concepts : List PyStr)
    (_rels : List RelOut) : CMLayout :=
  if concepts = [] then
    { algorithm := "radial", positions := [(topic, ⟨0, 0⟩)], edgeCurvatures := [] }
  else
    let total := concepts.length
    let target : ℕ := if total ≤ 10 then 2 else if total ≤ 20 then 3 else 4
    let cpc := total / target
    let layerOfIdx := fun (i : ℕ) =>
      if (i : ℚ) < cpc * 0.7 then 1
      else if (i : ℚ) < cpc * 1.8 then 2
      else if (i : ℚ) < cpc * 3.0 then 3
      else min 4 target
    let layers := groupInsOrder (concepts.enum.map (fun p => (p.2, layerOfIdx p.1)))
    let maxLayer := if layers = [] then 1 else (layers.map (·.1)).foldl max 0
    let inc : ℚ := min 1.2 (3.5 / (maxLayer : ℚ))
    let ringStep := fun (st : List (PyStr × GPos) × ℕ) (ring : ℕ × List PyStr) =>
      let n := ring.2.length
      let radius : ℚ := min (1.8 + ((ring.1 : ℚ) - 1) * inc) 5.0
      ring.2.enum.foldl (fun (st : List (PyStr × GPos) × ℕ) ic =>
        let angle : ℝ := (2 * Real.pi * (ic.1 : ℝ)) / (n : ℝ)
        let off : ℝ := if n > 1 then rng st.2 else 0
        let fa := angle + off
        (st.1 ++ [(ic.2, ⟨(radius : ℝ) * Real.cos fa, (radius : ℝ) * Real.sin fa⟩)],
         if n > 1 then st.2 + 1 else st.2)) st
    let positions := (layers.foldl ringStep ([(topic, ⟨0, 0⟩)], 0)).1
    let curv := concepts.enum.map
      (fun p => (p.2, ([0, 8, -8, 16, -16].getD (p.1 % 5) 0 : ℚ)))
    { algorithm := "radial", positions := positions, edgeCurvatures := curv }

/-- `x % y` on floats for positive `y` (Python semantics: the result takes
the sign of the divisor). -/
noncomputable def rfmod (x y : ℝ) : ℝ :=
  x - y * (⌊x / y⌋ : ℤ)

/-- `math.atan2(y, x)`, as the complex argument of `x + y·i` (both range
over `(-π, π]`; the signed-zero edge cases of floats are not modelled). -/
noncomputable def pyAtan2 (y x : ℝ) : ℝ :=
  Complex.arg ⟨x, y⟩

/-- Membership test `v in node_set` for a Python set of strings: unhashable
values raise `TypeError` (caught by the top-level handler). -/
def pyMemStrs (v : PyVal) (nodes : List PyStr) : Except String Bool :=
  match v with
  | .str s => pure (decide (s ∈ nodes))
  | .list _ => throw "TypeError: unhashable type"
  | .dict _ => throw "TypeError: unhashable type"
  | _ => pure false

/-- The undirected adjacency of `_generate_layout_sectors` (lines 981–985):
raw relationship items carry no `isinstance` guard, so a non-dict item
raises, as does an unhashable endpoint. -/
def sectorsAdjOf (relsV : List PyVal) (nodes : List PyStr) (n : PyStr) :
    Except String (List PyStr) :=
  relsV.foldlM (fun acc r =>
    match r with
    | .dict kvs =>
      let a := pyGet (.dict kvs) "from".toList
      let b := pyGet (.dict kvs) "to".toList
      do
        let ha ← pyMemStrs a nodes
        let hb ← pyMemStrs b nodes
        if ha ∧ hb then
          match a, b with
          | .str sa, .str sb =>
            let acc1 := if sa = n then setAdd acc sb else acc
            pure (if sb = n then setAdd acc1 sa else acc1)
          | _, _ => pure acc
        else pure acc
    | _ => throw "AttributeError: no attribute get") []

/-- The fixed key-position tables of `_generate_layout_sectors`
(lines 1022–1049), plus the computed ring for many keys. -/
noncomputable def sectorsKeyPos (s : ℕ) : List (ℝ × ℝ) :=
  if s ≤ 4 then
    [(0.6, 0.4), (-0.5, 0.5), (-0.6, -0.4), (0.5, -0.5)]
  else if s ≤ 6 then
    [(0.7, 0.2), (0.35, 0.6), (-0.35, 0.6), (-0.7, 0.2), (-0.35, -0.6), (0.35, -0.6)]
  else
    (List.range s).map (fun i =>
      let angle : ℝ := (i : ℝ) * 2 * Real.pi / (s : ℝ) - Real.pi / 2
      let radius : ℝ := 0.5 + 0.2 * Real.sin ((i : ℝ) * 1.3)
      (radius * Real.cos angle, radius * Real.sin angle))

/-- Part placement around one key in `_generate_layout_sectors`
(lines 1063–1109): golden-angle offsets, three `rng42` draws per part
(distance, x-jitter, y-jitter), expansion by 1.2 and clamping to ±0.9. -/
noncomputable def sectorsPartsAround (rng42 : ℕ → ℝ) (kx ky : ℝ)
    (parts : List PyStr) (startIdx : ℕ) : List (PyStr × GPos) × ℕ :=
  let nParts := parts.length
  (parts.enum.foldl (fun (st : List (PyStr × GPos) × ℕ) ip =>
    let idx := ip.1
    let idxDiv4 : ℕ := idx / 4
    let baseDistance : ℝ :=
      if nParts ≤ 3 then 0.15 + 0.1 * (idx : ℝ) else 0.2 + 0.15 * (idxDiv4 : ℝ)
    let angleRange : ℝ := if nParts ≤ 3 then Real.pi else 1.5 * Real.pi
    let angleOffset := rfmod ((idx : ℝ) * 1.618 * Real.pi) angleRange - angleRange / 2
    let angle := pyAtan2 ky kx + angleOffset
    let distance := baseDistance + rng42 st.2
    let px0 := kx + distance * Real.cos angle + rng42 (st.2 + 1)
    let py0 := ky + distance * Real.sin angle + rng42 (st.2 + 2)
    let px1 := px0 * 1.2
    let py1 := py0 * 1.2
    let px := max (-0.9) (min 0.9 px1)
    let py := max (-0.9) (min 0.9 py1)
    (st.1 ++ [(ip.2, ⟨px, py⟩)], st.2 + 3)) ([], startIdx))

/-- `_generate_layout_sectors` (lines 965–1131), the fallback sector layout
working on the raw `concepts`/`relationships` spec entries.  A truthy
non-list `concepts`, a non-string concept label, a non-dict relationship
item or an unhashable endpoint raises (labels whose Python type happens to
be homogeneous and orderable, e.g. all-int, are likewise modelled as the
`TypeError` of the mixed case).  `rng42` models the draws of the global
generator right after this function's `random.seed(42)` call. -/
noncomputable def generateLayoutSectors (rng42 : ℕ → ℝ) (topic : PyStr)
    (conceptsV relsV : PyVal) : Except String CMLayout :=
  match conceptsV with
  | .list xs =>
    if xs.isEmpty then pure { algorithm := "sectors", positions := [], edgeCurvatures := [] }
    else do
      let concepts ← xs.mapM (fun v =>
        match v with
        | PyVal.str s => pure s
        | _ => throw "TypeError: unorderable or unhashable concept label")
      let relsL ← match relsV with
        | .list rs => pure rs
        | v => if pyTruthy v then throw "TypeError: not iterable" else pure []
      let nodes := topic :: concepts
      let adjF := fun n => sectorsAdjOf relsL nodes n
      let adjTable ← nodes.mapM (fun n => do pure (n, ← adjF n))
      let adjOfN := fun n => ((adjTable.find? (fun kv => kv.1 == n)).map (·.2)).getD []
      let deg := fun n => (adjOfN n).length
      let keysRaw := adjOfN topic
      let keys :=
        if keysRaw = [] then
          let candidates := pySortBy (degNameLe deg) concepts
          candidates.take (max 4 (min 6 candidates.length))
        else
          (pySortBy (degNameLe deg) keysRaw).take (max 4 (min 8 keysRaw.length))
      let remaining := concepts.filter (fun c => c ∉ keys)
      let keyParts := remaining.foldl (fun (kp : List (PyStr × List PyStr)) c =>
        let linked := keys.filter (fun k => c ∈ adjOfN k)
        let ksel :=
          if linked ≠ [] then (pySortBy (degNameLe deg) linked).headD []
          else (pySortBy (degNameLe deg) keys).headD []
        kp.map (fun e => if e.1 = ksel then (e.1, e.2 ++ [c]) else e))
        (keys.map (fun k => (k, ([] : List PyStr))))
      let s := max 1 keys.length
      let keyPosTable := sectorsKeyPos s
      let keyXY := keys.enum.map (fun ik =>
        if h : ik.1 < keyPosTable.length then (ik.2, keyPosTable.get ⟨ik.1, h⟩)
        else
          let angle : ℝ := (ik.1 : ℝ) * 2 * Real.pi / (s : ℝ) - Real.pi / 2
          (ik.2, (0.6 * Real.cos angle, 0.6 * Real.sin angle)))
      let partsBlocks := keyXY.foldl
        (fun (st : List (PyStr × GPos) × ℕ) kxy =>
          let parts := ((keyParts.find? (fun e => e.1 == kxy.1)).map (·.2)).getD []
          let blk := sectorsPartsAround rng42 kxy.2.1 kxy.2.2 parts st.2
          (st.1 ++ blk.1, blk.2)) ([], 0)
      let positions :=
        (topic, GPos.mk 0 0) :: keyXY.map (fun kxy => (kxy.1, GPos.mk kxy.2.1 kxy.2.2))
          ++ partsBlocks.1
      let curv := (keys.enum.map (fun ik =>
          (ik.2, ([0, 12, -12].getD (ik.1 % 3) 0 : ℚ)))) ++
        (keyParts.map (fun e => e.2.enum.map (fun jp =>
          (jp.2, ([0, 12, -12, 24, -24].getD (jp.1 % 5) 0 : ℚ))))).flatten
      pure { algorithm := "sectors", positions := positions, edgeCurvatures := curv }
  | v => if pyTruthy v then throw "TypeError: not a list" else
      pure { algorithm := "sectors", positions := [], edgeCurvatures := [] }

/-- Insert-or-replace on a dict modelled as an association list (existing
keys keep their position, Python semantics). -/
def dictInsert (m : List (PyStr × List PyStr)) (k : PyStr) (v : List PyStr) :
    List (PyStr × List PyStr) :=
  if (m.find? (fun e => e.1 == k)).isSome then
    m.map (fun e => if e.1 = k then (e.1, v) else e)
  else m ++ [(k, v)]

/-- `v == "s"` for a Python value compared against a string literal. -/
def isStrEq (v : PyVal) (s : PyStr) : Bool :=
  match v with
  | .str t => t == s
  | _ => false

/-- The part-name extraction of `_generate_layout_sectors_from_keys_parts`
(lines 1147–1150): `p.get('name') if isinstance(p, dict) else str(p)`,
kept only when a string with truthy `strip()`. -/
def partName (p : PyVal) : Option PyStr :=
  match p with
  | .dict kvs =>
    match (dictGet kvs "name".toList).getD .none with
    | .str s => if pyStrip s ≠ [] then some s else Option.none
    | _ => Option.none
  | _ =>
    let s := pyToStr p
    if pyStrip s ≠ [] then some s else Option.none

/-- Iterating `parts_map.get(k) or []`: lists yield their items, strings
their characters, dicts their keys; a truthy number raises `TypeError`. -/
def pyIterate (v : PyVal) : Except String (List PyVal) :=
  match v with
  | .list xs => pure xs
  | .str s => pure (s.map (fun c => PyVal.str [c]))
  | .dict kvs => pure (kvs.map (fun kv => PyVal.str kv.1))
  | v => if pyTruthy v then throw "TypeError: not iterable" else pure []

/-- The position/curvature computation of
`_generate_layout_sectors_from_keys_parts` (lines 1152–1237) once keys and
parts are extracted: keys evenly on an adaptive inner ring, parts fanned
across each key's angular sector on adaptive radial bands, clamped to the
adaptive canvas bound `canvas_utilization * 1.05`. -/
noncomputable def sectorsKPPositions (topic : PyStr) (keys : List PyStr)
    (keyParts : List (PyStr × List PyStr)) : CMLayout :=
  let s := max 1 keys.length
  let sectorSpan : ℝ := 2 * Real.pi / (s : ℝ)
  let totalConcepts := (keyParts.map (·.2.length)).sum
  let maxGroup := if keyParts.isEmpty then 1 else (keyParts.map (·.2.length)).foldl max 0
  let innerR : ℚ := max 0.2 (min 0.5 (0.8 / (s : ℚ)))
  let cu : ℚ := min 0.95 (0.7 + (totalConcepts : ℚ) / 60)
  let radialLayers : ℕ := max 3 ((maxGroup + 3) / 4)
  let rs : ℚ := (cu - innerR - 0.1) / (radialLayers : ℚ)
  let minR : ℚ := innerR + rs
  let maxR : ℚ := cu
  let gapFactor : ℚ := max 0.6 (min 0.9 (1 - ((maxGroup : ℚ) - 3) * 0.05))
  let bound : ℚ := cu * 1.05
  let partsOf := fun k => ((keyParts.find? (fun e => e.1 == k)).map (·.2)).getD []
  let positions := (topic, GPos.mk 0 0) :: (keys.enum.map (fun ik =>
    let centerAng : ℝ := (ik.1 : ℝ) * sectorSpan
    let kx := (innerR : ℝ) * Real.cos centerAng
    let ky := (innerR : ℝ) * Real.sin centerAng
    let parts := partsOf ik.2
    let nParts := parts.length
    (ik.2, GPos.mk kx ky) :: parts.enum.map (fun jp =>
      let idx : ℕ := jp.1
      let ang : ℝ :=
        if nParts = 1 then centerAng
        else
          let halfSpan := sectorSpan * (gapFactor : ℝ) / 2
          let startAng := centerAng - halfSpan
          let endAng := centerAng + halfSpan
          startAng + ((idx : ℝ) / ((nParts - 1 : ℕ) : ℝ)) * (endAng - startAng)
      let layer : ℕ := idx % radialLayers
      let progress : ℕ := idx / radialLayers
      let baseRadius : ℚ := minR + (layer : ℚ) * rs
      let radialOffset : ℚ := if progress > 0 then (progress : ℚ) * 0.05 else 0
      let rad : ℚ := min maxR (baseRadius + radialOffset)
      let px := max (-(bound : ℝ)) (min (bound : ℝ) ((rad : ℝ) * Real.cos ang))
      let py := max (-(bound : ℝ)) (min (bound : ℝ) ((rad : ℝ) * Real.sin ang))
      (jp.2, GPos.mk px py)))).flatten
  let curv := (keys.enum.map (fun ik =>
    (ik.2, ([0, 12, -12].getD (ik.1 % 3) 0 : ℚ)) ::
      (partsOf ik.2).enum.map (fun jp =>
        (jp.2, ([0, 12, -12, 24, -24].getD (jp.1 % 5) 0 : ℚ))))).flatten
  { algorithm := "sectors", positions := positions, edgeCurvatures := curv }

/-- `_generate_layout_sectors_from_keys_parts` (lines 1133–1237): extract
key names and per-key part names from the spec, falling back to
`_generate_layout_sectors` when no usable key remains. -/
noncomputable def sectorsFromKeysParts (rng42 : ℕ → ℝ) (topic : PyStr) (spec : PyVal) :
    Except String CMLayout :=
  let keysV := match pyOr (pyGet spec "keys".toList) (.list []) with
    | .list xs => xs
    | _ => []
  let keys := (keysV.map (fun k =>
    match k with
    | PyVal.dict kvs => (dictGet kvs "name".toList).getD .none
    | _ => .str (pyToStr k))).filterMap (fun v =>
      match v with
      | PyVal.str s => if pyStrip s ≠ [] then some s else Option.none
      | _ => Option.none)
  if keys = [] then
    generateLayoutSectors rng42 topic (pyOr (pyGet spec "concepts".toList) (.list []))
      (pyOr (pyGet spec "relationships".toList) (.list []))
  else do
    let partsMap ← match pyOr (pyGet spec "key_parts".toList) (.dict []) with
      | PyVal.dict kvs => pure kvs
      | _ => throw "AttributeError: no attribute get"
    let keyParts ← keys.foldlM (fun kp k => do
      let plist ← pyIterate (pyOr ((dictGet partsMap k).getD .none) (.list []))
      pure (dictInsert kp k (plist.filterMap partName))) []
    pure (sectorsKPPositions topic keys keyParts)

/-- The recommended canvas dimensions of the graph engine
(`_recommended_dimensions`). -/
structure CMDims where
  baseWidth : ℤ
  baseHeight : ℤ
  width : ℤ
  height : ℤ
  padding : ℤ
deriving DecidableEq

/-- `estimate_text_box` inside `_compute_recommended_dimensions_from_layout`
(lines 1613–1638): character-width heuristic with wrap estimation; returns
`(box_w, box_h)` in pixels. -/
def estimateTextBox (text : PyStr) (isTopic : Bool) : ℤ × ℤ :=
  let fontSize : ℚ := if isTopic then 26 else 22
  let maxTextWidth : ℚ := if isTopic then 350 else 300
  let charWidth := fontSize * 0.6
  let textWidth := (text.length : ℚ) * charWidth
  let lines : ℤ := if textWidth > maxTextWidth then max 1 (⌊textWidth / maxTextWidth⌋ + 1) else 1
  let actualTextWidth := if textWidth > maxTextWidth then min textWidth maxTextWidth else textWidth
  let lineHeight : ℤ := ⌊fontSize * 1.2⌋
  (⌊actualTextWidth⌋ + 16 * 2, lines * lineHeight + 10 * 2)

/-- `max(l, default=d)`. -/
def maxListD (l : List ℤ) (d : ℤ) : ℤ :=
  match l with
  | [] => d
  | h :: t => t.foldl max h

/-- `min`/`max` of a nonempty list of reals (Python `min(xs)`/`max(xs)`). -/
noncomputable def rListMin (l : List ℝ) : ℝ :=
  match l with
  | [] => 0
  | h :: t => t.foldl min h

/-- See `rListMin`. -/
noncomputable def rListMax (l : List ℝ) : ℝ :=
  match l with
  | [] => 0
  | h :: t => t.foldl max h

/-- `_compute_recommended_dimensions_from_layout` (lines 1597–1700).  The
second empty-coordinate fallback at line 1651 is unreachable (every stored
position carries both coordinates) and collapses into the first. -/
noncomputable def computeRecommendedDimensionsCM (layout : CMLayout) (topic : PyStr)
    (concepts : List PyStr) : CMDims :=
  if layout.positions.isEmpty then ⟨800, 600, 800, 600, 100⟩
  else
    let topicBox := estimateTextBox topic true
    let conceptBoxes := concepts.map (fun c => estimateTextBox c false)
    let xs := layout.positions.map (·.2.x)
    let ys := layout.positions.map (·.2.y)
    let coordSpanX : ℝ := max 0.4 (rListMax xs - rListMin xs)
    let coordSpanY : ℝ := max 0.4 (rListMax ys - rListMin ys)
    let contentAreaX := coordSpanX * 180
    let contentAreaY := coordSpanY * 180
    let maxConceptW := maxListD (conceptBoxes.map (·.1)) 100
    let maxConceptH := maxListD (conceptBoxes.map (·.2)) 40
    let nodeMarginX := max topicBox.1 maxConceptW / 2
    let nodeMarginY := max topicBox.2 maxConceptH / 2
    let totalWidth : ℝ := contentAreaX + 2 * (nodeMarginX : ℝ) + 2 * 80
    let totalHeight : ℝ := contentAreaY + 2 * (nodeMarginY : ℝ) + 2 * 80
    let numConcepts := concepts.length
    let minWidth : ℤ := max 600 (400 + (numConcepts : ℤ) * 10)
    let minHeight : ℤ := max 500 (350 + (numConcepts : ℤ) * 8)
    let widthPx : ℤ := ⌊max (minWidth : ℝ) (min 1400 totalWidth)⌋
    let heightPx : ℤ := ⌊max (minHeight : ℝ) (min 1200 totalHeight)⌋
    ⟨widthPx, heightPx, widthPx, heightPx, 80⟩

/-- The enhanced spec returned by a successful `ConceptMapAgent.enhance_spec`
call.  The passthrough metadata (`_config`, `_method`, `_concept_count`,
`_style`) carries constants or caller data no claim refers to and is not
modelled. -/
structure CMSpecOut where
  topic : PyStr
  concepts : List PyStr
  relationships : List RelOut
  layout : CMLayout
  dims : CMDims

/-- Result of `ConceptMapAgent.enhance_spec`: an error dict
(`{"success": False, "error": msg}`) or a success dict carrying the spec. -/
inductive CMResult where
  | err (msg : String)
  | ok (spec : CMSpecOut)

/-- `ConceptMapAgent.enhance_spec` (lines 40–189).  The `network_first`
method branch and the default branch both run the Sugiyama layout and are
collapsed.  Error strings stand for the source's messages (quotes inside
them are dropped). -/
noncomputable def enhanceCM (rng rng42 : ℕ → ℝ) (spec : PyVal) : CMResult :=
  match spec with
  | .dict kvs =>
    let topicV := pyGet (.dict kvs) "topic".toList
    let conceptsV := pyOr (pyGet (.dict kvs) "concepts".toList) (.list [])
    let relsV := pyOr (pyGet (.dict kvs) "relationships".toList) (.list [])
    match topicV with
    | .str t =>
      if pyStrip t = [] then .err "Invalid or missing topic"
      else
        match conceptsV, relsV with
        | .list cs, .list rs =>
          let n := normalizeSpec t cs rs
          let layoutE : Except String CMLayout :=
            match pyGet (.dict kvs) "keys".toList with
            | .list _ => sectorsFromKeysParts rng42 n.topic (.dict kvs)
            | _ =>
              if isStrEq (pyGet (.dict kvs) "_method".toList) "enhanced_30".toList then
                pure (radialLayout rng n.topic n.concepts n.rels)
              else pure (sugiyamaLayout n.topic n.concepts n.rels)
          match layoutE with
          | .error e => .err ("ConceptMapAgent failed: " ++ e)
          | .ok layout =>
            let dims := computeRecommendedDimensionsCM layout n.topic n.concepts
            .ok ⟨n.topic, n.concepts, n.rels, layout, dims⟩
        | _, _ => .err "concepts and relationships must be lists"
    | _ => .err "Invalid or missing topic"
  | _ => .err "Spec must be a dictionary"

/-- A normalized mind-map child (`{"id": ..., "label": ...}`). -/
structure MMChild where
  id : PyStr
  label : PyStr
deriving DecidableEq

/-- A normalized mind-map branch with its children. -/
structure MMBranch where
  id : PyStr
  label : PyStr
  children : List MMChild
deriving DecidableEq

/-- `MindMapAgent._get_max_branches`: complexity-tier limit with default 8. -/
def getMaxBranches (cc : String) : ℕ :=
  if cc = "simple" then 4 else if cc = "medium" then 8
  else if cc = "complex" then 12 else if cc = "extreme" then 16 else 8

/-- `MindMapAgent._get_max_children_per_branch`: tier limit with default 6. -/
def getMaxChildren (cc : String) : ℕ :=
  if cc = "simple" then 4 else if cc = "medium" then 6
  else if cc = "complex" then 8 else if cc = "extreme" then 10 else 6

/-- The tree engine's `clean_text`: `(value or "").strip()`.  A truthy
non-string raises `AttributeError` (no `.strip`), a falsy value becomes the
empty string. -/
def mmCleanVal (v : PyVal) : Except String PyStr :=
  if pyTruthy v then
    match v with
    | .str s => pure (pyStrip s)
    | _ => throw "AttributeError: object has no attribute strip"
  else pure []

/-- The nested-children loop of `MindMapAgent.enhance_spec` (lines 107–123):
ids deduplicated against the global `seen_ids`, capped at
`_get_max_children_per_branch()` = 6. -/
def mmNestedLoop : List PyVal → List PyStr → List MMChild →
    Except String (List MMChild × List PyStr)
  | [], seen, acc => pure (acc, seen)
  | nc :: ncs, seen, acc =>
    match nc with
    | .dict kvs => do
      let nid ← mmCleanVal ((dictGet kvs "id".toList).getD (.str []))
      let nlabel ← mmCleanVal ((dictGet kvs "label".toList).getD (.str []))
      if nid ≠ [] ∧ nlabel ≠ [] ∧ nid ∉ seen then
        let acc2 := acc ++ [⟨nid, nlabel⟩]
        let seen2 := seen ++ [nid]
        if acc2.length ≥ getMaxChildren "medium" then pure (acc2, seen2)
        else mmNestedLoop ncs seen2 acc2
      else mmNestedLoop ncs seen acc
    | _ => mmNestedLoop ncs seen acc

/-- The branch-normalization loop of `MindMapAgent.enhance_spec`
(lines 87–132): skip non-dicts, clean `id`/`label`, dedupe ids globally,
normalize nested children, cap at `_get_max_branches()` = 8. -/
def mmBranchLoop : List PyVal → List PyStr → List MMBranch →
    Except String (List MMBranch × List PyStr)
  | [], seen, acc => pure (acc, seen)
  | c :: cs, seen, acc =>
    match c with
    | .dict kvs => do
      let cid ← mmCleanVal ((dictGet kvs "id".toList).getD (.str []))
      let clabel ← mmCleanVal ((dictGet kvs "label".toList).getD (.str []))
      if cid = [] ∨ clabel = [] then mmBranchLoop cs seen acc
      else if cid ∈ seen then mmBranchLoop cs seen acc
      else
        let seen1 := seen ++ [cid]
        let nestedRaw := (dictGet kvs "children".toList).getD (.list [])
        let nestedR ← match nestedRaw with
          | .list xs => mmNestedLoop xs seen1 []
          | _ => pure ([], seen1)
        let acc2 := acc ++ [⟨cid, clabel, nestedR.1⟩]
        if acc2.length ≥ getMaxBranches "medium" then pure (acc2, nestedR.2)
        else mmBranchLoop cs nestedR.2 acc2
    | _ => mmBranchLoop cs seen acc

/-- The per-character width table of `_calculate_text_width`
(lines 652–666). -/
def pyCharWidth (c : Char) : ℚ :=
  if c = 'i' ∨ c = 'l' ∨ c = 'j' then 0.25
  else if c = 'I' then 0.3
  else if c = 'f' ∨ c = 't' ∨ c = 'r' then 0.35
  else if c = 'c' ∨ c = 'e' ∨ c = 's' ∨ c = 'v' ∨ c = 'x' ∨ c = 'y' ∨ c = 'z' then 0.5
  else if c = 'm' ∨ c = 'w' ∨ c = 'M' ∨ c = 'W' then 0.8
  else if c = '1' then 0.35
  else 0.55

/-- `MindMapAgent._calculate_text_width` (lines 646–676): per-character
widths scaled by font size, plus `20 + 2·len` padding; empty text is 0. -/
def calculateTextWidth (text : PyStr) (fontSize : ℕ) : ℚ :=
  if text = [] then 0
  else (text.map (fun c => pyCharWidth c * (fontSize : ℚ))).sum + (20 + 2 * (text.length : ℚ))

/-- `MindMapAgent._get_adaptive_font_size` (lines 594–618). -/
def getAdaptiveFontSize (text : PyStr) (nodeType : String) : ℕ :=
  let n := text.length
  if nodeType = "topic" then (if n ≤ 10 then 28 else if n ≤ 20 then 24 else 20)
  else if nodeType = "branch" then (if n ≤ 8 then 20 else if n ≤ 15 then 18 else 16)
  else (if n ≤ 6 then 16 else if n ≤ 12 then 14 else 12)

/-- `MindMapAgent._get_adaptive_node_height` (lines 620–644). -/
def getAdaptiveNodeHeight (text : PyStr) (nodeType : String) : ℕ :=
  let n := text.length
  if nodeType = "topic" then (if n ≤ 10 then 70 else if n ≤ 20 then 60 else 50)
  else if nodeType = "branch" then (if n ≤ 8 then 60 else if n ≤ 15 then 50 else 45)
  else (if n ≤ 6 then 45 else if n ≤ 12 then 40 else 35)

/-- `MindMapAgent._get_adaptive_padding` (lines 723–731). -/
def getAdaptivePadding (text : PyStr) : ℕ :=
  if text.length ≤ 5 then 15 else if text.length ≤ 15 then 20 else 25

/-- `MindMapAgent._get_adaptive_spacing` (lines 733–740). -/
def getAdaptiveSpacing (numChildren : ℕ) : ℕ :=
  if numChildren ≤ 2 then 15 else if numChildren ≤ 5 then 20 else 25

/-- `MindMapAgent._calculate_adaptive_branch_radius` (lines 699–721). -/
def calculateAdaptiveBranchRadius (numChildrenTotal numBranches : ℕ) : ℤ :=
  let base : ℚ :=
    if numChildrenTotal ≤ 3 then 180 else if numChildrenTotal ≤ 8 then 220
    else if numChildrenTotal ≤ 15 then 260 else if numChildrenTotal ≤ 25 then 300 else 350
  let factor : ℚ := if numBranches ≤ 3 then 0.9 else if numBranches ≤ 6 then 1.0 else 1.2
  ⌊base * factor⌋

/-- `MindMapAgent._calculate_adaptive_base_padding` (lines 678–697). -/
noncomputable def calculateAdaptiveBasePadding (contentSize : ℝ)
    (numBranches numChildren : ℕ) : ℤ :=
  let base : ℝ :=
    if contentSize < 300 then 60 else if contentSize < 500 then 80
    else if contentSize < 800 then 100 else 120
  let branchFactor : ℝ := min ((numBranches : ℝ) / 4) 1.5
  let base2 := base * (1 + (branchFactor - 1) * 0.2)
  let base3 := base2 * (1 + (min ((numChildren : ℝ) / 10) 1.3 - 1) * 0.15)
  ⌊base3⌋

/-- Python's `%` on integers (nonnegative result for positive divisor). -/
def pyMod (a b : ℤ) : ℤ :=
  (a % b + b) % b

/-- The branch-angle selection of `_generate_mind_map_layout`
(lines 185–226), in degrees.  For more than five branches the dynamic
right/left lists are sorted (stably) by the clockwise key `(x+45) % 360`. -/
def mmAngles (numBranches : ℕ) : List ℤ :=
  if numBranches = 1 then [45]
  else if numBranches = 2 then [45, 225]
  else if numBranches = 3 then [45, 315, 225]
  else if numBranches = 4 then [45, 315, 225, 135]
  else if numBranches = 5 then [45, 0, 315, 135, 225]
  else
    let minSep : ℤ := max 30 ((360 / (numBranches + 2) : ℕ) : ℤ)
    let rightCount := (numBranches + 1) / 2
    let leftCount := numBranches / 2
    let rightAngles := (List.range rightCount).map (fun i =>
      let angle : ℤ := 45 - (i : ℤ) * minSep
      if angle < -45 then 315 + ((i : ℤ) - 2) * minSep else angle)
    let leftAngles := (List.range leftCount).map (fun i =>
      let angle : ℤ := 135 + (i : ℤ) * minSep
      if angle > 315 then 225 - ((i : ℤ) - 2) * minSep else angle)
    pySortBy (fun a b => decide (pyMod (a + 45) 360 ≤ pyMod (b + 45) 360))
      (rightAngles ++ leftAngles)

/-- A value of the tree engine's `positions` dict.  The `branch_index`,
`child_index` and `angle` entries the source also stores are never read
downstream and are not modelled. -/
structure TreePos where
  x : ℝ
  y : ℝ
  width : ℚ
  height : ℚ
  nodeType : String
  text : PyStr

/-- The key `'topic'`. -/
def topicKey : PyStr := "topic".toList

/-- The key `f'branch_{i}'`. -/
def branchKey (i : ℕ) : PyStr := "branch_".toList ++ natRepr i

/-- The key `f'child_{i}_{j}'`. -/
def childKey (i j : ℕ) : PyStr := "child_".toList ++ natRepr i ++ "_".toList ++ natRepr j

/-- The tree engine's layout result.  `connections`, `branch_angles`,
`all_children_distribution` and `params` are renderer metadata no claim
refers to and are not modelled. -/
structure MMLayout where
  positions : List (PyStr × TreePos)

/-- `max` of a nonempty list of rationals. -/
def maxQList (l : List ℚ) : ℚ :=
  match l with
  | [] => 0
  | h :: t => t.foldl max h

/-- `MindMapAgent._position_children_around_branch` (lines 322–432): stack
the children of one branch vertically beside it.  The
`'positions' in globals()` probe at line 356 always fails (`positions` is a
local of the caller), so `total_branches` is the constant 6 and the base
radius the constant `int(120 * 1.5) = 180`. -/
noncomputable def positionChildrenAroundBranch (bx byy : ℝ) (branchAngle : ℤ)
    (children : List MMChild) (branchIndex : ℕ) : List (PyStr × TreePos) :=
  let num := children.length
  if num = 0 then []
  else
    let isRight := (-45 ≤ branchAngle ∧ branchAngle ≤ 45) ∨ (315 ≤ branchAngle ∧ branchAngle ≤ 405)
    let heights := children.map (fun c => (getAdaptiveNodeHeight c.label "child" : ℤ))
    let spacing : ℤ := (getAdaptiveSpacing num : ℤ) + max 15 ((num : ℤ) * 8)
    let blockHeight : ℤ := heights.sum + ((num - 1 : ℕ) : ℤ) * spacing
    let maxTextWidth : ℚ := maxQList (children.map (fun c => calculateTextWidth c.label 14))
    let baseR : ℤ := 180
    let childRadius0 : ℤ :=
      if num ≤ 2 then baseR + 30 else if num ≤ 5 then baseR + 50 else baseR + 70
    let textFactor : ℚ := min (maxTextWidth / 100) 1.8
    let childRadius1 : ℤ := ⌊(childRadius0 : ℚ) * (1 + (textFactor - 1) * 0.3)⌋
    let childRadius : ℤ :=
      if maxTextWidth > 200 then max childRadius1 ⌊maxTextWidth * 0.8⌋ else childRadius1
    (children.enum.foldl (fun (st : List (PyStr × TreePos) × ℝ) ic =>
      let childFont := getAdaptiveFontSize ic.2.label "child"
      let childHeight := getAdaptiveNodeHeight ic.2.label "child"
      let childWidth : ℚ := calculateTextWidth ic.2.label childFont + getAdaptivePadding ic.2.label
      let cx : ℝ := if isRight then bx + (childRadius : ℝ) else bx - (childRadius : ℝ)
      let cy : ℝ := st.2 + (childHeight : ℝ) / 2
      (st.1 ++ [(childKey branchIndex ic.1,
        TreePos.mk cx cy childWidth (childHeight : ℚ) "child" ic.2.label)],
       st.2 + (childHeight : ℝ) + (spacing : ℝ)))
      ([], byy - (blockHeight : ℝ) / 2)).1

/-- `MindMapAgent._generate_mind_map_layout` (lines 161–320). -/
noncomputable def generateMindMapLayout (topic : PyStr) (children : List MMBranch) :
    MMLayout :=
  let topicFont := getAdaptiveFontSize topic "topic"
  let topicEntry := (topicKey,
    TreePos.mk 0 0 (calculateTextWidth topic topicFont)
      (getAdaptiveNodeHeight topic "topic" : ℚ) "topic" topic)
  let n := children.length
  let angles := mmAngles n
  let totalChildren := (children.map (·.children.length)).sum
  let baseRadius : ℤ := calculateAdaptiveBranchRadius totalChildren n
  let multipliers : List ℚ := if n = 5 then [1, 1.3, 1, 1, 1.3] else List.replicate n 1
  let entries := ((children.zip angles).enum.map (fun iza =>
    let i := iza.1
    let child := iza.2.1
    let angleDeg : ℤ := iza.2.2
    let branchRadius : ℚ := (baseRadius : ℚ) * multipliers.getD i 1
    let angleRad : ℝ := (angleDeg : ℝ) * Real.pi / 180
    let bx : ℝ := (branchRadius : ℝ) * Real.cos angleRad
    let byy : ℝ := (branchRadius : ℝ) * Real.sin angleRad
    let bFont := getAdaptiveFontSize child.label "branch"
    let bHeight := getAdaptiveNodeHeight child.label "branch"
    let bWidth : ℚ := calculateTextWidth child.label bFont + getAdaptivePadding child.label
    (branchKey i, TreePos.mk bx byy bWidth (bHeight : ℚ) "branch" child.label) ::
      (if child.children ≠ [] then
        positionChildrenAroundBranch bx byy angleDeg child.children i
      else []))).flatten
  ⟨topicEntry :: entries⟩

/-- The tree engine's recommended dimensions.  The `bounds` and
`required_dimensions` entries of the returned dict are derived values no
claim refers to and are not modelled. -/
structure MMDims where
  baseWidth : ℤ
  baseHeight : ℤ
  width : ℤ
  height : ℤ
  padding : ℝ

/-- `MindMapAgent._compute_recommended_dimensions` (lines 742–822).  The
`num_children` sum reads `pos.get('children', [])` on position dicts that
never carry a `children` key, hence it is the constant 0. -/
noncomputable def computeRecommendedDimensionsMM (layout : MMLayout) : MMDims :=
  if layout.positions.isEmpty then ⟨800, 600, 800, 600, 80⟩
  else
    let minX := rListMin (layout.positions.map (fun kv => kv.2.x - (kv.2.width : ℝ) / 2))
    let maxX := rListMax (layout.positions.map (fun kv => kv.2.x + (kv.2.width : ℝ) / 2))
    let minY := rListMin (layout.positions.map (fun kv => kv.2.y - (kv.2.height : ℝ) / 2))
    let maxY := rListMax (layout.positions.map (fun kv => kv.2.y + (kv.2.height : ℝ) / 2))
    let rw := maxX - minX
    let rh := maxY - minY
    let contentSize := max rw rh
    let numBranches := (layout.positions.filter
      (fun kv => "branch_".toList.isPrefixOf kv.1)).length
    let numChildren := 0
    let basePadding := calculateAdaptiveBasePadding contentSize numBranches numChildren
    let mpp : ℝ := min 0.10 (max 0.06 (contentSize / 1500))
    let percentagePadding := contentSize * mpp
    let padding : ℝ := min (basePadding : ℝ) percentagePadding
    let width0 := rw + 2 * padding
    let height0 := rh + 2 * padding
    let minWidth : ℝ := max 800 (rw + (calculateAdaptiveBasePadding contentSize 1 1 : ℝ))
    let minHeight : ℝ :=
      max 500 (rh + ((⌊(calculateAdaptiveBasePadding contentSize 1 1 : ℝ) * 0.7⌋ : ℤ) : ℝ))
    let width1 := max width0 minWidth
    let height1 := max height0 minHeight
    let width : ℤ := ⌈width1 / 50⌉ * 50
    let height : ℤ := ⌈height1 / 50⌉ * 50
    ⟨width, height, width, height, padding⟩

/-- The enhanced spec of a successful `MindMapAgent.enhance_spec` call
(the `_agent` metadata block is derived data no claim refers to). -/
structure MMSpecOut where
  topic : PyStr
  children : List MMBranch
  layout : MMLayout
  dims : MMDims

/-- Result of `MindMapAgent.enhance_spec`. -/
inductive MMResult where
  | err (msg : String)
  | ok (spec : MMSpecOut)

/-- `MindMapAgent.enhance_spec` (lines 54–159). -/
noncomputable def enhanceMM (spec : PyVal) : MMResult :=
  match spec with
  | .dict kvs =>
    let topicRaw := (dictGet kvs "topic".toList).getD (.str [])
    let childrenRaw := (dictGet kvs "children".toList).getD (.list [])
    match topicRaw, childrenRaw with
    | .str t, .list cs =>
      let topic := pyStrip t
      if topic = [] then .err "Missing or empty topic"
      else
        match mmBranchLoop cs [] [] with
        | .error e => .err ("MindMapAgent failed: " ++ e)
        | .ok res =>
          if res.1 = [] then .err "At least one child branch is required"
          else
            let layout := generateMindMapLayout topic res.1
            let dims := computeRecommendedDimensionsMM layout
            .ok ⟨topic, res.1, layout, dims⟩
    | _, _ => .err "Invalid field types in spec"
  | _ => .err "Spec must be a dictionary"

/-- A convenience spec constructor for concrete inputs. -/
def mkSpec (kvs : List (String × PyVal)) : PyVal :=
  .dict (kvs.map (fun kv => (kv.1.toList, kv.2)))

/-- A concrete stream of `random.uniform` draws, all zero. -/
noncomputable def zeroStream : ℕ → ℝ := fun _ => 0

/-- A concrete stream of `random.uniform` draws, all `π` (a second global
generator state, to contrast with `zeroStream`). -/
noncomputable def piStream : ℕ → ℝ := fun _ => Real.pi

/-- The unordered canonical endpoint pair of a sanitized relationship. -/
def canonPair (r : RelOut) : PyStr × PyStr :=
  sortedPair (canonical r.frm) (canonical r.dst)

/-- The validity screen of one raw relationship item, returning its
unordered canonical endpoint pair when lines 88–100 keep it: it must be a
dict whose cleaned endpoints and label are nonempty and whose endpoints
differ canonically. -/
def relPairOf (r : PyVal) : Option (PyStr × PyStr) :=
  match r with
  | .dict kvs =>
    let frmRaw := cleanTextPy 60 ((dictGet kvs "from".toList).getD (.str []))
    let toRaw := cleanTextPy 60 ((dictGet kvs "to".toList).getD (.str []))
    let label := cleanTextPy 60 ((dictGet kvs "label".toList).getD (.str []))
    if frmRaw = [] ∨ toRaw = [] ∨ label = [] then Option.none
    else if canonical frmRaw = canonical toRaw then Option.none
    else some (sortedPair (canonical frmRaw) (canonical toRaw))
  | _ => Option.none

/-- The sanitized form of a valid raw relationship (lines 102–114): endpoint
display text resolved through `canon_to_display`. -/
def sanitizeRel (c2d : List (PyStr × PyStr)) (r : PyVal) : RelOut :=
  match r with
  | .dict kvs =>
    let frmRaw := cleanTextPy 60 ((dictGet kvs "from".toList).getD (.str []))
    let toRaw := cleanTextPy 60 ((dictGet kvs "to".toList).getD (.str []))
    let label := cleanTextPy 60 ((dictGet kvs "label".toList).getD (.str []))
    ⟨(assocGet c2d (canonical frmRaw)).getD frmRaw,
     (assocGet c2d (canonical toRaw)).getD toRaw, label⟩
  | _ => ⟨[], [], []⟩

/-- The sanitized first relationship of the input over a given unordered
canonical pair that passes the validity screen. -/
def firstValidRel (c2d : List (PyStr × PyStr)) (rs : List PyVal)
    (p : PyStr × PyStr) : Option RelOut :=
  rs.findSome? (fun r =>
    match relPairOf r with
    | some q => if q = p then some (sanitizeRel c2d r) else Option.none
    | Option.none => Option.none)

/-- Two relationships over the same unordered pair of display endpoints. -/
def sameUnorderedPair (r1 r2 : RelOut) : Prop :=
  (r1.frm = r2.frm ∧ r1.dst = r2.dst) ∨ (r1.frm = r2.dst ∧ r1.dst = r2.frm)

/-- The key list of the tree layout in order: the topic entry, then one
block per branch of the branch key followed by its child keys. -/
def treeKeys (children : List MMBranch) : List PyStr :=
  topicKey :: (children.enum.map (fun ic =>
    branchKey ic.1 :: (List.range ic.2.children.length).map (fun j => childKey ic.1 j))).flatten

/-- A word list as produced by `str.split()`: nonempty words with no
whitespace characters. -/
def GoodWords (ws : List PyStr) : Prop :=
  ∀ w ∈ ws, w ≠ [] ∧ ∀ c ∈ w, pyIsSpace c = false

/-- A string in the image of `" ".join(words)` over a good word list —
the normal form `_clean_text` produces before truncation. -/
def GoodStr (s : PyStr) : Prop :=
  ∃ ws, GoodWords ws ∧ s = List.intercalate [' '] ws

/-- Unfolding `conceptLoop` on a string item. -/
theorem conceptLoop_cons_str (topic : PyStr) (raw : PyStr) (cs : List PyVal)
    (acc : ConceptAcc) :
    conceptLoop topic (.str raw :: cs) acc =
      (let cleaned := cleanText 60 raw
       let canon := canonical cleaned
       let acc2 :=
         if cleaned ≠ [] ∧ canon ∉ acc.seen ∧ cleaned ≠ topic then
           { concepts := acc.concepts ++ [cleaned]
             seen := acc.seen ++ [canon]
             canonToDisplay := acc.canonToDisplay ++ [(canon, cleaned)] }
         else acc
       if acc2.concepts.length ≥ 30 then acc2 else conceptLoop topic cs acc2) := rfl

/-- The concept loop never exceeds the 30-concept cap. -/
theorem conceptLoop_concepts_le (topic : PyStr) :
    ∀ (cs : List PyVal) (acc : ConceptAcc), acc.concepts.length < 30 →
      (conceptLoop topic cs acc).concepts.length ≤ 30 := by
  intro cs
  induction cs with
  | nil => intro acc h; exact Nat.le_of_lt h
  | cons c cs ih =>
    intro acc h
    cases c with
    | str raw =>
      rw [conceptLoop_cons_str]
      dsimp only
      split
      · split
        · next hge =>
          simp only [List.length_append, List.length_cons, List.length_nil]
          omega
        · next hlt =>
          apply ih
          simp only [List.length_append, List.length_cons, List.length_nil] at hlt ⊢
          omega
      · split
        · exact Nat.le_of_lt h
        · exact ih _ h
    | none => exact ih acc h
    | bool b => exact ih acc h
    | int n => exact ih acc h
    | list xs => exact ih acc h
    | dict kvs => exact ih acc h

/-- The promotion loop preserves the 30-concept cap. -/
theorem promoteLoop_concepts_le (relsRaw : List PyVal) :
    ∀ (ms : List PyStr) (acc : ConceptAcc), acc.concepts.length ≤ 30 →
      (promoteLoop relsRaw ms acc).concepts.length ≤ 30 := by
  intro ms
  induction ms with
  | nil => intro acc h; exact h
  | cons mc ms ih =>
    intro acc h
    show (promoteLoop relsRaw ms _).concepts.length ≤ 30
    apply ih
    split
    · next hc =>
      obtain ⟨h1, _⟩ := hc
      split
      · next d hd =>
        split
        · simp only [List.length_append, List.length_cons, List.length_nil]
          omega
        · exact h
      · exact h
    · exact h

/-- Lines 54–143 keep at most 30 concepts in total, promotions included. -/
theorem normalizeSpec_concepts_le (topicRaw : PyStr) (conceptsV relsV : List PyVal) :
    (normalizeSpec topicRaw conceptsV relsV).concepts.length ≤ 30 := by
  apply promoteLoop_concepts_le
  apply conceptLoop_concepts_le
  simp

/-- The default children cap is 6. -/
theorem getMaxChildren_medium : getMaxChildren "medium" = 6 := rfl

/-- The default branch cap is 8. -/
theorem getMaxBranches_medium : getMaxBranches "medium" = 8 := rfl

/-- The nested-children loop never exceeds its cap of 6. -/
theorem mmNestedLoop_ok_le :
    ∀ (ncs : List PyVal) (seen : List PyStr) (acc : List MMChild) (r),
      mmNestedLoop ncs seen acc = .ok r → acc.length < 6 → r.1.length ≤ 6 := by
  intro ncs
  induction ncs with
  | nil =>
    intro seen acc r hr h
    simp only [mmNestedLoop, pure, Except.pure] at hr
    cases hr
    exact Nat.le_of_lt h
  | cons nc ncs ih =>
    intro seen acc r hr h
    cases nc with
    | dict kvs =>
      simp only [mmNestedLoop, bind, Except.bind] at hr
      cases hid : mmCleanVal ((dictGet kvs "id".toList).getD (.str [])) with
      | error e => rw [hid] at hr; cases hr
      | ok nid =>
        rw [hid] at hr
        cases hlb : mmCleanVal ((dictGet kvs "label".toList).getD (.str [])) with
        | error e => rw [hlb] at hr; cases hr
        | ok nlabel =>
          rw [hlb] at hr
          dsimp only at hr
          split at hr
          · rw [getMaxChildren_medium] at hr
            split at hr
            · next hge =>
              simp only [pure, Except.pure] at hr
              cases hr
              simp only [List.length_append, List.length_cons, List.length_nil]
              omega
            · next hlt =>
              apply ih _ _ _ hr
              simp only [List.length_append, List.length_cons, List.length_nil] at hlt ⊢
              omega
          · exact ih _ _ _ hr h
    | none => exact ih _ _ _ hr h
    | bool b => exact ih _ _ _ hr h
    | int n => exact ih _ _ _ hr h
    | str s => exact ih _ _ _ hr h
    | list xs => exact ih _ _ _ hr h

/-- The branch loop keeps at most 8 branches of at most 6 children each. -/
theorem mmBranchLoop_ok_le :
    ∀ (cs : List PyVal) (seen : List PyStr) (acc : List MMBranch) (r),
      mmBranchLoop cs seen acc = .ok r → acc.length < 8 →
      (∀ b ∈ acc, b.children.length ≤ 6) →
      r.1.length ≤ 8 ∧ ∀ b ∈ r.1, b.children.length ≤ 6 := by
  intro cs
  induction cs with
  | nil =>
    intro seen acc r hr h hc
    simp only [mmBranchLoop, pure, Except.pure] at hr
    cases hr
    exact ⟨Nat.le_of_lt h, hc⟩
  | cons c cs ih =>
    intro seen acc r hr h hc
    cases c with
    | dict kvs =>
      simp only [mmBranchLoop, bind, Except.bind] at hr
      cases hid : mmCleanVal ((dictGet kvs "id".toList).getD (.str [])) with
      | error e => rw [hid] at hr; cases hr
      | ok cid =>
      rw [hid] at hr
      cases hlb : mmCleanVal ((dictGet kvs "label".toList).getD (.str [])) with
      | error e => rw [hlb] at hr; cases hr
      | ok clabel =>
      rw [hlb] at hr
      dsimp only at hr
      split at hr
      · exact ih _ _ _ hr h hc
      · split at hr
        · exact ih _ _ _ hr h hc
        · have hcont : ∀ (nres : List MMChild × List PyStr), nres.1.length ≤ 6 →
              (if (acc ++ [MMBranch.mk cid clabel nres.1]).length ≥ getMaxBranches "medium" then
                 (pure (acc ++ [MMBranch.mk cid clabel nres.1], nres.2) : Except String (List MMBranch × List PyStr))
               else mmBranchLoop cs nres.2 (acc ++ [MMBranch.mk cid clabel nres.1])) = .ok r →
              r.1.length ≤ 8 ∧ ∀ b ∈ r.1, b.children.length ≤ 6 := by
            intro nres hch hr2
            rw [getMaxBranches_medium] at hr2
            split at hr2
            · next hge =>
              simp only [pure, Except.pure] at hr2
              cases hr2
              constructor
              · simp only [List.length_append, List.length_cons, List.length_nil]
                omega
              · intro b hb
                rcases List.mem_append.mp hb with hb | hb
                · exact hc b hb
                · simp only [List.mem_singleton] at hb
                  subst hb
                  exact hch
            · next hlt =>
              apply ih _ _ _ hr2
              · simp only [List.length_append, List.length_cons, List.length_nil] at hlt ⊢
                omega
              · intro b hb
                rcases List.mem_append.mp hb with hb | hb
                · exact hc b hb
                · simp only [List.mem_singleton] at hb
                  subst hb
                  exact hch
          cases hn : (dictGet kvs "children".toList).getD (.list []) with
          | list xs =>
            rw [hn] at hr
            dsimp only at hr
            cases hnl : mmNestedLoop xs (seen ++ [cid]) [] with
            | error e => rw [hnl] at hr; cases hr
            | ok nres =>
              rw [hnl] at hr
              dsimp only at hr
              exact hcont nres (mmNestedLoop_ok_le _ _ _ _ hnl (by simp)) hr
          | none =>
            rw [hn] at hr
            exact hcont ([], seen ++ [cid]) (by simp) hr
          | bool b =>
            rw [hn] at hr
            exact hcont ([], seen ++ [cid]) (by simp) hr
          | int n =>
            rw [hn] at hr
            exact hcont ([], seen ++ [cid]) (by simp) hr
          | str s =>
            rw [hn] at hr
            exact hcont ([], seen ++ [cid]) (by simp) hr
          | dict kvs2 =>
            rw [hn] at hr
            exact hcont ([], seen ++ [cid]) (by simp) hr
    | none => exact ih _ _ _ hr h hc
    | bool b => exact ih _ _ _ hr h hc
    | int n => exact ih _ _ _ hr h hc
    | str s => exact ih _ _ _ hr h hc
    | list xs => exact ih _ _ _ hr h hc

/-- Inversion of a successful `MindMapAgent.enhance_spec` call. -/
theorem enhanceMM_ok_inv {spec : PyVal} {out : MMSpecOut}
    (h : enhanceMM spec = .ok out) :
    ∃ kvs t cs res,
      spec = PyVal.dict kvs ∧
      (dictGet kvs "topic".toList).getD (.str []) = .str t ∧
      (dictGet kvs "children".toList).getD (.list []) = .list cs ∧
      pyStrip t ≠ [] ∧
      mmBranchLoop cs [] [] = .ok res ∧
      res.1 ≠ [] ∧
      out.topic = pyStrip t ∧
      out.children = res.1 ∧
      out.layout = generateMindMapLayout (pyStrip t) res.1 ∧
      out.dims = computeRecommendedDimensionsMM out.layout := by
  cases spec with
  | dict kvs =>
    simp only [enhanceMM] at h
    cases ht : (dictGet kvs "topic".toList).getD (.str []) with
    | str t =>
      rw [ht] at h
      cases hcs : (dictGet kvs "children".toList).getD (.list []) with
      | list cs =>
        rw [hcs] at h
        dsimp only at h
        split at h
        · cases h
        · next hne =>
          cases hbl : mmBranchLoop cs [] [] with
          | error e => rw [hbl] at h; cases h
          | ok res =>
            rw [hbl] at h
            dsimp only at h
            split at h
            · cases h
            · next hres =>
              cases h
              exact ⟨kvs, t, cs, res, rfl, ht, hcs, hne, hbl, hres, rfl, rfl, rfl, rfl⟩
      | none => rw [hcs] at h; cases h
      | bool b => rw [hcs] at h; cases h
      | int n => rw [hcs] at h; cases h
      | str s => rw [hcs] at h; cases h
      | dict kvs2 => rw [hcs] at h; cases h
    | none => rw [ht] at h; cases h
    | bool b => rw [ht] at h; cases h
    | int n => rw [ht] at h; cases h
    | list xs => rw [ht] at h; cases h
    | dict kvs2 => rw [ht] at h; cases h
  | none => cases h
  | bool b => cases h
  | int n => cases h
  | str s => cases h
  | list xs => cases h

/-- Inversion of a successful `ConceptMapAgent.enhance_spec` call: the spec
is a dict with a nonempty string topic and list-shaped (or falsy)
`concepts`/`relationships`; the outputs are exactly the normalization
results, and the layout is one of the three strategies. -/
theorem enhanceCM_ok_inv {rng rng42 : ℕ → ℝ} {spec : PyVal} {out : CMSpecOut}
    (h : enhanceCM rng rng42 spec = .ok out) :
    ∃ kvs t cs rs,
      spec = PyVal.dict kvs ∧
      pyGet spec "topic".toList = .str t ∧
      pyOr (pyGet spec "concepts".toList) (.list []) = .list cs ∧
      pyOr (pyGet spec "relationships".toList) (.list []) = .list rs ∧
      pyStrip t ≠ [] ∧
      out.topic = (normalizeSpec t cs rs).topic ∧
      out.concepts = (normalizeSpec t cs rs).concepts ∧
      out.relationships = (normalizeSpec t cs rs).rels ∧
      out.dims = computeRecommendedDimensionsCM out.layout out.topic out.concepts ∧
      ((∃ ks, pyGet spec "keys".toList = .list ks ∧
          sectorsFromKeysParts rng42 out.topic spec = .ok out.layout) ∨
       ((∀ ks, pyGet spec "keys".toList ≠ .list ks) ∧
          out.layout = radialLayout rng out.topic out.concepts out.relationships) ∨
       ((∀ ks, pyGet spec "keys".toList ≠ .list ks) ∧
          out.layout = sugiyamaLayout out.topic out.concepts out.relationships)) := by
  cases spec with
  | dict kvs =>
    simp only [enhanceCM] at h
    cases ht : pyGet (.dict kvs) "topic".toList with
    | str t =>
      rw [ht] at h
      dsimp only at h
      split at h
      · cases h
      · next hne =>
        cases hcs : pyOr (pyGet (.dict kvs) "concepts".toList) (.list []) with
        | list cs =>
          rw [hcs] at h
          cases hrs : pyOr (pyGet (.dict kvs) "relationships".toList) (.list []) with
          | list rs =>
            rw [hrs] at h
            dsimp only at h
            cases hk : pyGet (.dict kvs) "keys".toList with
            | list ks =>
              rw [hk] at h
              dsimp only at h
              cases hs : sectorsFromKeysParts rng42 (normalizeSpec t cs rs).topic (.dict kvs) with
              | error e => rw [hs] at h; cases h
              | ok layout =>
                rw [hs] at h
                dsimp only at h
                cases h
                exact ⟨kvs, t, cs, rs, rfl, rfl, rfl, rfl, hne, rfl, rfl, rfl, rfl,
                  Or.inl ⟨ks, rfl, hs⟩⟩
            | none =>
              rw [hk] at h
              dsimp only at h
              split at h
              · cases h
              · next layout heq =>
                cases h
                split at heq
                · simp only [pure, Except.pure] at heq
                  cases heq
                  exact ⟨kvs, t, cs, rs, rfl, rfl, rfl, rfl, hne, rfl, rfl, rfl, rfl,
                    Or.inr (Or.inl ⟨(fun ks hks => nomatch hks), rfl⟩)⟩
                · simp only [pure, Except.pure] at heq
                  cases heq
                  exact ⟨kvs, t, cs, rs, rfl, rfl, rfl, rfl, hne, rfl, rfl, rfl, rfl,
                    Or.inr (Or.inr ⟨(fun ks hks => nomatch hks), rfl⟩)⟩
            | bool b =>
              rw [hk] at h
              dsimp only at h
              split at h
              · cases h
              · next layout heq =>
                cases h
                split at heq
                · simp only [pure, Except.pure] at heq
                  cases heq
                  exact ⟨kvs, t, cs, rs, rfl, rfl, rfl, rfl, hne, rfl, rfl, rfl, rfl,
                    Or.inr (Or.inl ⟨(fun ks hks => nomatch hks), rfl⟩)⟩
                · simp only [pure, Except.pure] at heq
                  cases heq
                  exact ⟨kvs, t, cs, rs, rfl, rfl, rfl, rfl, hne, rfl, rfl, rfl, rfl,
                    Or.inr (Or.inr ⟨(fun ks hks => nomatch hks), rfl⟩)⟩
            | int n =>
              rw [hk] at h
              dsimp only at h
              split at h
              · cases h
              · next layout heq =>
                cases h
                split at heq
                · simp only [pure, Except.pure] at heq
                  cases heq
                  exact ⟨kvs, t, cs, rs, rfl, rfl, rfl, rfl, hne, rfl, rfl, rfl, rfl,
                    Or.inr (Or.inl ⟨(fun ks hks => nomatch hks), rfl⟩)⟩
                · simp only [pure, Except.pure] at heq
                  cases heq
                  exact ⟨kvs, t, cs, rs, rfl, rfl, rfl, rfl, hne, rfl, rfl, rfl, rfl,
                    Or.inr (Or.inr ⟨(fun ks hks => nomatch hks), rfl⟩)⟩
            | str s2 =>
              rw [hk] at h
              dsimp only at h
              split at h
              · cases h
              · next layout heq =>
                cases h
                split at heq
                · simp only [pure, Except.pure] at heq
                  cases heq
                  exact ⟨kvs, t, cs, rs, rfl, rfl, rfl, rfl, hne, rfl, rfl, rfl, rfl,
                    Or.inr (Or.inl ⟨(fun ks hks => nomatch hks), rfl⟩)⟩
                · simp only [pure, Except.pure] at heq
                  cases heq
                  exact ⟨kvs, t, cs, rs, rfl, rfl, rfl, rfl, hne, rfl, rfl, rfl, rfl,
                    Or.inr (Or.inr ⟨(fun ks hks => nomatch hks), rfl⟩)⟩
            | dict kvs2 =>
              rw [hk] at h
              dsimp only at h
              split at h
              · cases h
              · next layout heq =>
                cases h
                split at heq
                · simp only [pure, Except.pure] at heq
                  cases heq
                  exact ⟨kvs, t, cs, rs, rfl, rfl, rfl, rfl, hne, rfl, rfl, rfl, rfl,
                    Or.inr (Or.inl ⟨(fun ks hks => nomatch hks), rfl⟩)⟩
                · simp only [pure, Except.pure] at heq
                  cases heq
                  exact ⟨kvs, t, cs, rs, rfl, rfl, rfl, rfl, hne, rfl, rfl, rfl, rfl,
                    Or.inr (Or.inr ⟨(fun ks hks => nomatch hks), rfl⟩)⟩
          | none => rw [hrs] at h; cases h
          | bool b => rw [hrs] at h; cases h
          | int n => rw [hrs] at h; cases h
          | str s => rw [hrs] at h; cases h
          | dict kvs2 => rw [hrs] at h; cases h
        | none => rw [hcs] at h; cases h
        | bool b => rw [hcs] at h; cases h
        | int n => rw [hcs] at h; cases h
        | str s => rw [hcs] at h; cases h
        | dict kvs2 => rw [hcs] at h; cases h
    | none => rw [ht] at h; cases h
    | bool b => rw [ht] at h; cases h
    | int n => rw [ht] at h; cases h
    | list xs => rw [ht] at h; cases h
    | dict kvs2 => rw [ht] at h; cases h
  | none => cases h
  | bool b => cases h
  | int n => cases h
  | str s => cases h
  | list xs => cases h

/-- C3: every successful graph-engine result keeps at most 30 concepts
(promotions from relationship endpoints included), and every successful
tree-engine result under the default complexity tier keeps at most 8
branches with at most 6 children each. -/
theorem c3_concept_and_branch_caps {rng rng42 : ℕ → ℝ} {specG specT : PyVal}
    {outG : CMSpecOut} {outT : MMSpecOut}
    (hg : enhanceCM rng rng42 specG = .ok outG)
    (ht : enhanceMM specT = .ok outT) :
    outG.concepts.length ≤ 30 ∧ outT.children.length ≤ 8 ∧
      ∀ b ∈ outT.children, b.children.length ≤ 6 := by
  obtain ⟨_, t, cs, rs, _, _, _, _, _, _, hcon, _, _, _⟩ := enhanceCM_ok_inv hg
  obtain ⟨_, t2, cs2, res, _, _, _, _, hbl, _, _, hch, _, _⟩ := enhanceMM_ok_inv ht
  have hmm := mmBranchLoop_ok_le _ _ _ _ hbl (by simp) (by simp)
  refine ⟨?_, ?_, ?_⟩
  · rw [hcon]
    exact normalizeSpec_concepts_le t cs rs
  · rw [hch]
    exact hmm.1
  · rw [hch]
    exact hmm.2

/-- Witness for C3 at concrete inputs of both engines. -/
theorem c3_concept_and_branch_caps_witness :
    ∃ (outG : CMSpecOut) (outT : MMSpecOut),
      enhanceCM zeroStream zeroStream
        (mkSpec [("topic", .str "T".toList), ("concepts", .list [.str "A".toList])])
        = .ok outG ∧
      enhanceMM
        (mkSpec [("topic", .str "T".toList),
          ("children", .list [mkSpec [("id", .str "b1".toList), ("label", .str "B1".toList)]])])
        = .ok outT ∧
      (outG.concepts.length ≤ 30 ∧ outT.children.length ≤ 8 ∧
        ∀ b ∈ outT.children, b.children.length ≤ 6) :=
  ⟨_, _, rfl, rfl,
    @c3_concept_and_branch_caps zeroStream zeroStream
      (mkSpec [("topic", .str "T".toList), ("concepts", .list [.str "A".toList])])
      (mkSpec [("topic", .str "T".toList),
        ("children", .list [mkSpec [("id", .str "b1".toList), ("label", .str "B1".toList)]])])
      _ _ rfl rfl⟩

/-- A non-dict spec makes the graph engine fail immediately. -/
theorem enhanceCM_nondict (rng rng42 : ℕ → ℝ) (spec : PyVal)
    (h : ∀ kvs, spec ≠ PyVal.dict kvs) :
    enhanceCM rng rng42 spec = .err "Spec must be a dictionary" := by
  cases spec with
  | dict kvs => exact absurd rfl (h kvs)
  | none => rfl
  | bool b => rfl
  | int n => rfl
  | str s => rfl
  | list xs => rfl

/-- A missing, non-string or whitespace-only topic makes the graph engine
fail immediately. -/
theorem enhanceCM_topic_err (rng rng42 : ℕ → ℝ) (kvs : List (PyStr × PyVal))
    (h : (∀ t, pyGet (.dict kvs) "topic".toList ≠ .str t) ∨
         (∃ t, pyGet (.dict kvs) "topic".toList = .str t ∧ pyStrip t = [])) :
    enhanceCM rng rng42 (.dict kvs) = .err "Invalid or missing topic" := by
  simp only [enhanceCM]
  cases ht : pyGet (.dict kvs) "topic".toList with
  | str t =>
    rcases h with h | ⟨t2, ht2, hs⟩
    · exact absurd ht (h t)
    · rw [ht] at ht2
      cases ht2
      simp only [hs, if_pos]
  | none => rfl
  | bool b => rfl
  | int n => rfl
  | list xs => rfl
  | dict kvs2 => rfl

/-- A truthy non-list `concepts` value makes the graph engine fail. -/
theorem enhanceCM_concepts_err (rng rng42 : ℕ → ℝ) (kvs : List (PyStr × PyVal))
    (t : PyStr) (ht : pyGet (.dict kvs) "topic".toList = .str t)
    (hts : pyStrip t ≠ [])
    (htr : pyTruthy (pyGet (.dict kvs) "concepts".toList) = true)
    (hnl : ∀ xs, pyGet (.dict kvs) "concepts".toList ≠ .list xs) :
    enhanceCM rng rng42 (.dict kvs) = .err "concepts and relationships must be lists" := by
  have hcv : pyOr (pyGet (.dict kvs) "concepts".toList) (.list [])
      = pyGet (.dict kvs) "concepts".toList := by
    unfold pyOr
    split
    · rfl
    · next hcond => exact absurd htr hcond
  simp only [enhanceCM]
  rw [ht]
  simp only [if_neg hts]
  rw [hcv]
  cases hv : pyGet (.dict kvs) "concepts".toList with
  | list xs => exact absurd hv (hnl xs)
  | none => rfl
  | bool b => rfl
  | int n => rfl
  | str s => rfl
  | dict kvs2 => rfl

/-- A truthy non-list `relationships` value (with list `concepts`) makes
the graph engine fail. -/
theorem enhanceCM_rels_err (rng rng42 : ℕ → ℝ) (kvs : List (PyStr × PyVal))
    (t : PyStr) (cs : List PyVal)
    (ht : pyGet (.dict kvs) "topic".toList = .str t)
    (hts : pyStrip t ≠ [])
    (hcs : pyOr (pyGet (.dict kvs) "concepts".toList) (.list []) = .list cs)
    (htr : pyTruthy (pyGet (.dict kvs) "relationships".toList) = true)
    (hnl : ∀ xs, pyGet (.dict kvs) "relationships".toList ≠ .list xs) :
    enhanceCM rng rng42 (.dict kvs) = .err "concepts and relationships must be lists" := by
  simp only [enhanceCM]
  rw [ht]
  simp only [if_neg hts]
  rw [hcs]
  have hrv : pyOr (pyGet (.dict kvs) "relationships".toList) (.list [])
      = pyGet (.dict kvs) "relationships".toList := by
    unfold pyOr
    split
    · rfl
    · next hcond => exact absurd htr hcond
  rw [hrv]
  cases hv : pyGet (.dict kvs) "relationships".toList with
  | list xs => exact absurd hv (hnl xs)
  | none => rfl
  | bool b => rfl
  | int n => rfl
  | str s => rfl
  | dict kvs2 => rfl

/-- A non-string topic or non-list children list makes the tree engine
fail immediately. -/
theorem enhanceMM_field_types_err (kvs : List (PyStr × PyVal))
    (h : (∀ t, (dictGet kvs "topic".toList).getD (.str []) ≠ .str t) ∨
         (∀ cs, (dictGet kvs "children".toList).getD (.list []) ≠ .list cs)) :
    enhanceMM (.dict kvs) = .err "Invalid field types in spec" := by
  simp only [enhanceMM]
  cases ht : (dictGet kvs "topic".toList).getD (.str []) with
  | str t =>
    cases hcs : (dictGet kvs "children".toList).getD (.list []) with
    | list cs =>
      rcases h with h | h
      · exact absurd ht (h t)
      · exact absurd hcs (h cs)
    | none => rfl
    | bool b => rfl
    | int n => rfl
    | str s => rfl
    | dict kvs2 => rfl
  | none => rfl
  | bool b => rfl
  | int n => rfl
  | list xs => rfl
  | dict kvs2 => rfl

/-- A whitespace-only topic makes the tree engine fail. -/
theorem enhanceMM_empty_topic_err (kvs : List (PyStr × PyVal)) (t : PyStr)
    (ht : (dictGet kvs "topic".toList).getD (.str []) = .str t)
    (cs : List PyVal)
    (hcs : (dictGet kvs "children".toList).getD (.list []) = .list cs)
    (hs : pyStrip t = []) :
    enhanceMM (.dict kvs) = .err "Missing or empty topic" := by
  simp only [enhanceMM]
  rw [ht, hcs]
  simp only [hs, if_pos]

/-- When no valid branch survives normalization the tree engine fails. -/
theorem enhanceMM_no_branch_err (kvs : List (PyStr × PyVal)) (t : PyStr)
    (cs : List PyVal) (res : List MMBranch × List PyStr)
    (ht : (dictGet kvs "topic".toList).getD (.str []) = .str t)
    (hcs : (dictGet kvs "children".toList).getD (.list []) = .list cs)
    (hts : pyStrip t ≠ [])
    (hbl : mmBranchLoop cs [] [] = .ok res) (hres : res.1 = []) :
    enhanceMM (.dict kvs) = .err "At least one child branch is required" := by
  simp only [enhanceMM]
  rw [ht, hcs]
  simp only [if_neg hts]
  rw [hbl]
  simp only [hres, if_pos]

/-- C6 counterexample: `concepts` holding the non-list value `""` (falsy) is
silently coerced to `[]` by `spec.get("concepts") or []`, and the call
succeeds instead of failing. -/
theorem c6_counterexample_falsy_concepts :
    (∀ xs : List PyVal,
      pyGet (mkSpec [("topic", .str "T".toList), ("concepts", .str [])]) "concepts".toList
        ≠ .list xs) ∧
    ∃ out, enhanceCM zeroStream zeroStream
      (mkSpec [("topic", .str "T".toList), ("concepts", .str [])]) = .ok out ∧
      out.concepts = [] :=
  ⟨(fun _ h => nomatch h), _, rfl, rfl⟩

/-- C6 (amended): the invalid-spec conditions are terminal with an
error-only result — a missing/non-string/blank topic (graph and tree), a
*truthy* non-list `concepts`/`relationships` (graph; falsy non-list values
such as `""`, `0` or `None` are coerced to `[]` by `or []` instead of
rejected), a non-string topic or non-list `children` (tree), and an empty
normalized branch list (tree).  The `.err` result carries only the message
string: no enhanced spec, positions or dimensions exist in it. -/
theorem c6_terminal_errors (rng rng42 : ℕ → ℝ) (kvs : List (PyStr × PyVal)) :
    (((∀ t, pyGet (.dict kvs) "topic".toList ≠ .str t) ∨
       (∃ t, pyGet (.dict kvs) "topic".toList = .str t ∧ pyStrip t = [])) →
      enhanceCM rng rng42 (.dict kvs) = .err "Invalid or missing topic") ∧
    (∀ t, pyGet (.dict kvs) "topic".toList = .str t → pyStrip t ≠ [] →
      pyTruthy (pyGet (.dict kvs) "concepts".toList) = true →
      (∀ xs, pyGet (.dict kvs) "concepts".toList ≠ .list xs) →
      enhanceCM rng rng42 (.dict kvs) = .err "concepts and relationships must be lists") ∧
    (∀ t cs, pyGet (.dict kvs) "topic".toList = .str t → pyStrip t ≠ [] →
      pyOr (pyGet (.dict kvs) "concepts".toList) (.list []) = .list cs →
      pyTruthy (pyGet (.dict kvs) "relationships".toList) = true →
      (∀ xs, pyGet (.dict kvs) "relationships".toList ≠ .list xs) →
      enhanceCM rng rng42 (.dict kvs) = .err "concepts and relationships must be lists") ∧
    (((∀ t, (dictGet kvs "topic".toList).getD (.str []) ≠ .str t) ∨
       (∀ cs, (dictGet kvs "children".toList).getD (.list []) ≠ .list cs)) →
      enhanceMM (.dict kvs) = .err "Invalid field types in spec") ∧
    (∀ t cs, (dictGet kvs "topic".toList).getD (.str []) = .str t →
      (dictGet kvs "children".toList).getD (.list []) = .list cs →
      pyStrip t = [] → enhanceMM (.dict kvs) = .err "Missing or empty topic") ∧
    (∀ t cs res, (dictGet kvs "topic".toList).getD (.str []) = .str t →
      (dictGet kvs "children".toList).getD (.list []) = .list cs →
      pyStrip t ≠ [] → mmBranchLoop cs [] [] = .ok res → res.1 = [] →
      enhanceMM (.dict kvs) = .err "At least one child branch is required") :=
  by
  refine ⟨?_, ?_, ?_, ?_, ?_, ?_⟩
  · exact fun h => enhanceCM_topic_err rng rng42 kvs h
  · exact fun t ht hts htr hnl => enhanceCM_concepts_err rng rng42 kvs t ht hts htr hnl
  · exact fun t cs ht hts hcs htr hnl => enhanceCM_rels_err rng rng42 kvs t cs ht hts hcs htr hnl
  · exact fun h => enhanceMM_field_types_err kvs h
  · exact fun t cs ht hcs hs => enhanceMM_empty_topic_err kvs t ht cs hcs hs
  · exact fun t cs res ht hcs hts hbl hres =>
      enhanceMM_no_branch_err kvs t cs res ht hcs hts hbl hres

/-- Witness for C6 at concrete invalid specs. -/
theorem c6_terminal_errors_witness :
    enhanceCM zeroStream zeroStream (mkSpec [("topic", .str " ".toList)])
      = .err "Invalid or missing topic" ∧
    enhanceMM (mkSpec [("topic", .int 5)]) = .err "Invalid field types in spec" ∧
    enhanceMM (mkSpec [("topic", .str "T".toList), ("children", .list [])])
      = .err "At least one child branch is required" :=
  ⟨(c6_terminal_errors zeroStream zeroStream _).1 (Or.inr ⟨" ".toList, rfl, rfl⟩),
   (c6_terminal_errors zeroStream zeroStream _).2.2.2.1 (Or.inl (fun t h => nomatch h)),
   (c6_terminal_errors zeroStream zeroStream _).2.2.2.2.2 "T".toList [] ([], [])
     rfl rfl (by decide) rfl rfl⟩

/-- C10: both `enhance_spec` entry points are total at the public
interface.  The embedding is a total function on arbitrary Python values in
which every raising operation of the source (attribute errors on malformed
children, type errors in the untyped sector fallback, and so on) reaches
the top-level `except` and becomes an `.err` result; hence every call
returns either a success result carrying a spec or an error result carrying
a message string, and no exception escapes. -/
theorem c10_totality (rng rng42 : ℕ → ℝ) (v : PyVal) :
    ((∃ out, enhanceCM rng rng42 v = .ok out) ∨ (∃ m, enhanceCM rng rng42 v = .err m)) ∧
    ((∃ out, enhanceMM v = .ok out) ∨ (∃ m, enhanceMM v = .err m)) := by
  constructor
  · cases h : enhanceCM rng rng42 v with
    | ok out => exact Or.inl ⟨out, rfl⟩
    | err m => exact Or.inr ⟨m, rfl⟩
  · cases h : enhanceMM v with
    | ok out => exact Or.inl ⟨out, rfl⟩
    | err m => exact Or.inr ⟨m, rfl⟩

/-- `strLe` is total. -/
theorem strLe_total : ∀ a b : PyStr, strLe a b = true ∨ strLe b a = true := by
  intro a
  induction a with
  | nil => intro b; exact Or.inl rfl
  | cons x xs ih =>
    intro b
    cases b with
    | nil => exact Or.inr rfl
    | cons y ys =>
      by_cases hxy : x = y
      · subst hxy
        simp only [strLe, if_pos rfl]
        exact ih ys
      · rcases lt_or_gt_of_ne hxy with hlt | hgt
        · exact Or.inl (by simp [strLe, hxy, hlt])
        · exact Or.inr (by simp [strLe, Ne.symm hxy, hgt])

/-- `strLe` is antisymmetric. -/
theorem strLe_antisymm : ∀ a b : PyStr, strLe a b = true → strLe b a = true → a = b := by
  intro a
  induction a with
  | nil =>
    intro b _ hba
    cases b with
    | nil => rfl
    | cons y ys => simp [strLe] at hba
  | cons x xs ih =>
    intro b hab hba
    cases b with
    | nil => simp [strLe] at hab
    | cons y ys =>
      by_cases hxy : x = y
      · subst hxy
        simp only [strLe, if_pos rfl] at hab hba
        rw [ih ys hab hba]
      · simp only [strLe, if_neg hxy, if_neg (Ne.symm hxy), decide_eq_true_eq] at hab hba
        exact absurd (lt_trans hab hba) (lt_irrefl x)

/-- `sortedPair` does not depend on argument order. -/
theorem sortedPair_comm (a b : PyStr) : sortedPair a b = sortedPair b a := by
  unfold sortedPair
  rcases strLe_total a b with h | h
  · rw [if_pos h]
    by_cases h2 : strLe b a = true
    · rw [if_pos h2, strLe_antisymm a b h h2]
    · rw [if_neg h2]
  · by_cases h2 : strLe a b = true
    · rw [if_pos h2, if_pos h, strLe_antisymm a b h2 h]
    · rw [if_neg h2, if_pos h]

/-- The `rels` and `pairSeen` fields of one relationship-loop step, phrased
through the validity screen `relPairOf` and the sanitizer `sanitizeRel`. -/
theorem relStep_rels_pairSeen (topic : PyStr) (seen : List PyStr)
    (c2d : List (PyStr × PyStr)) (acc : RelAcc) (r : PyVal) :
    (relStep topic seen c2d acc r).rels = (match relPairOf r with
      | some p => if p ∈ acc.pairSeen then acc.rels else acc.rels ++ [sanitizeRel c2d r]
      | Option.none => acc.rels) ∧
    (relStep topic seen c2d acc r).pairSeen = (match relPairOf r with
      | some p => if p ∈ acc.pairSeen then acc.pairSeen else acc.pairSeen ++ [p]
      | Option.none => acc.pairSeen) := by
  cases r with
  | dict kvs =>
    simp only [relStep, relPairOf, sanitizeRel]
    by_cases h1 : cleanTextPy 60 ((dictGet kvs "from".toList).getD (.str [])) = [] ∨
        cleanTextPy 60 ((dictGet kvs "to".toList).getD (.str [])) = [] ∨
        cleanTextPy 60 ((dictGet kvs "label".toList).getD (.str [])) = []
    · simp only [if_pos h1]
      constructor <;> trivial
    · simp only [if_neg h1]
      by_cases h2 : canonical (cleanTextPy 60 ((dictGet kvs "from".toList).getD (.str []))) =
          canonical (cleanTextPy 60 ((dictGet kvs "to".toList).getD (.str [])))
      · simp only [if_pos h2]
        constructor <;> trivial
      · simp only [if_neg h2]
        by_cases h3 :
            sortedPair (canonical (cleanTextPy 60 ((dictGet kvs "from".toList).getD (.str []))))
              (canonical (cleanTextPy 60 ((dictGet kvs "to".toList).getD (.str []))))
              ∈ acc.pairSeen
        · simp only [if_pos h3]
          constructor <;> trivial
        · simp only [if_neg h3]
          constructor <;> trivial
  | none => constructor <;> trivial
  | bool b => constructor <;> trivial
  | int n => constructor <;> trivial
  | str s => constructor <;> trivial
  | list xs => constructor <;> trivial

/-- A hit in a canonical-keyed display map has the key as its canonical form. -/
theorem assocGet_canonical {c2d : List (PyStr × PyStr)}
    (hC : ∀ kv ∈ c2d, canonical kv.2 = kv.1) {k d : PyStr}
    (h : assocGet c2d k = some d) : canonical d = k := by
  unfold assocGet at h
  cases hf : c2d.find? (fun kv => kv.1 == k) with
  | none => rw [hf] at h; cases h
  | some kv =>
    rw [hf] at h
    cases h
    have hmem := List.mem_of_find?_eq_some hf
    have hk := List.find?_some hf
    have : kv.1 = k := by simpa using hk
    rw [hC kv hmem, this]

/-- Resolving an endpoint through `canon_to_display` never changes its
canonical form. -/
theorem canonical_resolved {c2d : List (PyStr × PyStr)}
    (hC : ∀ kv ∈ c2d, canonical kv.2 = kv.1) (raw : PyStr) :
    canonical ((assocGet c2d (canonical raw)).getD raw) = canonical raw := by
  cases h : assocGet c2d (canonical raw) with
  | none => rfl
  | some d => exact assocGet_canonical hC h

/-- Sanitizing a valid relationship keeps its unordered canonical pair. -/
theorem canonPair_sanitizeRel {c2d : List (PyStr × PyStr)}
    (hC : ∀ kv ∈ c2d, canonical kv.2 = kv.1) {r : PyVal} {p : PyStr × PyStr}
    (h : relPairOf r = some p) : canonPair (sanitizeRel c2d r) = p := by
  cases r with
  | dict kvs =>
    simp only [relPairOf] at h
    by_cases h1 : cleanTextPy 60 ((dictGet kvs "from".toList).getD (.str [])) = [] ∨
        cleanTextPy 60 ((dictGet kvs "to".toList).getD (.str [])) = [] ∨
        cleanTextPy 60 ((dictGet kvs "label".toList).getD (.str [])) = []
    · rw [if_pos h1] at h; cases h
    · rw [if_neg h1] at h
      by_cases h2 : canonical (cleanTextPy 60 ((dictGet kvs "from".toList).getD (.str []))) =
          canonical (cleanTextPy 60 ((dictGet kvs "to".toList).getD (.str [])))
      · rw [if_pos h2] at h; cases h
      · rw [if_neg h2] at h
        cases h
        simp only [sanitizeRel, canonPair]
        rw [canonical_resolved hC, canonical_resolved hC]
  | none => cases h
  | bool b => cases h
  | int n => cases h
  | str s => cases h
  | list xs => cases h

/-- Every entry of the concept loop's `canon_to_display` map sends a
canonical key to a display text with that canonical form. -/
theorem conceptLoop_c2d_inv (topic : PyStr) :
    ∀ (cs : List PyVal) (acc : ConceptAcc),
      (∀ kv ∈ acc.canonToDisplay, canonical kv.2 = kv.1) →
      ∀ kv ∈ (conceptLoop topic cs acc).canonToDisplay, canonical kv.2 = kv.1 := by
  intro cs
  induction cs with
  | nil => intro acc hacc; exact hacc
  | cons c cs ih =>
    intro acc hacc
    cases c with
    | str raw =>
      simp only [conceptLoop]
      have key : ∀ acc2 : ConceptAcc, (∀ kv ∈ acc2.canonToDisplay, canonical kv.2 = kv.1) →
          ∀ kv ∈ (if acc2.concepts.length ≥ 30 then acc2
            else conceptLoop topic cs acc2).canonToDisplay, canonical kv.2 = kv.1 := by
        intro acc2 h2
        split
        · exact h2
        · exact ih acc2 h2
      apply key
      split
      · intro kv hkv
        simp only [List.mem_append, List.mem_singleton] at hkv
        rcases hkv with hkv | hkv
        · exact hacc kv hkv
        · rw [hkv]
      · exact hacc
    | none => exact ih acc hacc
    | bool b => exact ih acc hacc
    | int n => exact ih acc hacc
    | list xs => exact ih acc hacc
    | dict kvs => exact ih acc hacc

/-- `firstValidRel` over a concatenation searches the left part first. -/
theorem firstValidRel_append (c2d : List (PyStr × PyStr)) (l1 l2 : List PyVal)
    (p : PyStr × PyStr) :
    firstValidRel c2d (l1 ++ l2) p
      = (firstValidRel c2d l1 p).or (firstValidRel c2d l2 p) :=
  List.findSome?_append

/-- `firstValidRel` on a single item. -/
theorem firstValidRel_singleton (c2d : List (PyStr × PyStr)) (x : PyVal)
    (p : PyStr × PyStr) :
    firstValidRel c2d [x] p = (match relPairOf x with
      | some q => if q = p then some (sanitizeRel c2d x) else Option.none
      | Option.none => Option.none) := by
  unfold firstValidRel
  cases h : relPairOf x with
  | none => simp [List.findSome?, h]
  | some q =>
    by_cases hq : q = p
    · simp [List.findSome?, h, hq]
    · simp [List.findSome?, h, hq]

/-- Fold invariant of the relationship loop (with explicit history): the
kept relationships map one-to-one onto the seen unordered canonical pairs,
the seen pairs are distinct, every kept relationship is the sanitized first
valid occurrence over its pair, and an unseen pair has no valid occurrence
in the history. -/
theorem relFold_inv (topic : PyStr) (seen : List PyStr) (c2d : List (PyStr × PyStr))
    (hC : ∀ kv ∈ c2d, canonical kv.2 = kv.1) :
    ∀ (rs hist : List PyVal) (acc : RelAcc),
      acc.rels.map canonPair = acc.pairSeen →
      acc.pairSeen.Nodup →
      (∀ r ∈ acc.rels, firstValidRel c2d hist (canonPair r) = some r) →
      (∀ p, p ∉ acc.pairSeen → firstValidRel c2d hist p = Option.none) →
      ((rs.foldl (relStep topic seen c2d) acc).rels.map canonPair
          = (rs.foldl (relStep topic seen c2d) acc).pairSeen) ∧
      (rs.foldl (relStep topic seen c2d) acc).pairSeen.Nodup ∧
      (∀ r ∈ (rs.foldl (relStep topic seen c2d) acc).rels,
        firstValidRel c2d (hist ++ rs) (canonPair r) = some r) ∧
      (∀ p, p ∉ (rs.foldl (relStep topic seen c2d) acc).pairSeen →
        firstValidRel c2d (hist ++ rs) p = Option.none) := by
  intro rs
  induction rs with
  | nil =>
    intro hist acc hA hB hCc hD
    simp only [List.foldl_nil, List.append_nil]
    exact ⟨hA, hB, hCc, hD⟩
  | cons x xs ih =>
    intro hist acc hA hB hCc hD
    simp only [List.foldl_cons]
    obtain ⟨hsr, hsp⟩ := relStep_rels_pairSeen topic seen c2d acc x
    cases hp : relPairOf x with
    | none =>
      rw [hp] at hsr hsp
      dsimp only at hsr hsp
      have hx1 : ∀ p, firstValidRel c2d [x] p = Option.none := by
        intro p
        rw [firstValidRel_singleton, hp]
      have hext1 : ∀ p, firstValidRel c2d (hist ++ [x]) p = firstValidRel c2d hist p := by
        intro p
        rw [firstValidRel_append, hx1 p]
        cases firstValidRel c2d hist p <;> rfl
      have hmain := ih (hist ++ [x]) (relStep topic seen c2d acc x)
        (by rw [hsr, hsp]; exact hA) (by rw [hsp]; exact hB)
        (fun r hr => by rw [hext1]; exact hCc r (hsr ▸ hr))
        (fun p hpp => by rw [hext1]; exact hD p (hsp ▸ hpp))
      rw [List.append_assoc] at hmain
      exact hmain
    | some q =>
      rw [hp] at hsr hsp
      dsimp only at hsr hsp
      have hx1 : ∀ p, firstValidRel c2d [x] p =
          (if q = p then some (sanitizeRel c2d x) else Option.none) := by
        intro p
        rw [firstValidRel_singleton, hp]
      by_cases hmem : q ∈ acc.pairSeen
      · rw [if_pos hmem] at hsr hsp
        have hC' : ∀ r ∈ (relStep topic seen c2d acc x).rels,
            firstValidRel c2d (hist ++ [x]) (canonPair r) = some r := by
          intro r hr
          rw [firstValidRel_append, hCc r (hsr ▸ hr)]
          rfl
        have hD' : ∀ p, p ∉ (relStep topic seen c2d acc x).pairSeen →
            firstValidRel c2d (hist ++ [x]) p = Option.none := by
          intro p hpp
          rw [hsp] at hpp
          rw [firstValidRel_append, hD p hpp, Option.none_or, hx1 p,
            if_neg (fun (hqp : q = p) => hpp (hqp ▸ hmem))]
        have hmain := ih (hist ++ [x]) (relStep topic seen c2d acc x)
          (by rw [hsr, hsp]; exact hA) (by rw [hsp]; exact hB) hC' hD'
        rw [List.append_assoc] at hmain
        exact hmain
      · rw [if_neg hmem] at hsr hsp
        have hA' : (relStep topic seen c2d acc x).rels.map canonPair
            = (relStep topic seen c2d acc x).pairSeen := by
          rw [hsr, hsp, List.map_append, hA]
          simp [canonPair_sanitizeRel hC hp]
        have hB' : (relStep topic seen c2d acc x).pairSeen.Nodup := by
          rw [hsp]
          refine List.nodup_append.mpr ⟨hB, List.nodup_singleton q, ?_⟩
          intro a ha hb
          rw [List.mem_singleton] at hb
          exact hmem (hb ▸ ha)
        have hC' : ∀ r ∈ (relStep topic seen c2d acc x).rels,
            firstValidRel c2d (hist ++ [x]) (canonPair r) = some r := by
          intro r hr
          rw [hsr] at hr
          rcases List.mem_append.mp hr with hr | hr
          · rw [firstValidRel_append, hCc r hr]
            rfl
          · rw [List.mem_singleton] at hr
            subst hr
            rw [firstValidRel_append, canonPair_sanitizeRel hC hp, hD q hmem,
              Option.none_or, hx1 q, if_pos rfl]
        have hD' : ∀ p, p ∉ (relStep topic seen c2d acc x).pairSeen →
            firstValidRel c2d (hist ++ [x]) p = Option.none := by
          intro p hpp
          rw [hsp] at hpp
          simp only [List.mem_append, List.mem_singleton, not_or] at hpp
          rw [firstValidRel_append, hD p hpp.1, Option.none_or, hx1 p,
            if_neg (fun h => hpp.2 h.symm)]
        have hmain := ih (hist ++ [x]) (relStep topic seen c2d acc x) hA' hB' hC' hD'
        rw [List.append_assoc] at hmain
        exact hmain

/-- The relationship loop: pair map, distinctness, and first-valid-wins. -/
theorem relLoop_pair_props (topic : PyStr) (seen : List PyStr) (c2d : List (PyStr × PyStr))
    (hC : ∀ kv ∈ c2d, canonical kv.2 = kv.1) (rs : List PyVal) :
    ((relLoop topic seen c2d rs).rels.map canonPair = (relLoop topic seen c2d rs).pairSeen) ∧
    (relLoop topic seen c2d rs).pairSeen.Nodup ∧
    (∀ r ∈ (relLoop topic seen c2d rs).rels,
      firstValidRel c2d rs (canonPair r) = some r) := by
  have h := relFold_inv topic seen c2d hC rs [] ⟨[], [], []⟩ rfl List.nodup_nil
    (fun r hr => absurd hr (List.not_mem_nil r))
    (fun p _ => rfl)
  rw [List.nil_append] at h
  exact ⟨h.1, h.2.1, h.2.2.1⟩

/-- Equal unordered display pairs force equal unordered canonical pairs. -/
theorem canonPair_eq_of_sameUnorderedPair {r1 r2 : RelOut}
    (h : sameUnorderedPair r1 r2) : canonPair r1 = canonPair r2 := by
  unfold canonPair
  rcases h with ⟨h1, h2⟩ | ⟨h1, h2⟩
  · rw [h1, h2]
  · rw [h1, h2, sortedPair_comm]

/-- The normalization pipeline's relationship list has pairwise-distinct
unordered display pairs and keeps only first valid occurrences. -/
theorem normalizeSpec_rels_props (t : PyStr) (cs rs : List PyVal) :
    ((normalizeSpec t cs rs).rels.Pairwise fun r1 r2 => ¬ sameUnorderedPair r1 r2) ∧
    ∀ r ∈ (normalizeSpec t cs rs).rels,
      firstValidRel (conceptLoop (cleanText 60 t) cs ⟨[], [], []⟩).canonToDisplay rs
        (canonPair r) = some r := by
  have hc2d : ∀ kv ∈ (conceptLoop (cleanText 60 t) cs ⟨[], [], []⟩).canonToDisplay,
      canonical kv.2 = kv.1 :=
    conceptLoop_c2d_inv (cleanText 60 t) cs ⟨[], [], []⟩ (fun kv hkv => nomatch hkv)
  obtain ⟨hmap, hnd, hfv⟩ := relLoop_pair_props (cleanText 60 t)
    (conceptLoop (cleanText 60 t) cs ⟨[], [], []⟩).seen
    (conceptLoop (cleanText 60 t) cs ⟨[], [], []⟩).canonToDisplay hc2d rs
  constructor
  · have hnd2 : ((relLoop (cleanText 60 t)
        (conceptLoop (cleanText 60 t) cs ⟨[], [], []⟩).seen
        (conceptLoop (cleanText 60 t) cs ⟨[], [], []⟩).canonToDisplay rs).rels.map
          canonPair).Nodup := hmap ▸ hnd
    have hpw := List.pairwise_map.mp hnd2
    exact (hpw.imp fun hne hsame =>
      hne (canonPair_eq_of_sameUnorderedPair hsame)).sublist (List.filter_sublist _)
  · intro r hr
    exact hfv r (List.mem_of_mem_filter hr)

/-- C4 (amended): in every successful `ConceptMapAgent.enhance_spec`
result, no two output relationships have the same unordered pair of
endpoints, and each output relationship is the sanitized first *valid*
occurrence in the input over its unordered canonical endpoint pair — a dict
with nonempty cleaned endpoints and label whose endpoints differ
canonically.  An invalid earlier occurrence over the same pair (for
instance one with an empty label) is skipped, so the kept relationship is
not always the literal first occurrence. -/
theorem c4_single_edge_first_valid {rng rng42 : ℕ → ℝ} {spec : PyVal} {out : CMSpecOut}
    (h : enhanceCM rng rng42 spec = .ok out) :
    (out.relationships.Pairwise fun r1 r2 => ¬ sameUnorderedPair r1 r2) ∧
    ∀ t cs rs, pyGet spec "topic".toList = .str t →
      pyOr (pyGet spec "concepts".toList) (.list []) = .list cs →
      pyOr (pyGet spec "relationships".toList) (.list []) = .list rs →
      ∀ r ∈ out.relationships,
        firstValidRel (conceptLoop (cleanText 60 t) cs ⟨[], [], []⟩).canonToDisplay rs
          (canonPair r) = some r := by
  obtain ⟨kvs, t, cs, rs, hspec, ht, hcs, hrs, hts, htop, hcon, hrel, hdims, hlay⟩ :=
    enhanceCM_ok_inv h
  constructor
  · rw [hrel]
    exact (normalizeSpec_rels_props t cs rs).1
  · intro t' cs' rs' ht' hcs' hrs' r hr
    rw [ht] at ht'
    cases ht'
    rw [hcs] at hcs'
    cases hcs'
    rw [hrs] at hrs'
    cases hrs'
    rw [hrel] at hr
    exact (normalizeSpec_rels_props t cs rs).2 r hr

/-- Witness for C4: a concrete spec whose two relationships cover the same
unordered pair in opposite directions; the first (valid) one wins. -/
theorem c4_single_edge_first_valid_witness :
    ∃ out, enhanceCM zeroStream zeroStream (mkSpec
      [("topic", .str "T".toList),
       ("concepts", .list [.str "A".toList, .str "B".toList]),
       ("relationships", .list
         [.dict [("from".toList, .str "A".toList), ("to".toList, .str "B".toList),
                 ("label".toList, .str "likes".toList)],
          .dict [("from".toList, .str "B".toList), ("to".toList, .str "A".toList),
                 ("label".toList, .str "x".toList)]])]) = .ok out ∧
      (out.relationships.Pairwise fun r1 r2 => ¬ sameUnorderedPair r1 r2) ∧
      ∀ r ∈ out.relationships,
        firstValidRel (conceptLoop (cleanText 60 "T".toList)
            [.str "A".toList, .str "B".toList] ⟨[], [], []⟩).canonToDisplay
          [.dict [("from".toList, .str "A".toList), ("to".toList, .str "B".toList),
                  ("label".toList, .str "likes".toList)],
           .dict [("from".toList, .str "B".toList), ("to".toList, .str "A".toList),
                  ("label".toList, .str "x".toList)]]
          (canonPair r) = some r :=
  (⟨_, rfl⟩ : ∃ out, enhanceCM zeroStream zeroStream (mkSpec
      [("topic", .str "T".toList),
       ("concepts", .list [.str "A".toList, .str "B".toList]),
       ("relationships", .list
         [.dict [("from".toList, .str "A".toList), ("to".toList, .str "B".toList),
                 ("label".toList, .str "likes".toList)],
          .dict [("from".toList, .str "B".toList), ("to".toList, .str "A".toList),
                 ("label".toList, .str "x".toList)]])]) = .ok out).elim
    (fun out hout => ⟨out, hout, (c4_single_edge_first_valid hout).1,
      (c4_single_edge_first_valid hout).2 "T".toList _ _ rfl rfl rfl⟩)

/-- C4 counterexample to first-occurrence-wins: over the pair A/B, the
first input relationship (A to B, empty label) is invalid and dropped, and
the later B-to-A relationship is the one kept, so the literal first
occurrence over the unordered pair is not kept. -/
theorem c4_counterexample_first_occurrence :
    ∃ out, enhanceCM zeroStream zeroStream (mkSpec
      [("topic", .str "T".toList),
       ("concepts", .list [.str "A".toList, .str "B".toList]),
       ("relationships", .list
         [.dict [("from".toList, .str "A".toList), ("to".toList, .str "B".toList),
                 ("label".toList, .str [])],
          .dict [("from".toList, .str "B".toList), ("to".toList, .str "A".toList),
                 ("label".toList, .str "x".toList)]])]) = .ok out ∧
      out.relationships = [⟨"B".toList, "A".toList, "x".toList⟩] :=
  ⟨_, rfl, rfl⟩

/-- Pushing into a Python set preserves a pointwise property. -/
theorem setAdd_forall {P : PyStr → Prop} {l : List PyStr} {y : PyStr}
    (hl : ∀ x ∈ l, P x) (hy : P y) : ∀ x ∈ setAdd l y, P x := by
  intro x hx
  unfold setAdd at hx
  split at hx
  · exact hl x hx
  · rcases List.mem_append.mp hx with hx | hx
    · exact hl x hx
    · rw [List.mem_singleton] at hx
      exact hx ▸ hy

/-- Invariant of the concept loop: displays map onto the seen canonicals, the canonicals are distinct, and the topic's display is never kept. -/
theorem conceptLoop_nodup_inv (topic : PyStr) :
    ∀ (cs : List PyVal) (acc : ConceptAcc),
      acc.concepts.map canonical = acc.seen → acc.seen.Nodup → topic ∉ acc.concepts →
      ((conceptLoop topic cs acc).concepts.map canonical = (conceptLoop topic cs acc).seen) ∧
      (conceptLoop topic cs acc).seen.Nodup ∧ topic ∉ (conceptLoop topic cs acc).concepts := by
  intro cs
  induction cs with
  | nil => intro acc h1 h2 h3; exact ⟨h1, h2, h3⟩
  | cons c cs ih =>
    intro acc h1 h2 h3
    cases c with
    | str raw =>
      simp only [conceptLoop]
      have key : ∀ acc2 : ConceptAcc,
          acc2.concepts.map canonical = acc2.seen → acc2.seen.Nodup → topic ∉ acc2.concepts →
          (((if acc2.concepts.length ≥ 30 then acc2
              else conceptLoop topic cs acc2).concepts.map canonical =
            (if acc2.concepts.length ≥ 30 then acc2
              else conceptLoop topic cs acc2).seen) ∧
          (if acc2.concepts.length ≥ 30 then acc2
              else conceptLoop topic cs acc2).seen.Nodup ∧
          topic ∉ (if acc2.concepts.length ≥ 30 then acc2
              else conceptLoop topic cs acc2).concepts) := by
        intro acc2 g1 g2 g3
        split
        · exact ⟨g1, g2, g3⟩
        · exact ih acc2 g1 g2 g3
      apply key
      · split
        · next hg =>
          simp only [List.map_append, h1]
          rfl
        · exact h1
      · split
        · next hg =>
          refine List.nodup_append.mpr ⟨h2, List.nodup_singleton _, ?_⟩
          intro a ha hb
          rw [List.mem_singleton] at hb
          exact hg.2.1 (hb ▸ ha)
        · exact h2
      · split
        · next hg =>
          intro hmem
          rcases List.mem_append.mp hmem with hm | hm
          · exact h3 hm
          · rw [List.mem_singleton] at hm
            exact hg.2.2 hm.symm
        · exact h3
    | none => exact ih acc h1 h2 h3
    | bool b => exact ih acc h1 h2 h3
    | int n => exact ih acc h1 h2 h3
    | list xs => exact ih acc h1 h2 h3
    | dict kvs => exact ih acc h1 h2 h3

/-- Conditional set-push preserves a pointwise property. -/
theorem condAdd_forall {P : PyStr → Prop} {l : List PyStr} {y : PyStr}
    {c : Prop} [Decidable c] (hl : ∀ x ∈ l, P x) (hy : c → P y) :
    ∀ x ∈ (if c then setAdd l y else l), P x := by
  split
  · next hc => exact setAdd_forall hl (hy hc)
  · exact hl

/-- One relationship step only records missing canonicals different from the topic's. -/
theorem relStep_missing_ne (topic : PyStr) (seen : List PyStr)
    (c2d : List (PyStr × PyStr)) (acc : RelAcc) (r : PyVal)
    (h : ∀ mc ∈ acc.missing, mc ≠ canonical topic) :
    ∀ mc ∈ (relStep topic seen c2d acc r).missing, mc ≠ canonical topic := by
  cases r with
  | dict kvs =>
    simp only [relStep]
    split
    · exact h
    · split
      · exact h
      · split
        · exact h
        · dsimp only
          exact condAdd_forall (condAdd_forall h (fun hc => hc.2)) (fun hc => hc.2)
  | none => exact h
  | bool b => exact h
  | int n => exact h
  | str s => exact h
  | list xs => exact h

/-- Every recorded missing canonical differs from the topic's canonical. -/
theorem relLoop_missing_ne (topic : PyStr) (seen : List PyStr)
    (c2d : List (PyStr × PyStr)) (rs : List PyVal) :
    ∀ mc ∈ (relLoop topic seen c2d rs).missing, mc ≠ canonical topic := by
  unfold relLoop
  suffices hgen : ∀ (rs : List PyVal) (acc : RelAcc),
      (∀ mc ∈ acc.missing, mc ≠ canonical topic) →
      ∀ mc ∈ (rs.foldl (relStep topic seen c2d) acc).missing, mc ≠ canonical topic from
    hgen rs ⟨[], [], []⟩ (fun mc hmc => absurd hmc (List.not_mem_nil mc))
  intro rs
  induction rs with
  | nil => intro acc hacc; exact hacc
  | cons x xs ih =>
    intro acc hacc
    exact ih (relStep topic seen c2d acc x) (relStep_missing_ne topic seen c2d acc x hacc)

/-- The display text found for a missing canonical has exactly that canonical form. -/
theorem findDisplayFor_canonical {relsRaw : List PyVal} {mc d : PyStr}
    (h : findDisplayFor relsRaw mc = some d) : canonical d = mc := by
  induction relsRaw with
  | nil => cases h
  | cons r rs ih =>
    unfold findDisplayFor at h
    rw [List.findSome?_cons] at h
    revert h
    cases r with
    | dict kvs =>
      dsimp only
      by_cases h1 : canonical (cleanTextPy 60 ((dictGet kvs "from".toList).getD (.str []))) = mc
      · rw [if_pos h1]
        intro h
        cases h
        exact h1
      · rw [if_neg h1]
        by_cases h2 : canonical (cleanTextPy 60 ((dictGet kvs "to".toList).getD (.str []))) = mc
        · rw [if_pos h2]
          intro h
          cases h
          exact h2
        · rw [if_neg h2]
          intro h
          exact ih h
    | none => intro h; exact ih h
    | bool b => intro h; exact ih h
    | int n => intro h; exact ih h
    | str s => intro h; exact ih h
    | list xs => intro h; exact ih h

/-- The promotion loop preserves the concept-list invariants. -/
theorem promoteLoop_nodup_inv (topic : PyStr) (relsRaw : List PyVal) :
    ∀ (ms : List PyStr) (acc : ConceptAcc),
      acc.concepts.map canonical = acc.seen → acc.seen.Nodup → topic ∉ acc.concepts →
      (∀ mc ∈ ms, mc ≠ canonical topic) →
      ((promoteLoop relsRaw ms acc).concepts.map canonical = (promoteLoop relsRaw ms acc).seen) ∧
      (promoteLoop relsRaw ms acc).seen.Nodup ∧ topic ∉ (promoteLoop relsRaw ms acc).concepts := by
  intro ms
  induction ms with
  | nil => intro acc h1 h2 h3 _; exact ⟨h1, h2, h3⟩
  | cons mc ms ih =>
    intro acc h1 h2 h3 hms
    simp only [promoteLoop]
    apply ih
    · split
      · next hg =>
        cases hd : findDisplayFor relsRaw mc with
        | none => exact h1
        | some d =>
          dsimp only
          split
          · simp only [List.map_append, List.map_cons, List.map_nil, h1,
              findDisplayFor_canonical hd]
          · exact h1
      · exact h1
    · split
      · next hg =>
        cases hd : findDisplayFor relsRaw mc with
        | none => exact h2
        | some d =>
          dsimp only
          split
          · refine List.nodup_append.mpr ⟨h2, List.nodup_singleton _, ?_⟩
            intro a ha hb
            rw [List.mem_singleton] at hb
            exact hg.2 (hb ▸ ha)
          · exact h2
      · exact h2
    · split
      · next hg =>
        cases hd : findDisplayFor relsRaw mc with
        | none => exact h3
        | some d =>
          dsimp only
          split
          · intro hmem
            rcases List.mem_append.mp hmem with hm | hm
            · exact h3 hm
            · rw [List.mem_singleton] at hm
              exact hms mc (List.mem_cons_self mc ms)
                (by rw [← findDisplayFor_canonical hd, ← hm])
          · exact h3
      · exact h3
    · exact fun x hx => hms x (List.mem_cons_of_mem mc hx)

/-- The normalized topic and concepts are pairwise distinct. -/
theorem normalizeSpec_nodup (t : PyStr) (cs rs : List PyVal) :
    ((normalizeSpec t cs rs).topic :: (normalizeSpec t cs rs).concepts).Nodup := by
  have hc := conceptLoop_nodup_inv (cleanText 60 t) cs ⟨[], [], []⟩ rfl List.nodup_nil
    (List.not_mem_nil _)
  have hm := relLoop_missing_ne (cleanText 60 t)
    (conceptLoop (cleanText 60 t) cs ⟨[], [], []⟩).seen
    (conceptLoop (cleanText 60 t) cs ⟨[], [], []⟩).canonToDisplay rs
  have hp := promoteLoop_nodup_inv (cleanText 60 t) rs
    (relLoop (cleanText 60 t) (conceptLoop (cleanText 60 t) cs ⟨[], [], []⟩).seen
      (conceptLoop (cleanText 60 t) cs ⟨[], [], []⟩).canonToDisplay rs).missing
    (conceptLoop (cleanText 60 t) cs ⟨[], [], []⟩) hc.1 hc.2.1 hc.2.2 hm
  refine List.nodup_cons.mpr ⟨hp.2.2, ?_⟩
  exact (List.Nodup.of_map canonical (hp.1 ▸ hp.2.1) : _)

/-- Both endpoints of every normalized relationship are kept concepts or the topic. -/
theorem normalizeSpec_rel_endpoints (t : PyStr) (cs rs : List PyVal) :
    ∀ r ∈ (normalizeSpec t cs rs).rels,
      (r.frm ∈ (normalizeSpec t cs rs).concepts ∨ r.frm = (normalizeSpec t cs rs).topic) ∧
      (r.dst ∈ (normalizeSpec t cs rs).concepts ∨ r.dst = (normalizeSpec t cs rs).topic) := by
  intro r hr
  have := List.of_mem_filter hr
  simpa using this

/-- Updating one group in place keeps the key list. -/
theorem mapUpdate_keys (k : ℕ) (x : PyStr) (acc : List (ℕ × List PyStr)) :
    (acc.map (fun g => if g.1 = k then (g.1, g.2 ++ [x]) else g)).map (·.1)
      = acc.map (·.1) := by
  rw [List.map_map]
  refine List.map_congr_left ?_
  intro g _
  by_cases h : g.1 = k
  · simp [h]
  · simp [h]

/-- Updating a group absent from the list is the identity. -/
theorem mapUpdate_id (k : ℕ) (x : PyStr) (acc : List (ℕ × List PyStr))
    (h : ∀ g ∈ acc, g.1 ≠ k) :
    acc.map (fun g => if g.1 = k then (g.1, g.2 ++ [x]) else g) = acc := by
  have := List.map_congr_left (l := acc)
    (f := fun g => if g.1 = k then (g.1, g.2 ++ [x]) else g) (g := id)
    (fun g hg => by simp [h g hg])
  simpa using this

/-- Appending one member into its group permutes to appending at the end. -/
theorem flatten_update_perm (k : ℕ) (x : PyStr) :
    ∀ (acc : List (ℕ × List PyStr)), ((acc.map (·.1)).Nodup) →
      ((acc.find? (fun g => g.1 == k)).isSome) →
      (((acc.map (fun g => if g.1 = k then (g.1, g.2 ++ [x]) else g)).map (·.2)).flatten).Perm
        ((acc.map (·.2)).flatten ++ [x]) := by
  intro acc
  induction acc with
  | nil => intro _ hf; simp [List.find?] at hf
  | cons g acc ih =>
    intro hnd hf
    simp only [List.map_cons] at hnd
    by_cases hk : g.1 = k
    · simp only [List.map_cons, if_pos hk, List.flatten_cons]
      have hne : ∀ e ∈ acc, e.1 ≠ k := by
        intro e he hek
        have hmem : e.1 ∈ acc.map (·.1) := List.mem_map_of_mem (·.1) he
        rw [hek, ← hk] at hmem
        exact (List.nodup_cons.mp hnd).1 hmem
      rw [mapUpdate_id k x acc hne, List.append_assoc, List.append_assoc]
      exact List.Perm.append_left g.2 List.perm_append_comm
    · simp only [List.map_cons, if_neg hk, List.flatten_cons]
      have hf2 : (acc.find? (fun g => g.1 == k)).isSome := by
        rw [List.find?_cons] at hf
        have hgk : (g.1 == k) = false := by simp [hk]
        rw [hgk] at hf
        exact hf
      have hperm := ih (List.nodup_cons.mp hnd).2 hf2
      rw [List.append_assoc]
      exact List.Perm.append_left g.2 hperm

/-- Fold invariant of insertion-ordered grouping: distinct keys, and the flattened groups are a permutation of the grouped items. -/
theorem groupInsOrder_inv :
    ∀ (pairs : List (PyStr × ℕ)) (acc : List (ℕ × List PyStr)),
      (acc.map (·.1)).Nodup →
      (((pairs.foldl (fun acc p =>
          if (acc.find? (fun g => g.1 == p.2)).isSome then
            acc.map (fun g => if g.1 = p.2 then (g.1, g.2 ++ [p.1]) else g)
          else acc ++ [(p.2, [p.1])]) acc).map (·.1)).Nodup) ∧
      ((((pairs.foldl (fun acc p =>
          if (acc.find? (fun g => g.1 == p.2)).isSome then
            acc.map (fun g => if g.1 = p.2 then (g.1, g.2 ++ [p.1]) else g)
          else acc ++ [(p.2, [p.1])]) acc).map (·.2)).flatten).Perm
        ((acc.map (·.2)).flatten ++ pairs.map (·.1))) := by
  intro pairs
  induction pairs with
  | nil => intro acc hnd; exact ⟨hnd, by simp⟩
  | cons p ps ih =>
    intro acc hnd
    simp only [List.foldl_cons]
    by_cases hf : (acc.find? (fun g => g.1 == p.2)).isSome
    · rw [if_pos hf]
      have hnd2 : ((acc.map (fun g => if g.1 = p.2 then (g.1, g.2 ++ [p.1]) else g)).map
          (·.1)).Nodup := by
        rw [mapUpdate_keys]
        exact hnd
      obtain ⟨ha, hb⟩ := ih _ hnd2
      refine ⟨ha, ?_⟩
      have hupd := flatten_update_perm p.2 p.1 acc hnd hf
      have := hb.trans (List.Perm.append_right (ps.map (·.1)) hupd)
      rw [List.append_assoc] at this
      simpa using this
    · rw [if_neg hf]
      have hnotin : p.2 ∉ acc.map (·.1) := by
        intro hmem
        rcases List.mem_map.mp hmem with ⟨g, hg, hg2⟩
        have := List.find?_eq_none.mp (Option.not_isSome_iff_eq_none.mp hf) g hg
        simp [hg2] at this
      have hnd2 : (((acc ++ [(p.2, [p.1])]).map (·.1)).Nodup) := by
        rw [List.map_append]
        refine List.nodup_append.mpr ⟨hnd, by simp, ?_⟩
        intro a ha hb2
        simp only [List.map_cons, List.map_nil, List.mem_singleton] at hb2
        exact hnotin (hb2 ▸ ha)
      obtain ⟨ha, hb⟩ := ih _ hnd2
      refine ⟨ha, ?_⟩
      rw [List.map_append, List.flatten_append] at hb
      simp only [List.map_cons, List.map_nil, List.flatten_cons, List.flatten_nil,
        List.append_nil] at hb
      rw [List.append_assoc] at hb
      simpa using hb

/-- The flattened groups are a permutation of the grouped items. -/
theorem groupInsOrder_flatten_perm (pairs : List (PyStr × ℕ)) :
    (((groupInsOrder pairs).map (·.2)).flatten).Perm (pairs.map (·.1)) := by
  have h := (groupInsOrder_inv pairs [] (by simp)).2
  simpa [groupInsOrder] using h

/-- A fold that appends one labelled block per element produces the concatenation of the blocks after the initial labels. -/
theorem foldl_names_eq {σ El : Type} (proj : σ → List PyStr) (nm : El → List PyStr)
    {F : σ → El → σ} (hF : ∀ st x, proj (F st x) = proj st ++ nm x)
    (l : List El) (st : σ) {target : List PyStr}
    (htarget : proj st ++ (l.map nm).flatten = target) :
    proj (l.foldl F st) = target := by
  subst htarget
  induction l generalizing st with
  | nil => simp
  | cons x xs ih =>
    rw [List.foldl_cons, ih, hF, List.map_cons, List.flatten_cons, List.append_assoc]

/-- Permutation form of the labelled-fold lemma. -/
theorem foldl_names_perm {σ El : Type} (proj : σ → List PyStr) (nm : El → List PyStr)
    {F : σ → El → σ} (hF : ∀ st x, proj (F st x) = proj st ++ nm x)
    (l : List El) (st : σ) {target : List PyStr}
    (hperm : (proj st ++ (l.map nm).flatten).Perm target) :
    (proj (l.foldl F st)).Perm target := by
  rw [foldl_names_eq proj nm hF l st rfl]
  exact hperm

/-- Flattening singleton blocks is a map. -/
theorem flatten_singletons {α β : Type} (f : α → β) (l : List α) :
    (l.map (fun a => [f a])).flatten = l.map f := by
  induction l with
  | nil => rfl
  | cons x xs ih => simp [ih]

/-- Grouping the enumerated concepts by any index key keeps their multiset. -/
theorem groupInsOrder_enum_flatten_perm (concepts : List PyStr)
    (keyf : ℕ × PyStr → ℕ) :
    ((((groupInsOrder (concepts.enum.map (fun p => (p.2, keyf p)))).map (·.2)).flatten)).Perm
      concepts := by
  refine (groupInsOrder_flatten_perm _).trans ?_
  rw [List.map_map]
  have hcomp : ((fun (x : PyStr × ℕ) => x.1) ∘ fun (p : ℕ × PyStr) => (p.2, keyf p))
      = fun (p : ℕ × PyStr) => p.2 := rfl
  rw [hcomp, List.enum_map_snd]

/-- The radial layout positions one entry per node: its name list is a permutation of the topic and the concepts. -/
theorem radialLayout_names_perm (rng : ℕ → ℝ) (topic : PyStr) (concepts : List PyStr)
    (rels : List RelOut) :
    (((radialLayout rng topic concepts rels).positions.map Prod.fst)).Perm
      (topic :: concepts) := by
  by_cases hc : concepts = []
  · subst hc
    unfold radialLayout
    simp
  · unfold radialLayout
    rw [if_neg hc]
    dsimp only
    refine foldl_names_perm (fun (st : List (PyStr × GPos) × ℕ) => st.1.map Prod.fst)
      (fun (ring : ℕ × List PyStr) => ring.2) ?_ _ _ ?_
    · intro st ring
      refine foldl_names_eq (fun (st : List (PyStr × GPos) × ℕ) => st.1.map Prod.fst)
        (fun (ic : ℕ × PyStr) => [ic.2]) ?_ _ _ ?_
      · intro st2 ic
        simp
      · rw [flatten_singletons Prod.snd, List.enum_map_snd]
    · simp only [List.map_cons, List.map_nil, List.singleton_append]
      exact List.Perm.cons topic (groupInsOrder_enum_flatten_perm concepts _)

theorem le_foldl_max_init (l : List ℕ) : ∀ (i : ℕ), i ≤ l.foldl max i := by
  induction l with
  | nil => intro i; exact le_refl i
  | cons x xs ih =>
    intro i
    exact le_trans (le_max_left i x) (ih (max i x))

theorem mem_le_foldl_max (l : List ℕ) : ∀ (i : ℕ) (a : ℕ), a ∈ l → a ≤ l.foldl max i := by
  induction l with
  | nil => intro i a ha; cases ha
  | cons x xs ih =>
    intro i a ha
    rcases List.mem_cons.mp ha with ha | ha
    · subst ha
      exact le_trans (le_max_right i a) (le_foldl_max_init xs (max i a))
    · exact ih (max i x) a ha

/-- Filtering a cons into a layer bucket. -/
theorem filter_cons_bucket (f : PyStr → ℕ) (n : PyStr) (ns : List PyStr) (l : ℕ) :
    (n :: ns).filter (fun x => f x = l)
      = if f n = l then n :: ns.filter (fun x => f x = l)
        else ns.filter (fun x => f x = l) := by
  by_cases h : f n = l <;> simp [List.filter_cons, h]

/-- Adding one element to its bucket permutes to consing it in front. -/
theorem flatten_buckets_cons (f : PyStr → ℕ) (n : PyStr) (ns : List PyStr) :
    ∀ (idxs : List ℕ), idxs.Nodup → f n ∈ idxs →
      ((idxs.map (fun l => (n :: ns).filter (fun x => f x = l))).flatten).Perm
        (n :: (idxs.map (fun l => ns.filter (fun x => f x = l))).flatten) := by
  intro idxs
  induction idxs with
  | nil => intro _ hin; cases hin
  | cons i idxs ih =>
    intro hnd hin
    simp only [List.map_cons, List.flatten_cons]
    by_cases hi : f n = i
    · rw [filter_cons_bucket, if_pos hi]
      have hrest : idxs.map (fun l => (n :: ns).filter (fun x => f x = l))
          = idxs.map (fun l => ns.filter (fun x => f x = l)) := by
        refine List.map_congr_left ?_
        intro l hl
        rw [filter_cons_bucket, if_neg ?_]
        intro hfl
        exact (List.nodup_cons.mp hnd).1 ((hfl.symm.trans hi) ▸ hl)
      rw [hrest]
      simp
    · rw [filter_cons_bucket, if_neg hi]
      have hin2 : f n ∈ idxs := by
        rcases List.mem_cons.mp hin with h | h
        · exact absurd h hi
        · exact h
      have hperm := ih (List.nodup_cons.mp hnd).2 hin2
      refine (List.Perm.append_left _ hperm).trans ?_
      exact List.perm_middle

/-- Bucketing a list by a bounded index function partitions it. -/
theorem flatten_buckets_perm (f : PyStr → ℕ) :
    ∀ (ns : List PyStr) (m : ℕ), (∀ n ∈ ns, f n < m) →
      (((List.range m).map (fun l => ns.filter (fun x => f x = l))).flatten).Perm ns := by
  intro ns
  induction ns with
  | nil => intro m _; simp
  | cons n ns ih =>
    intro m hf
    have h1 := flatten_buckets_cons f n ns (List.range m) (List.nodup_range m)
      (List.mem_range.mpr (hf n (List.mem_cons_self n ns)))
    refine h1.trans ?_
    exact List.Perm.cons n (ih m (fun x hx => hf x (List.mem_cons_of_mem n hx)))

/-- Sorting every bucket keeps the flattened multiset. -/
theorem flatten_map_sort_perm (le : PyStr → PyStr → Bool) (L : List (List PyStr)) :
    ((L.map (pySortBy le)).flatten).Perm L.flatten := by
  induction L with
  | nil => simp
  | cons x xs ih =>
    simp only [List.map_cons, List.flatten_cons]
    exact List.Perm.append (by unfold pySortBy; exact List.perm_insertionSort _ _) ih

/-- Sorted layer buckets flatten to a permutation of the nodes. -/
theorem flatten_sort_buckets_perm (le : PyStr → PyStr → Bool) (ns : List PyStr)
    (f : PyStr → ℕ) (m : ℕ) (hf : ∀ n ∈ ns, f n < m) :
    ((((List.range m).map (fun l => pySortBy le (ns.filter (fun n => f n = l))))).flatten).Perm
      ns := by
  have hcomp : (List.range m).map (fun l => pySortBy le (ns.filter (fun n => f n = l)))
      = ((List.range m).map (fun l => ns.filter (fun n => f n = l))).map (pySortBy le) := by
    rw [List.map_map]
    rfl
  rw [hcomp]
  exact (flatten_map_sort_perm le _).trans (flatten_buckets_perm f ns m hf)

/-- Replacing one layer by a permutation of itself keeps the flattened multiset. -/
theorem set_flatten_perm :
    ∀ (a : List (List PyStr)) (l : ℕ) (x : List PyStr),
      x.Perm (a.getD l []) → ((a.set l x).flatten).Perm a.flatten := by
  intro a
  induction a with
  | nil =>
    intro l x h
    rw [List.set_nil]
  | cons y ys ih =>
    intro l x h
    cases l with
    | zero =>
      simp only [List.set_cons_zero, List.flatten_cons]
      exact List.Perm.append_right ys.flatten (by simpa using h)
    | succ l =>
      simp only [List.set_cons_succ, List.flatten_cons]
      exact List.Perm.append_left y (ih l x (by simpa using h))

/-- A fold of in-place layer replacements keeps the flattened multiset. -/
theorem foldl_set_flatten_perm (G : List (List PyStr) → ℕ → List PyStr)
    (hG : ∀ a l, (G a l).Perm (a.getD l [])) :
    ∀ (idxs : List ℕ) (a : List (List PyStr)),
      ((idxs.foldl (fun a l => a.set l (G a l)) a).flatten).Perm a.flatten := by
  intro idxs
  induction idxs with
  | nil => intro a; exact List.Perm.refl _
  | cons i idxs ih =>
    intro a
    rw [List.foldl_cons]
    exact (ih _).trans (set_flatten_perm a i (G a i) (hG a i))

/-- A fold of in-place layer replacements keeps the layer count. -/
theorem foldl_set_length (G : List (List PyStr) → ℕ → List PyStr) :
    ∀ (idxs : List ℕ) (a : List (List PyStr)),
      (idxs.foldl (fun a l => a.set l (G a l)) a).length = a.length := by
  intro idxs
  induction idxs with
  | nil => intro a; rfl
  | cons i idxs ih =>
    intro a
    rw [List.foldl_cons, ih, List.length_set]

/-- A barycenter pass permutes the layer it reorders. -/
theorem barycenterOrder_perm (deg : PyStr → ℕ) (cur neighborLayer : List PyStr)
    (edges : List (PyStr × PyStr)) (b : Bool) :
    (barycenterOrder deg cur neighborLayer edges b).Perm cur := by
  unfold barycenterOrder pySortBy
  dsimp only
  refine (List.Perm.map _ (List.perm_insertionSort _ _)).trans ?_
  rw [List.map_map]
  have hcomp : ∀ (g : PyStr → Option ℚ),
      ((fun (x : Option ℚ × ℤ × PyStr) => x.2.2) ∘ (fun n => (g n, (-(deg n : ℤ), n))))
        = id := fun g => rfl
  rw [hcomp]
  simp

/-- One barycenter sweep keeps the multiset of all layered nodes. -/
theorem sweepOnce_flatten_perm (deg : PyStr → ℕ) (edges : List (PyStr × PyStr))
    (maxLayer : ℕ) (a : List (List PyStr)) :
    ((sweepOnce deg edges maxLayer a).flatten).Perm a.flatten := by
  unfold sweepOnce
  refine (foldl_set_flatten_perm
    (fun a l => barycenterOrder deg (a.getD l []) (a.getD (l + 1) []) edges true)
    (fun a l => barycenterOrder_perm deg _ _ edges true) _ _).trans ?_
  exact foldl_set_flatten_perm
    (fun a l => barycenterOrder deg (a.getD l []) (a.getD (l - 1) []) edges false)
    (fun a l => barycenterOrder_perm deg _ _ edges false) _ _

/-- One barycenter sweep keeps the layer count. -/
theorem sweepOnce_length (deg : PyStr → ℕ) (edges : List (PyStr × PyStr))
    (maxLayer : ℕ) (a : List (List PyStr)) :
    (sweepOnce deg edges maxLayer a).length = a.length := by
  unfold sweepOnce
  rw [foldl_set_length (fun a l =>
    barycenterOrder deg (a.getD l []) (a.getD (l + 1) []) edges true)]
  exact foldl_set_length (fun a l =>
    barycenterOrder deg (a.getD l []) (a.getD (l - 1) []) edges false) _ _

/-- Horizontal slot assignment positions exactly the nodes of the layer, in order. -/
theorem layerXPositions_names (topic : PyStr) (lst : List PyStr) :
    ((layerXPositions topic lst).1).map Prod.fst = lst := by
  unfold layerXPositions
  dsimp only
  refine foldl_names_eq (fun (st : List (PyStr × ℚ) × ℚ) => st.1.map Prod.fst)
    (fun (nw : PyStr × ℚ) => [nw.1]) ?_ _ _ ?_
  · intro st nw
    simp
  · rw [flatten_singletons Prod.fst, List.map_fst_zip]
    · rfl
    · rw [List.length_map]

/-- Indexing a map over a range. -/
theorem getD_map_range {α : Type} (f : ℕ → α) (n i : ℕ) (d : α) (h : i < n) :
    ((List.range n).map f).getD i d = f i := by
  rw [List.getD, List.get?_map, List.get?_range h]
  rfl

/-- Reading every index of a list by position reproduces it. -/
theorem map_range_getD_self {α : Type} (a : List α) (d : α) :
    (List.range a.length).map (fun i => a.getD i d) = a := by
  refine List.ext_getElem (by simp) ?_
  intro i h1 h2
  simp only [List.getElem_map, List.getElem_range]
  rw [List.getD_eq_getElem]

/-- Assembly of the layered positions name list: it is the flattening of the final layers. -/
theorem sugiyama_names_core (topic : PyStr) (concepts : List PyStr)
    (fl : List (List PyStr)) (m : ℕ) (G : ℕ → (PyStr × ℚ) → GPos)
    (hlen : fl.length = m + 1)
    (hperm : fl.flatten.Perm (topic :: concepts)) :
    List.Perm
      (List.map Prod.fst
        (List.flatten
          (List.map
            (fun l => List.map (fun ncx => (ncx.1, G l ncx))
              (((List.map (fun l2 => layerXPositions topic (fl.getD l2 []))
                  (List.range (m+1))).getD l ([], 0)).1))
            (List.range (m+1)))))
      (topic :: concepts) := by
  rw [List.map_flatten, List.map_map]
  have hcong :
      List.map
        (List.map Prod.fst ∘ (fun l => List.map (fun ncx => (ncx.1, G l ncx))
          (((List.map (fun l2 => layerXPositions topic (fl.getD l2 []))
              (List.range (m+1))).getD l ([], 0)).1)))
        (List.range (m+1))
      = List.map (fun l => fl.getD l []) (List.range (m+1)) := by
    refine List.map_congr_left ?_
    intro l hl
    have hlt : l < m + 1 := List.mem_range.mp hl
    simp only [Function.comp]
    rw [getD_map_range _ _ _ _ hlt, List.map_map]
    have hfst : (Prod.fst ∘ (fun (ncx : PyStr × ℚ) => (ncx.1, G l ncx)))
        = Prod.fst := rfl
    rw [hfst]
    exact layerXPositions_names topic (fl.getD l [])
  rw [hcong, ← hlen, map_range_getD_self]
  exact hperm

/-- With at least one concept, the layered layout positions one entry per node: its name list is a permutation of the topic and the concepts. -/
theorem sugiyamaLayout_names_perm (topic : PyStr) (concepts : List PyStr)
    (rels : List RelOut) (hc : concepts ≠ []) :
    (((sugiyamaLayout topic concepts rels).positions.map Prod.fst)).Perm
      (topic :: concepts) := by
  unfold sugiyamaLayout
  rw [if_neg hc]
  dsimp only
  refine sugiyama_names_core topic concepts _ _ _ ?_ ?_
  · rw [sweepOnce_length, sweepOnce_length, sweepOnce_length, sweepOnce_length]
    simp
  · refine (sweepOnce_flatten_perm _ _ _ _).trans ((sweepOnce_flatten_perm _ _ _ _).trans
      ((sweepOnce_flatten_perm _ _ _ _).trans ((sweepOnce_flatten_perm _ _ _ _).trans ?_)))
    refine flatten_sort_buckets_perm _ _ _ _ ?_
    intro n hn
    refine Nat.lt_succ_of_le (mem_le_foldl_max _ 0 _ ?_)
    exact List.mem_map_of_mem _ hn

/-- Length of an integer-cast range list. -/
theorem length_intCast_range (k : ℕ) :
    ((do
      let a ← List.range k
      pure (↑a : ℤ)) : List ℤ).length = k := by
  simp
  have h : (List.length ∘ fun (a : ℕ) => [(↑a : ℤ)]) = fun _ => 1 := rfl
  rw [h]
  induction k with
  | zero => rfl
  | succ m ih => simp [List.range_succ, ih]

/-- The tree engine computes one branch angle per branch. -/
theorem mmAngles_length (n : ℕ) : (mmAngles n).length = n := by
  unfold mmAngles
  by_cases h1 : n = 1
  · simp [h1]
  · rw [if_neg h1]
    by_cases h2 : n = 2
    · simp [h2]
    · rw [if_neg h2]
      by_cases h3 : n = 3
      · simp [h3]
      · rw [if_neg h3]
        by_cases h4 : n = 4
        · simp [h4]
        · rw [if_neg h4]
          by_cases h5 : n = 5
          · simp [h5]
          · rw [if_neg h5]
            dsimp only
            unfold pySortBy
            rw [List.length_insertionSort, List.length_append, List.length_map,
              List.length_map, length_intCast_range, length_intCast_range]
            omega

/-- Digit characters of distinct digits differ. -/
theorem digitChar_inj : ∀ a < 10, ∀ b < 10, Nat.digitChar a = Nat.digitChar b → a = b := by
  decide

/-- Single-digit decimal rendering. -/
theorem natRepr_lt10 {n : ℕ} (h : n < 10) : natRepr n = [Nat.digitChar n] := by
  cases n with
  | zero => rfl
  | succ m =>
    have e : natRepr (m + 1) = if m + 1 < 10 then [(m + 1).digitChar]
        else natReprAux m ((m + 1) / 10) ++ [((m + 1) % 10).digitChar] := rfl
    rw [e, if_pos h]

/-- The topic key is no branch key. -/
theorem topicKey_ne_branchKey (i : ℕ) : topicKey ≠ branchKey i := by
  intro h
  have h2 := congrArg List.head? h
  have h3 : (branchKey i).head? = some 'b' := rfl
  have h4 : topicKey.head? = some 't' := rfl
  rw [h3, h4] at h2
  cases h2

/-- The topic key is no child key. -/
theorem topicKey_ne_childKey (i j : ℕ) : topicKey ≠ childKey i j := by
  intro h
  have h2 := congrArg List.head? h
  have h3 : (childKey i j).head? = some 'c' := rfl
  have h4 : topicKey.head? = some 't' := rfl
  rw [h3, h4] at h2
  cases h2

/-- Branch keys and child keys differ. -/
theorem branchKey_ne_childKey (i i2 j : ℕ) : branchKey i ≠ childKey i2 j := by
  intro h
  have h2 := congrArg List.head? h
  have h3 : (childKey i2 j).head? = some 'c' := rfl
  have h4 : (branchKey i).head? = some 'b' := rfl
  rw [h3, h4] at h2
  cases h2

/-- Branch keys of distinct single-digit indices differ. -/
theorem branchKey_inj {i j : ℕ} (hi : i < 10) (hj : j < 10)
    (h : branchKey i = branchKey j) : i = j := by
  unfold branchKey at h
  rw [natRepr_lt10 hi, natRepr_lt10 hj] at h
  have h2 := List.append_cancel_left h
  exact digitChar_inj i hi j hj (List.head_eq_of_cons_eq h2)

/-- Child keys agree only on equal single-digit index pairs. -/
theorem childKey_inj {i j i2 j2 : ℕ} (hi : i < 10) (hj : j < 10) (hi2 : i2 < 10)
    (hj2 : j2 < 10) (h : childKey i j = childKey i2 j2) : i = i2 ∧ j = j2 := by
  unfold childKey at h
  rw [natRepr_lt10 hi, natRepr_lt10 hj, natRepr_lt10 hi2, natRepr_lt10 hj2] at h
  rw [List.append_assoc, List.append_assoc, List.append_assoc, List.append_assoc] at h
  have h2 := List.append_cancel_left h
  rw [List.singleton_append, List.singleton_append] at h2
  have hhead := List.head_eq_of_cons_eq h2
  have htail := List.append_cancel_left (List.tail_eq_of_cons_eq h2)
  exact ⟨digitChar_inj i hi i2 hi2 hhead,
    digitChar_inj j hj j2 hj2 (List.head_eq_of_cons_eq htail)⟩

/-- One branch's child placement produces exactly its child keys, in order. -/
theorem positionChildrenAroundBranch_names (bx byy : ℝ) (ang : ℤ)
    (children : List MMChild) (i : ℕ) :
    (positionChildrenAroundBranch bx byy ang children i).map Prod.fst
      = (List.range children.length).map (fun j => childKey i j) := by
  unfold positionChildrenAroundBranch
  by_cases hn : children.length = 0
  · rw [if_pos hn]
    rw [List.length_eq_zero.mp hn]
    rfl
  · rw [if_neg hn]
    dsimp only
    refine foldl_names_eq (fun (st : List (PyStr × TreePos) × ℝ) => st.1.map Prod.fst)
      (fun (ic : ℕ × MMChild) => [childKey i ic.1]) ?_ _ _ ?_
    · intro st ic
      simp
    · rw [flatten_singletons (fun (ic : ℕ × MMChild) => childKey i ic.1)]
      dsimp only
      simp only [List.map_nil, List.nil_append]
      have h1 : (List.range children.length).map (fun j => childKey i j)
          = (children.enum.map Prod.fst).map (fun j => childKey i j) := by
        rw [List.enum_map_fst]
      rw [h1, List.map_map]
      rfl

/-- Mapping an enumerated zip by index and first component ignores the second list when the lengths agree. -/
theorem zipw_enumFrom_map {α β γ : Type} (g : ℕ → α → γ) :
    ∀ (l : List α) (w : List β) (k : ℕ), w.length = l.length →
      ((l.zip w).enumFrom k).map (fun iza => g iza.1 iza.2.1)
        = (l.enumFrom k).map (fun ic => g ic.1 ic.2) := by
  intro l
  induction l with
  | nil => intro w k _; rfl
  | cons x xs ih =>
    intro w k h
    cases w with
    | nil => simp at h
    | cons y ys =>
      simp only [List.zip_cons_cons, List.enumFrom, List.map_cons]
      rw [show List.zipWith Prod.mk xs ys = xs.zip ys from rfl, ih ys (k + 1) (by simpa using h)]

/-- The tree layout positions carry exactly the topic, branch and child keys, in order. -/
theorem generateMindMapLayout_names (topic : PyStr) (children : List MMBranch) :
    (generateMindMapLayout topic children).positions.map Prod.fst = treeKeys children := by
  unfold generateMindMapLayout treeKeys
  dsimp only
  rw [List.map_cons]
  refine congrArg (topicKey :: ·) ?_
  rw [List.map_flatten, List.map_map]
  have hcong : ((children.zip (mmAngles children.length)).enum).map
      (List.map Prod.fst ∘ (fun (iza : ℕ × MMBranch × ℤ) =>
        (branchKey iza.1, TreePos.mk
            ((((calculateAdaptiveBranchRadius ((children.map (·.children.length)).sum)
                children.length : ℤ) : ℚ) *
              (if children.length = 5 then ([1, 1.3, 1, 1, 1.3] : List ℚ)
                else List.replicate children.length 1).getD iza.1 1 : ℚ) *
              Real.cos ((iza.2.2 : ℝ) * Real.pi / 180))
            ((((calculateAdaptiveBranchRadius ((children.map (·.children.length)).sum)
                children.length : ℤ) : ℚ) *
              (if children.length = 5 then ([1, 1.3, 1, 1, 1.3] : List ℚ)
                else List.replicate children.length 1).getD iza.1 1 : ℚ) *
              Real.sin ((iza.2.2 : ℝ) * Real.pi / 180))
            (calculateTextWidth iza.2.1.label (getAdaptiveFontSize iza.2.1.label "branch")
              + getAdaptivePadding iza.2.1.label)
            ((getAdaptiveNodeHeight iza.2.1.label "branch" : ℚ)) "branch" iza.2.1.label) ::
          (if iza.2.1.children ≠ [] then
            positionChildrenAroundBranch
              ((((calculateAdaptiveBranchRadius ((children.map (·.children.length)).sum)
                  children.length : ℤ) : ℚ) *
                (if children.length = 5 then ([1, 1.3, 1, 1, 1.3] : List ℚ)
                  else List.replicate children.length 1).getD iza.1 1 : ℚ) *
                Real.cos ((iza.2.2 : ℝ) * Real.pi / 180))
              ((((calculateAdaptiveBranchRadius ((children.map (·.children.length)).sum)
                  children.length : ℤ) : ℚ) *
                (if children.length = 5 then ([1, 1.3, 1, 1, 1.3] : List ℚ)
                  else List.replicate children.length 1).getD iza.1 1 : ℚ) *
                Real.sin ((iza.2.2 : ℝ) * Real.pi / 180))
              iza.2.2 iza.2.1.children iza.1
          else [])))
      = ((children.zip (mmAngles children.length)).enum).map
        (fun iza => branchKey iza.1 ::
          (List.range iza.2.1.children.length).map (fun j => childKey iza.1 j)) := by
    refine List.map_congr_left ?_
    intro iza _
    simp only [Function.comp, List.map_cons]
    refine congrArg (branchKey iza.1 :: ·) ?_
    by_cases hc : iza.2.1.children ≠ []
    · rw [if_pos hc]
      exact positionChildrenAroundBranch_names _ _ _ _ _
    · rw [if_neg hc]
      have : iza.2.1.children = [] := not_not.mp (by simpa using hc)
      rw [this]
      rfl
  rw [hcong]
  have henum : (children.zip (mmAngles children.length)).enum
      = List.enumFrom 0 (children.zip (mmAngles children.length)) := rfl
  rw [henum, zipw_enumFrom_map (fun i b => branchKey i ::
    (List.range b.children.length).map (fun j => childKey i j)) children
    (mmAngles children.length) 0 (mmAngles_length children.length)]
  rfl

/-- One branch block's keys are distinct. -/
theorem treeKeys_block_nodup {i : ℕ} (hi : i < 10) {len : ℕ} (hlen : len < 10) :
    (branchKey i :: (List.range len).map (fun j => childKey i j)).Nodup := by
  refine List.nodup_cons.mpr ⟨?_, ?_⟩
  · intro hmem
    rcases List.mem_map.mp hmem with ⟨j, _, hj⟩
    exact branchKey_ne_childKey i i j hj.symm
  · refine (List.nodup_map_iff_inj_on (List.nodup_range len)).mpr ?_
    intro j hj j2 hj2 he
    exact (childKey_inj hi (lt_trans (List.mem_range.mp hj) hlen) hi
      (lt_trans (List.mem_range.mp hj2) hlen) he).2

/-- Under the 8-branch and 6-child caps, all tree layout keys are distinct. -/
theorem treeKeys_nodup (children : List MMBranch) (hlen : children.length ≤ 8)
    (hch : ∀ b ∈ children, b.children.length ≤ 6) : (treeKeys children).Nodup := by
  unfold treeKeys
  have hidx : ∀ p ∈ children.enum, p.1 < 10 ∧ p.2.children.length < 10 := by
    intro p hp
    constructor
    · have h1 : p.1 ∈ children.enum.map Prod.fst := List.mem_map_of_mem Prod.fst hp
      rw [List.enum_map_fst] at h1
      have := List.mem_range.mp h1
      omega
    · have h2 : p.2 ∈ children.enum.map Prod.snd := List.mem_map_of_mem Prod.snd hp
      rw [List.enum_map_snd] at h2
      have := hch p.2 h2
      omega
  refine List.nodup_cons.mpr ⟨?_, ?_⟩
  · intro hmem
    rcases List.mem_flatten.mp hmem with ⟨blk, hblk, htop⟩
    rcases List.mem_map.mp hblk with ⟨p, hp, hpe⟩
    subst hpe
    rcases List.mem_cons.mp htop with h | h
    · exact topicKey_ne_branchKey p.1 h
    · rcases List.mem_map.mp h with ⟨j, _, hj⟩
      exact topicKey_ne_childKey p.1 j hj.symm
  · rw [List.nodup_flatten]
    constructor
    · intro blk hblk
      rcases List.mem_map.mp hblk with ⟨p, hp, hpe⟩
      subst hpe
      exact treeKeys_block_nodup (hidx p hp).1 (hidx p hp).2
    · rw [List.pairwise_map]
      have hlt : children.enum.Pairwise (fun a b => a.1 < b.1) := by
        have h1 : (children.enum.map Prod.fst).Pairwise (· < ·) := by
          rw [List.enum_map_fst]
          exact List.pairwise_lt_range children.length
        exact (List.pairwise_map.mp h1)
      refine List.Pairwise.imp_of_mem ?_ hlt
      intro a b ha hb hab
      intro x hxa hxb
      have hane : a.1 ≠ b.1 := Nat.ne_of_lt hab
      rcases List.mem_cons.mp hxa with h1 | h1 <;> rcases List.mem_cons.mp hxb with h2 | h2
      · exact hane (branchKey_inj (hidx a ha).1 (hidx b hb).1 (h1 ▸ h2 ▸ rfl))
      · rcases List.mem_map.mp h2 with ⟨j, _, hj⟩
        exact branchKey_ne_childKey a.1 b.1 j (h1 ▸ hj ▸ rfl)
      · rcases List.mem_map.mp h1 with ⟨j, _, hj⟩
        exact branchKey_ne_childKey b.1 a.1 j (h2 ▸ hj ▸ rfl)
      · rcases List.mem_map.mp h1 with ⟨j, hjr, hj⟩
        rcases List.mem_map.mp h2 with ⟨j2, hj2r, hj2⟩
        refine hane (childKey_inj (hidx a ha).1 ?_ (hidx b hb).1 ?_ (hj.trans hj2.symm)).1
        · exact lt_trans (List.mem_range.mp hjr) (hidx a ha).2
        · exact lt_trans (List.mem_range.mp hj2r) (hidx b hb).2

/-- In a duplicate-free list a member is counted exactly once. -/
theorem countP_eq_one_of_nodup_mem {l : List PyStr} {n : PyStr}
    (hnd : l.Nodup) (hn : n ∈ l) : l.countP (fun m => m = n) = 1 := by
  induction l with
  | nil => cases hn
  | cons x xs ih =>
    rw [List.countP_cons]
    rcases List.mem_cons.mp hn with h | h
    · have hzero : xs.countP (fun m => m = n) = 0 := by
        rw [List.countP_eq_zero]
        intro a ha
        simp only [decide_eq_true_eq]
        intro hax
        have hxs : x ∈ xs := (hax.trans h) ▸ ha
        exact (List.nodup_cons.mp hnd).1 hxs
      rw [hzero]
      have hx : x = n := h.symm
      simp [hx]
    · rw [ih (List.nodup_cons.mp hnd).2 h]
      have hne : ¬ (x = n) := by
        intro hxn
        exact (List.nodup_cons.mp hnd).1 (hxn ▸ h)
      simp [hne]

/-- C2 (amended): for successful calls, the tree layout's positions list
exactly the topic key, one branch key per branch and one child key per
child, each exactly once; the graph engine's radial strategy, and its
layered strategy whenever at least one concept is retained, position the
topic and every retained concept exactly once, which covers both endpoints
of every output relationship.  The layered strategy with zero retained
concepts returns an empty positions map (even the topic is absent), and
the sector layout taken when the spec carries a usable keys list positions
the topic, the extracted keys and their parts rather than the retained
concepts, so relationship endpoints may lack entries there. -/
theorem c2_positions_cover {rng rng42 : ℕ → ℝ} {specG specT : PyVal}
    {outG : CMSpecOut} {outT : MMSpecOut}
    (hg : enhanceCM rng rng42 specG = .ok outG)
    (ht : enhanceMM specT = .ok outT) :
    ((outG.topic :: outG.concepts).Nodup) ∧
    (∀ r ∈ outG.relationships,
      (r.frm ∈ outG.topic :: outG.concepts) ∧ (r.dst ∈ outG.topic :: outG.concepts)) ∧
    (outG.layout = radialLayout rng outG.topic outG.concepts outG.relationships →
      ∀ n ∈ outG.topic :: outG.concepts,
        (outG.layout.positions.map Prod.fst).countP (fun m => m = n) = 1) ∧
    (outG.layout = sugiyamaLayout outG.topic outG.concepts outG.relationships →
      outG.concepts ≠ [] →
      ∀ n ∈ outG.topic :: outG.concepts,
        (outG.layout.positions.map Prod.fst).countP (fun m => m = n) = 1) ∧
    (outT.layout.positions.map Prod.fst = treeKeys outT.children) ∧
    ((treeKeys outT.children).Nodup) ∧
    (∀ k ∈ treeKeys outT.children,
      (outT.layout.positions.map Prod.fst).countP (fun m => m = k) = 1) := by
  obtain ⟨kvs, t, cs, rs, hspec, htp, hcs, hrs, hts, htop, hcon, hrel, hdims, hlay⟩ :=
    enhanceCM_ok_inv hg
  obtain ⟨kvsT, tT, csT, resT, hspecT, htpT, hcsT, htsT, hblT, hresT, htopT, hchT, hlayT,
    hdimsT⟩ := enhanceMM_ok_inv ht
  have hnodup : (outG.topic :: outG.concepts).Nodup := by
    rw [htop, hcon]
    exact normalizeSpec_nodup t cs rs
  have hcaps := mmBranchLoop_ok_le csT [] [] resT hblT (by simp) (by simp)
  have htreeNames : outT.layout.positions.map Prod.fst = treeKeys outT.children := by
    rw [hlayT, hchT]
    exact generateMindMapLayout_names (pyStrip tT) resT.1
  have htreeNodup : (treeKeys outT.children).Nodup := by
    rw [hchT]
    exact treeKeys_nodup resT.1 hcaps.1 hcaps.2
  refine ⟨hnodup, ?_, ?_, ?_, htreeNames, htreeNodup, ?_⟩
  · intro r hr
    rw [hrel] at hr
    have := normalizeSpec_rel_endpoints t cs rs r hr
    rw [htop, hcon]
    simpa [List.mem_cons, or_comm] using this
  · intro hlr n hn
    rw [hlr, List.Perm.countP_eq _
      (radialLayout_names_perm rng outG.topic outG.concepts outG.relationships)]
    exact countP_eq_one_of_nodup_mem hnodup hn
  · intro hls hc n hn
    rw [hls, List.Perm.countP_eq _
      (sugiyamaLayout_names_perm outG.topic outG.concepts outG.relationships hc)]
    exact countP_eq_one_of_nodup_mem hnodup hn
  · intro k hk
    rw [htreeNames]
    exact countP_eq_one_of_nodup_mem htreeNodup hk

/-- Witness for C2 at concrete one-concept and one-branch specs. -/
theorem c2_positions_cover_witness :
    ∃ outG outT,
      enhanceCM zeroStream zeroStream
        (mkSpec [("topic", .str "T".toList), ("concepts", .list [.str "A".toList])])
        = .ok outG ∧
      enhanceMM (mkSpec [("topic", .str "T".toList),
        ("children", .list [mkSpec [("id", .str "b1".toList),
          ("label", .str "B1".toList)]])]) = .ok outT ∧
      (outG.topic :: outG.concepts).Nodup ∧
      (outG.layout.positions.map Prod.fst).countP (fun m => m = "A".toList) = 1 ∧
      outT.layout.positions.map Prod.fst = treeKeys outT.children ∧
      (outT.layout.positions.map Prod.fst).countP (fun m => m = topicKey) = 1 := by
  refine ⟨_, _, rfl, rfl, ?_, ?_, ?_, ?_⟩
  all_goals
    have H := c2_positions_cover
      (show enhanceCM zeroStream zeroStream
        (mkSpec [("topic", .str "T".toList), ("concepts", .list [.str "A".toList])])
        = .ok _ from rfl)
      (show enhanceMM (mkSpec [("topic", .str "T".toList),
        ("children", .list [mkSpec [("id", .str "b1".toList),
          ("label", .str "B1".toList)]])]) = .ok _ from rfl)
  · exact H.1
  · exact H.2.2.2.1 rfl (by decide) "A".toList (by decide)
  · exact H.2.2.2.2.1
  · exact H.2.2.2.2.2.2 topicKey (by decide)

/-- C2 counterexample: a successful layered call with zero retained
concepts leaves even the topic without a positions entry, and a successful
keys-list call positions only the topic and the keys, leaving the
relationship endpoint A without an entry. -/
theorem c2_counterexample_empty_and_keys :
    (∃ out, enhanceCM zeroStream zeroStream (mkSpec [("topic", .str "T".toList)]) = .ok out ∧
      out.topic = "T".toList ∧ out.layout.positions = []) ∧
    (∃ out, enhanceCM zeroStream zeroStream (mkSpec
        [("topic", .str "T".toList),
         ("concepts", .list [.str "A".toList, .str "B".toList]),
         ("relationships", .list [.dict [("from".toList, .str "A".toList),
            ("to".toList, .str "B".toList), ("label".toList, .str "x".toList)]]),
         ("keys", .list [.str "K".toList])]) = .ok out ∧
      out.relationships = [⟨"A".toList, "B".toList, "x".toList⟩] ∧
      out.layout.positions.map Prod.fst = ["T".toList, "K".toList] ∧
      "A".toList ∉ out.layout.positions.map Prod.fst) :=
  ⟨⟨_, rfl, rfl, rfl⟩, ⟨_, rfl, rfl, rfl, by decide⟩⟩

/-- A rational clamp lands in its band. -/
theorem clamp_bounds_q (b v : ℚ) (hb : 0 ≤ b) :
    -b ≤ max (-b) (min b v) ∧ max (-b) (min b v) ≤ b :=
  ⟨le_max_left _ _, max_le (by linarith) (min_le_left _ _)⟩

/-- The layered clamp, cast to the reals, lands in the 0.95 band. -/
theorem clamp_cast_bounds (v : ℚ) :
    (-0.95 : ℝ) ≤ ((max (-0.95) (min 0.95 v) : ℚ) : ℝ) ∧
    ((max (-0.95) (min 0.95 v) : ℚ) : ℝ) ≤ 0.95 := by
  have h1 := (clamp_bounds_q 0.95 v (by norm_num)).1
  have h2 := (clamp_bounds_q 0.95 v (by norm_num)).2
  constructor
  · rw [show ((-0.95 : ℝ)) = (((-0.95 : ℚ)) : ℝ) by norm_num]
    exact Rat.cast_le.mpr h1
  · rw [show ((0.95 : ℝ)) = (((0.95 : ℚ)) : ℝ) by norm_num]
    exact Rat.cast_le.mpr h2

/-- Every layered-layout coordinate is clamped into the 0.95 band. -/
theorem sugiyamaLayout_bounds (topic : PyStr) (concepts : List PyStr) (rels : List RelOut) :
    ∀ e ∈ (sugiyamaLayout topic concepts rels).positions,
      -0.95 ≤ e.2.x ∧ e.2.x ≤ 0.95 ∧ -0.95 ≤ e.2.y ∧ e.2.y ≤ 0.95 := by
  unfold sugiyamaLayout
  by_cases hc : concepts = []
  · rw [if_pos hc]
    intro e he
    cases he
  · rw [if_neg hc]
    dsimp only
    intro e he
    rcases List.mem_flatten.mp he with ⟨blk, hblk, hin⟩
    rcases List.mem_map.mp hblk with ⟨l, _, hble⟩
    subst hble
    rcases List.mem_map.mp hin with ⟨ncx, _, hee⟩
    subst hee
    dsimp only
    exact ⟨(clamp_cast_bounds _).1, (clamp_cast_bounds _).2,
      (clamp_cast_bounds _).1, (clamp_cast_bounds _).2⟩

/-- A real clamp lands in its band. -/
theorem clamp_bounds_r (b v : ℝ) (hb : 0 ≤ b) :
    -b ≤ max (-b) (min b v) ∧ max (-b) (min b v) ≤ b :=
  ⟨le_max_left _ _, max_le (by linarith) (min_le_left _ _)⟩

/-- A member of an accumulating fold is initial or was appended by one step. -/
theorem foldl_append_entry_mem {σ El A : Type} (proj : σ → List A) (F : σ → El → σ)
    (P : A → Prop)
    (hF : ∀ st x a, a ∈ proj (F st x) → a ∈ proj st ∨ P a) :
    ∀ (l : List El) (st : σ) a, a ∈ proj (l.foldl F st) → a ∈ proj st ∨ P a := by
  intro l
  induction l with
  | nil => intro st a ha; exact Or.inl ha
  | cons x xs ih =>
    intro st a ha
    rcases ih (F st x) a ha with h | h
    · exact hF st x a h
    · exact Or.inr h

/-- Part placements around a key are clamped into the 0.9 band. -/
theorem sectorsPartsAround_bounds (rng42 : ℕ → ℝ) (kx ky : ℝ) (parts : List PyStr)
    (i : ℕ) :
    ∀ e ∈ (sectorsPartsAround rng42 kx ky parts i).1,
      -0.9 ≤ e.2.x ∧ e.2.x ≤ 0.9 ∧ -0.9 ≤ e.2.y ∧ e.2.y ≤ 0.9 := by
  unfold sectorsPartsAround
  dsimp only
  intro e he
  have hstep := foldl_append_entry_mem (fun (st : List (PyStr × GPos) × ℕ) => st.1) _
    (fun (e : PyStr × GPos) =>
      -0.9 ≤ e.2.x ∧ e.2.x ≤ 0.9 ∧ -0.9 ≤ e.2.y ∧ e.2.y ≤ 0.9) ?_ parts.enum ([], i) e he
  · rcases hstep with h | h
    · cases h
    · exact h
  · intro st x a ha
    rcases List.mem_append.mp ha with h | h
    · exact Or.inl h
    · rw [List.mem_singleton] at h
      subst h
      refine Or.inr ⟨?_, ?_, ?_, ?_⟩
    
      · exact (clamp_bounds_r 0.9 _ (by norm_num)).1
      · exact (clamp_bounds_r 0.9 _ (by norm_num)).2
      · exact (clamp_bounds_r 0.9 _ (by norm_num)).1
      · exact (clamp_bounds_r 0.9 _ (by norm_num)).2

/-- A radius bound survives multiplying by a cosine. -/
theorem abs_mul_cos_le {r b : ℝ} (θ : ℝ) (h : |r| ≤ b) : |r * Real.cos θ| ≤ b := by
  rw [abs_mul]
  have hc := Real.abs_cos_le_one θ
  have hb : 0 ≤ b := le_trans (abs_nonneg r) h
  nlinarith [abs_nonneg r, abs_nonneg (Real.cos θ)]

/-- A radius bound survives multiplying by a sine. -/
theorem abs_mul_sin_le {r b : ℝ} (θ : ℝ) (h : |r| ≤ b) : |r * Real.sin θ| ≤ b := by
  rw [abs_mul]
  have hc := Real.abs_sin_le_one θ
  have hb : 0 ≤ b := le_trans (abs_nonneg r) h
  nlinarith [abs_nonneg r, abs_nonneg (Real.sin θ)]

/-- All key-position table entries and computed rings stay within the unit band. -/
theorem sectorsKeyPos_bounds (s : ℕ) :
    ∀ p ∈ sectorsKeyPos s, |p.1| ≤ 1 ∧ |p.2| ≤ 1 := by
  unfold sectorsKeyPos
  by_cases h4 : s ≤ 4
  · rw [if_pos h4]
    intro p hp
    fin_cases hp <;> constructor <;> rw [abs_le] <;> constructor <;> norm_num
  · rw [if_neg h4]
    by_cases h6 : s ≤ 6
    · rw [if_pos h6]
      intro p hp
      fin_cases hp <;> constructor <;> rw [abs_le] <;> constructor <;> norm_num
    · rw [if_neg h6]
      intro p hp
      rcases List.mem_map.mp hp with ⟨i, _, hpe⟩
      subst hpe
      dsimp only
      have hr : |0.5 + 0.2 * Real.sin ((i : ℝ) * 1.3)| ≤ 1 := by
        have hs1 := Real.neg_one_le_sin ((i : ℝ) * 1.3)
        have hs2 := Real.sin_le_one ((i : ℝ) * 1.3)
        rw [abs_le]
        constructor <;> nlinarith
      exact ⟨abs_mul_cos_le _ hr, abs_mul_sin_le _ hr⟩

set_option maxHeartbeats 1000000 in
/-- Every coordinate of a successful fallback sector layout stays within
the unit band: keys from the table or rings, parts clamped to 0.9. -/
theorem generateLayoutSectors_bounds (rng42 : ℕ → ℝ) (topic : PyStr) (cv rv : PyVal)
    {L : CMLayout} (h : generateLayoutSectors rng42 topic cv rv = .ok L) :
    ∀ e ∈ L.positions, -1 ≤ e.2.x ∧ e.2.x ≤ 1 ∧ -1 ≤ e.2.y ∧ e.2.y ≤ 1 := by
  have hbody : ∀ (keyXY : List (PyStr × ℝ × ℝ)) (blocks : List (PyStr × GPos)),
      (∀ kxy ∈ keyXY, |kxy.2.1| ≤ 1 ∧ |kxy.2.2| ≤ 1) →
      (∀ e ∈ blocks, -0.9 ≤ e.2.x ∧ e.2.x ≤ 0.9 ∧ -0.9 ≤ e.2.y ∧ e.2.y ≤ 0.9) →
      ∀ e ∈ (topic, GPos.mk 0 0) ::
          keyXY.map (fun kxy => (kxy.1, GPos.mk kxy.2.1 kxy.2.2)) ++ blocks,
        -1 ≤ e.2.x ∧ e.2.x ≤ 1 ∧ -1 ≤ e.2.y ∧ e.2.y ≤ 1 := by
    intro keyXY blocks hk hb e he
    rcases List.mem_cons.mp he with he | he
    · subst he
      norm_num
    rcases List.mem_append.mp he with he | he
    · rcases List.mem_map.mp he with ⟨kxy, hkxy, hee⟩
      subst hee
      obtain ⟨h1, h2⟩ := hk kxy hkxy
      rw [abs_le] at h1 h2
      exact ⟨h1.1, h1.2, h2.1, h2.2⟩
    · obtain ⟨h1, h2, h3, h4⟩ := hb e he
      exact ⟨by linarith, by linarith, by linarith, by linarith⟩
  have hkeyXY : ∀ (keys : List PyStr),
      ∀ kxy ∈ keys.enum.map (fun ik =>
        if h : ik.1 < (sectorsKeyPos (max 1 keys.length)).length
        then (ik.2, (sectorsKeyPos (max 1 keys.length)).get ⟨ik.1, h⟩)
        else (ik.2,
          (0.6 * Real.cos ((ik.1 : ℝ) * 2 * Real.pi / ((max 1 keys.length : ℕ) : ℝ)
              - Real.pi / 2),
           0.6 * Real.sin ((ik.1 : ℝ) * 2 * Real.pi / ((max 1 keys.length : ℕ) : ℝ)
              - Real.pi / 2)))),
        |kxy.2.1| ≤ 1 ∧ |kxy.2.2| ≤ 1 := by
    intro keys kxy hkxy
    rcases List.mem_map.mp hkxy with ⟨ik, _, hke⟩
    subst hke
    split
    · next hlt =>
      exact sectorsKeyPos_bounds _ _ (List.get_mem _ _ hlt)
    · constructor
      · exact abs_mul_cos_le _ (by rw [abs_le]; constructor <;> norm_num)
      · exact abs_mul_sin_le _ (by rw [abs_le]; constructor <;> norm_num)
  unfold generateLayoutSectors at h
  cases cv with
  | none =>
    dsimp only at h
    split at h
    · cases h
    · simp only [pure, Except.pure] at h
      cases h
      intro e he
      cases he
  | bool b =>
    dsimp only at h
    split at h
    · cases h
    · simp only [pure, Except.pure] at h
      cases h
      intro e he
      cases he
  | int n =>
    dsimp only at h
    split at h
    · cases h
    · simp only [pure, Except.pure] at h
      cases h
      intro e he
      cases he
  | str s =>
    dsimp only at h
    split at h
    · cases h
    · simp only [pure, Except.pure] at h
      cases h
      intro e he
      cases he
  | dict kvs2 =>
    dsimp only at h
    split at h
    · cases h
    · simp only [pure, Except.pure] at h
      cases h
      intro e he
      cases he
  | list xs =>
    dsimp only at h
    by_cases hemp : xs.isEmpty
    · rw [if_pos hemp] at h
      simp only [pure, Except.pure] at h
      cases h
      intro e he
      cases he
    · rw [if_neg hemp] at h
      simp only [bind, Except.bind, pure, Except.pure] at h
      split at h
      · cases h
      · cases rv with
        | list rs =>
          dsimp only at h
          split at h
          · cases h
          · cases h
            refine hbody _ _ (hkeyXY _) ?_
            intro e he
            have hstep := foldl_append_entry_mem
              (fun (st : List (PyStr × GPos) × ℕ) => st.1) _
              (fun (e : PyStr × GPos) =>
                -0.9 ≤ e.2.x ∧ e.2.x ≤ 0.9 ∧ -0.9 ≤ e.2.y ∧ e.2.y ≤ 0.9) ?_ _ ([], 0) e he
            · rcases hstep with h | h
              · cases h
              · obtain ⟨h1, h2, h3, h4⟩ := h
                exact ⟨by linarith, by linarith, by linarith, by linarith⟩
            · intro st x a ha
              rcases List.mem_append.mp ha with ha | ha
              · exact Or.inl ha
              · exact Or.inr (sectorsPartsAround_bounds rng42 _ _ _ _ a ha)
        | none =>
          dsimp only at h
          split at h
          · cases h
          · split at h
            · cases h
            · cases h
              refine hbody _ _ (hkeyXY _) ?_
              intro e he
              have hstep := foldl_append_entry_mem
                (fun (st : List (PyStr × GPos) × ℕ) => st.1) _
                (fun (e : PyStr × GPos) =>
                  -0.9 ≤ e.2.x ∧ e.2.x ≤ 0.9 ∧ -0.9 ≤ e.2.y ∧ e.2.y ≤ 0.9) ?_ _ ([], 0) e he
              · rcases hstep with h | h
                · cases h
                · obtain ⟨h1, h2, h3, h4⟩ := h
                  exact ⟨by linarith, by linarith, by linarith, by linarith⟩
              · intro st x a ha
                rcases List.mem_append.mp ha with ha | ha
                · exact Or.inl ha
                · exact Or.inr (sectorsPartsAround_bounds rng42 _ _ _ _ a ha)
        | bool b2 =>
          dsimp only at h
          split at h
          · cases h
          · split at h
            · cases h
            · cases h
              refine hbody _ _ (hkeyXY _) ?_
              intro e he
              have hstep := foldl_append_entry_mem
                (fun (st : List (PyStr × GPos) × ℕ) => st.1) _
                (fun (e : PyStr × GPos) =>
                  -0.9 ≤ e.2.x ∧ e.2.x ≤ 0.9 ∧ -0.9 ≤ e.2.y ∧ e.2.y ≤ 0.9) ?_ _ ([], 0) e he
              · rcases hstep with h | h
                · cases h
                · obtain ⟨h1, h2, h3, h4⟩ := h
                  exact ⟨by linarith, by linarith, by linarith, by linarith⟩
              · intro st x a ha
                rcases List.mem_append.mp ha with ha | ha
                · exact Or.inl ha
                · exact Or.inr (sectorsPartsAround_bounds rng42 _ _ _ _ a ha)
        | int n2 =>
          dsimp only at h
          split at h
          · cases h
          · split at h
            · cases h
            · cases h
              refine hbody _ _ (hkeyXY _) ?_
              intro e he
              have hstep := foldl_append_entry_mem
                (fun (st : List (PyStr × GPos) × ℕ) => st.1) _
                (fun (e : PyStr × GPos) =>
                  -0.9 ≤ e.2.x ∧ e.2.x ≤ 0.9 ∧ -0.9 ≤ e.2.y ∧ e.2.y ≤ 0.9) ?_ _ ([], 0) e he
              · rcases hstep with h | h
                · cases h
                · obtain ⟨h1, h2, h3, h4⟩ := h
                  exact ⟨by linarith, by linarith, by linarith, by linarith⟩
              · intro st x a ha
                rcases List.mem_append.mp ha with ha | ha
                · exact Or.inl ha
                · exact Or.inr (sectorsPartsAround_bounds rng42 _ _ _ _ a ha)
        | str s2 =>
          dsimp only at h
          split at h
          · cases h
          · split at h
            · cases h
            · cases h
              refine hbody _ _ (hkeyXY _) ?_
              intro e he
              have hstep := foldl_append_entry_mem
                (fun (st : List (PyStr × GPos) × ℕ) => st.1) _
                (fun (e : PyStr × GPos) =>
                  -0.9 ≤ e.2.x ∧ e.2.x ≤ 0.9 ∧ -0.9 ≤ e.2.y ∧ e.2.y ≤ 0.9) ?_ _ ([], 0) e he
              · rcases hstep with h | h
                · cases h
                · obtain ⟨h1, h2, h3, h4⟩ := h
                  exact ⟨by linarith, by linarith, by linarith, by linarith⟩
              · intro st x a ha
                rcases List.mem_append.mp ha with ha | ha
                · exact Or.inl ha
                · exact Or.inr (sectorsPartsAround_bounds rng42 _ _ _ _ a ha)
        | dict kvs3 =>
          dsimp only at h
          split at h
          · cases h
          · split at h
            · cases h
            · cases h
              refine hbody _ _ (hkeyXY _) ?_
              intro e he
              have hstep := foldl_append_entry_mem
                (fun (st : List (PyStr × GPos) × ℕ) => st.1) _
                (fun (e : PyStr × GPos) =>
                  -0.9 ≤ e.2.x ∧ e.2.x ≤ 0.9 ∧ -0.9 ≤ e.2.y ∧ e.2.y ≤ 0.9) ?_ _ ([], 0) e he
              · rcases hstep with h | h
                · cases h
                · obtain ⟨h1, h2, h3, h4⟩ := h
                  exact ⟨by linarith, by linarith, by linarith, by linarith⟩
              · intro st x a ha
                rcases List.mem_append.mp ha with ha | ha
                · exact Or.inl ha
                · exact Or.inr (sectorsPartsAround_bounds rng42 _ _ _ _ a ha)

/-- Every keys-and-parts sector coordinate stays within the unit band. -/
theorem sectorsKPPositions_bounds (topic : PyStr) (keys : List PyStr)
    (kp : List (PyStr × List PyStr)) :
    ∀ e ∈ (sectorsKPPositions topic keys kp).positions,
      -1 ≤ e.2.x ∧ e.2.x ≤ 1 ∧ -1 ≤ e.2.y ∧ e.2.y ≤ 1 := by
  unfold sectorsKPPositions
  dsimp only
  have hinner : ((0.2 : ℚ) ≤ max 0.2 (min 0.5 (0.8 / ((max 1 keys.length : ℕ) : ℚ)))) ∧
      (max 0.2 (min 0.5 (0.8 / ((max 1 keys.length : ℕ) : ℚ))) ≤ 0.5) :=
    ⟨le_max_left _ _, max_le (by norm_num) (min_le_left _ _)⟩
  have hcu : ((0 : ℚ) ≤ min 0.95 (0.7 + (((kp.map (fun x => x.2.length)).sum : ℕ) : ℚ) / 60)) ∧
      (min 0.95 (0.7 + (((kp.map (fun x => x.2.length)).sum : ℕ) : ℚ) / 60) ≤ 0.95) := by
    constructor
    · refine le_min (by norm_num) ?_
      have : (0 : ℚ) ≤ (((kp.map (fun x => x.2.length)).sum : ℕ) : ℚ) := Nat.cast_nonneg _
      linarith
    · exact min_le_left _ _
  intro e he
  rcases List.mem_cons.mp he with he | he
  · subst he
    norm_num
  rcases List.mem_flatten.mp he with ⟨blk, hblk, hin⟩
  rcases List.mem_map.mp hblk with ⟨ik, _, hble⟩
  subst hble
  rcases List.mem_cons.mp hin with hin | hin
  · subst hin
    dsimp only
    have habs : |((max 0.2 (min 0.5 (0.8 / ((max 1 keys.length : ℕ) : ℚ))) : ℚ) : ℝ)| ≤ 1 := by
      rw [abs_le]
      constructor
      · rw [show ((-1 : ℝ)) = (((-1 : ℚ)) : ℝ) by norm_num]
        exact Rat.cast_le.mpr (by linarith [hinner.1])
      · rw [show ((1 : ℝ)) = (((1 : ℚ)) : ℝ) by norm_num]
        exact Rat.cast_le.mpr (by linarith [hinner.2])
    refine ⟨?_, ?_, ?_, ?_⟩
    · have := abs_mul_cos_le ((ik.1 : ℝ) * (2 * Real.pi / ((max 1 keys.length : ℕ) : ℝ))) habs
      rw [abs_le] at this
      exact le_trans (by norm_num) this.1
    · have := abs_mul_cos_le ((ik.1 : ℝ) * (2 * Real.pi / ((max 1 keys.length : ℕ) : ℝ))) habs
      rw [abs_le] at this
      exact le_trans this.2 (by norm_num)
    · have := abs_mul_sin_le ((ik.1 : ℝ) * (2 * Real.pi / ((max 1 keys.length : ℕ) : ℝ))) habs
      rw [abs_le] at this
      exact le_trans (by norm_num) this.1
    · have := abs_mul_sin_le ((ik.1 : ℝ) * (2 * Real.pi / ((max 1 keys.length : ℕ) : ℝ))) habs
      rw [abs_le] at this
      exact le_trans this.2 (by norm_num)
  · rcases List.mem_map.mp hin with ⟨jp, _, hje⟩
    subst hje
    dsimp only
    have hb0 : (0 : ℝ) ≤ ((min 0.95 (0.7 + (((kp.map (fun x => x.2.length)).sum : ℕ) : ℚ) / 60) * 1.05 : ℚ) : ℝ) := by
      rw [show ((0 : ℝ)) = (((0 : ℚ)) : ℝ) by norm_num]
      exact Rat.cast_le.mpr (by nlinarith [hcu.1, hcu.2])
    have hb1 : ((min 0.95 (0.7 + (((kp.map (fun x => x.2.length)).sum : ℕ) : ℚ) / 60) * 1.05 : ℚ) : ℝ) ≤ 1 := by
      rw [show ((1 : ℝ)) = (((1 : ℚ)) : ℝ) by norm_num]
      exact Rat.cast_le.mpr (by nlinarith [hcu.1, hcu.2])
    obtain ⟨hc1, hc2⟩ := clamp_bounds_r _
      (((min 0.95 (0.7 + (((kp.map (fun x => x.2.length)).sum : ℕ) : ℚ) / 60) * 1.05 : ℚ) : ℝ)) hb0
    refine ⟨?_, ?_, ?_, ?_⟩
    · exact le_trans (by linarith) (clamp_bounds_r _ _ hb0).1
    · exact le_trans (clamp_bounds_r _ _ hb0).2 hb1
    · exact le_trans (by linarith) (clamp_bounds_r _ _ hb0).1
    · exact le_trans (clamp_bounds_r _ _ hb0).2 hb1

/-- Every coordinate of a successful keys-and-parts layout stays within the unit band. -/
theorem sectorsFromKeysParts_bounds (rng42 : ℕ → ℝ) (topic : PyStr) (spec : PyVal)
    {L : CMLayout} (h : sectorsFromKeysParts rng42 topic spec = .ok L) :
    ∀ e ∈ L.positions, -1 ≤ e.2.x ∧ e.2.x ≤ 1 ∧ -1 ≤ e.2.y ∧ e.2.y ≤ 1 := by
  unfold sectorsFromKeysParts at h
  dsimp only at h
  split at h
  · exact generateLayoutSectors_bounds rng42 topic _ _ h
  · simp only [bind, Except.bind, pure, Except.pure] at h
    split at h
    · split at h
      · cases h
      · cases h
        exact sectorsKPPositions_bounds topic _ _
    · cases h

/-- C1 (amended): successful graph-engine positions are normalized for the
clamped strategies — the layered strategy keeps every coordinate in
[-0.95, 0.95] and both sector layouts keep every coordinate in [-1, 1].
The radial strategy instead places concepts on rings of radius 1.8 to 5.0,
and the tree engine emits pixel-scale coordinates, so neither obeys the
[-1, 1] normalization. -/
theorem c1_position_bounds {rng rng42 : ℕ → ℝ} {spec : PyVal} {out : CMSpecOut}
    (h : enhanceCM rng rng42 spec = .ok out) :
    (out.layout = sugiyamaLayout out.topic out.concepts out.relationships →
      ∀ e ∈ out.layout.positions,
        -0.95 ≤ e.2.x ∧ e.2.x ≤ 0.95 ∧ -0.95 ≤ e.2.y ∧ e.2.y ≤ 0.95) ∧
    (sectorsFromKeysParts rng42 out.topic spec = .ok out.layout →
      ∀ e ∈ out.layout.positions,
        -1 ≤ e.2.x ∧ e.2.x ≤ 1 ∧ -1 ≤ e.2.y ∧ e.2.y ≤ 1) := by
  constructor
  · intro hl e he
    rw [hl] at he
    exact sugiyamaLayout_bounds out.topic out.concepts out.relationships e he
  · intro hs e he
    exact sectorsFromKeysParts_bounds rng42 out.topic spec hs e he

/-- Witness for C1 at a concrete layered spec and a concrete keys spec. -/
theorem c1_position_bounds_witness :
    (∃ out, enhanceCM zeroStream zeroStream
        (mkSpec [("topic", .str "T".toList), ("concepts", .list [.str "A".toList])]) = .ok out ∧
      ∀ e ∈ out.layout.positions,
        -0.95 ≤ e.2.x ∧ e.2.x ≤ 0.95 ∧ -0.95 ≤ e.2.y ∧ e.2.y ≤ 0.95) ∧
    (∃ out, enhanceCM zeroStream zeroStream
        (mkSpec [("topic", .str "T".toList), ("keys", .list [.str "K".toList])]) = .ok out ∧
      ∀ e ∈ out.layout.positions,
        -1 ≤ e.2.x ∧ e.2.x ≤ 1 ∧ -1 ≤ e.2.y ∧ e.2.y ≤ 1) := by
  constructor
  · refine ⟨_, rfl, ?_⟩
    exact (c1_position_bounds (show enhanceCM zeroStream zeroStream
      (mkSpec [("topic", .str "T".toList), ("concepts", .list [.str "A".toList])])
      = .ok _ from rfl)).1 rfl
  · refine ⟨_, rfl, ?_⟩
    exact (c1_position_bounds (show enhanceCM zeroStream zeroStream
      (mkSpec [("topic", .str "T".toList), ("keys", .list [.str "K".toList])])
      = .ok _ from rfl)).2 rfl

/-- Concrete radial layout of a single concept: it lands on the ring of radius 3. -/
theorem radial_single_eval (rng : ℕ → ℝ) :
    (radialLayout rng "T".toList ["A".toList] []).positions
      = [("T".toList, GPos.mk 0 0),
         ("A".toList, GPos.mk (3 * Real.cos 0) (3 * Real.sin 0))] := by
  unfold radialLayout
  norm_num [groupInsOrder, List.enum, List.enumFrom, min_def]

/-- C1 counterexample: under the radial strategy the single concept A sits
at x = 3 · cos 0 = 3, far outside [-1, 1], in a successful call. -/
theorem c1_counterexample_radial_radius :
    ∃ out, enhanceCM zeroStream zeroStream (mkSpec
        [("topic", .str "T".toList), ("concepts", .list [.str "A".toList]),
         ("_method", .str "enhanced_30".toList)]) = .ok out ∧
      out.layout.algorithm = "radial" ∧
      out.layout.positions = [("T".toList, GPos.mk 0 0),
        ("A".toList, GPos.mk (3 * Real.cos 0) (3 * Real.sin 0))] ∧
      3 * Real.cos 0 = 3 ∧ (1 : ℝ) < 3 * Real.cos 0 := by
  refine ⟨_, rfl, rfl, ?_, by norm_num, by norm_num⟩
  have h1 : (normalizeSpec "T".toList [PyVal.str "A".toList] []).topic = "T".toList := by
    decide
  have h2 : (normalizeSpec "T".toList [PyVal.str "A".toList] []).concepts
      = ["A".toList] := by decide
  have h3 : (normalizeSpec "T".toList [PyVal.str "A".toList] []).rels = [] := by decide
  show (radialLayout zeroStream (normalizeSpec "T".toList [PyVal.str "A".toList] []).topic
    (normalizeSpec "T".toList [PyVal.str "A".toList] []).concepts
    (normalizeSpec "T".toList [PyVal.str "A".toList] []).rels).positions = _
  rw [h1, h2, h3, radial_single_eval]

theorem computeRecommendedDimensionsCM_bounds (layout : CMLayout) (topic : PyStr)
    (concepts : List PyStr) (hn : concepts.length ≤ 30) :
    (computeRecommendedDimensionsCM layout topic concepts).width
      = (computeRecommendedDimensionsCM layout topic concepts).baseWidth ∧
    (computeRecommendedDimensionsCM layout topic concepts).height
      = (computeRecommendedDimensionsCM layout topic concepts).baseHeight ∧
    max 600 (400 + (concepts.length : ℤ) * 10)
      ≤ (computeRecommendedDimensionsCM layout topic concepts).width ∧
    (computeRecommendedDimensionsCM layout topic concepts).width ≤ 1400 ∧
    max 500 (350 + (concepts.length : ℤ) * 8)
      ≤ (computeRecommendedDimensionsCM layout topic concepts).height ∧
    (computeRecommendedDimensionsCM layout topic concepts).height ≤ 1200 := by
  unfold computeRecommendedDimensionsCM
  split
  · refine ⟨rfl, rfl, ?_, ?_, ?_, ?_⟩ <;> simp <;> omega
  · refine ⟨rfl, rfl, ?_, ?_, ?_, ?_⟩
    · refine Int.le_floor.mpr ?_
      exact le_trans (by exact_mod_cast le_refl _) (le_max_left _ _)
    · have hx : max ((max 600 (400 + (concepts.length : ℤ) * 10) : ℤ) : ℝ)
          (min 1400 ((max 0.4 (rListMax (layout.positions.map (·.2.x))
            - rListMin (layout.positions.map (·.2.x)))) * 180
            + 2 * ((max (estimateTextBox topic true).1
                (maxListD ((concepts.map (fun c => estimateTextBox c false)).map (·.1)) 100)
                / 2 : ℤ) : ℝ) + 2 * 80)) ≤ ((1400 : ℤ) : ℝ) := by
        refine max_le ?_ (le_trans (min_le_left _ _) (by norm_num))
        have : (max 600 (400 + (concepts.length : ℤ) * 10)) ≤ 1400 := by omega
        exact_mod_cast this
      have := Int.floor_le_floor hx
      rw [Int.floor_intCast] at this
      exact this
    · refine Int.le_floor.mpr ?_
      exact le_trans (by exact_mod_cast le_refl _) (le_max_left _ _)
    · have hx : max ((max 500 (350 + (concepts.length : ℤ) * 8) : ℤ) : ℝ)
          (min 1200 ((max 0.4 (rListMax (layout.positions.map (·.2.y))
            - rListMin (layout.positions.map (·.2.y)))) * 180
            + 2 * ((max (estimateTextBox topic true).2
                (maxListD ((concepts.map (fun c => estimateTextBox c false)).map (·.2)) 40)
                / 2 : ℤ) : ℝ) + 2 * 80)) ≤ ((1200 : ℤ) : ℝ) := by
        refine max_le ?_ (le_trans (min_le_left _ _) (by norm_num))
        have : (max 500 (350 + (concepts.length : ℤ) * 8)) ≤ 1200 := by omega
        exact_mod_cast this
      have := Int.floor_le_floor hx
      rw [Int.floor_intCast] at this
      exact this

theorem foldl_min_le_init_r : ∀ (t : List ℝ) (a : ℝ), t.foldl min a ≤ a := by
  intro t
  induction t with
  | nil => intro a; exact le_refl a
  | cons b t ih => intro a; exact le_trans (ih (min a b)) (min_le_left a b)

theorem foldl_min_le_of_mem_r : ∀ (t : List ℝ) (a x : ℝ), x ∈ t → t.foldl min a ≤ x := by
  intro t
  induction t with
  | nil => intro a x h; cases h
  | cons b t ih =>
    intro a x h
    rcases List.mem_cons.mp h with hb | ht
    · rw [hb]; exact le_trans (foldl_min_le_init_r t (min a b)) (min_le_right a b)
    · exact ih (min a b) x ht

theorem rListMin_le_of_mem {l : List ℝ} {x : ℝ} (h : x ∈ l) : rListMin l ≤ x := by
  cases l with
  | nil => cases h
  | cons a t =>
    rcases List.mem_cons.mp h with h1 | h2
    · rw [h1]; exact foldl_min_le_init_r t a
    · exact foldl_min_le_of_mem_r t a x h2

theorem init_le_foldl_max_r : ∀ (t : List ℝ) (a : ℝ), a ≤ t.foldl max a := by
  intro t
  induction t with
  | nil => intro a; exact le_refl a
  | cons b t ih => intro a; exact le_trans (le_max_left a b) (ih (max a b))

theorem mem_le_foldl_max_r : ∀ (t : List ℝ) (a x : ℝ), x ∈ t → x ≤ t.foldl max a := by
  intro t
  induction t with
  | nil => intro a x h; cases h
  | cons b t ih =>
    intro a x h
    rcases List.mem_cons.mp h with hb | ht
    · rw [hb]; exact le_trans (le_max_right a b) (init_le_foldl_max_r t (max a b))
    · exact ih (max a b) x ht

theorem le_rListMax_of_mem {l : List ℝ} {x : ℝ} (h : x ∈ l) : x ≤ rListMax l := by
  cases l with
  | nil => cases h
  | cons a t =>
    rcases List.mem_cons.mp h with h1 | h2
    · rw [h1]; exact init_le_foldl_max_r t a
    · exact mem_le_foldl_max_r t a x h2

theorem calculateAdaptiveBasePadding_nonneg (cs : ℝ) (nb nc : ℕ) :
    0 ≤ calculateAdaptiveBasePadding cs nb nc := by
  unfold calculateAdaptiveBasePadding
  refine Int.le_floor.mpr ?_
  rw [Int.cast_zero]
  refine mul_nonneg (mul_nonneg ?_ ?_) ?_
  · split
    · norm_num
    · split
      · norm_num
      · split <;> norm_num
  · have hm : (0 : ℝ) ≤ min ((nb : ℝ) / 4) 1.5 := le_min (by positivity) (by norm_num)
    linarith
  · have hm : (0 : ℝ) ≤ min ((nc : ℝ) / 10) 1.3 := le_min (by positivity) (by norm_num)
    linarith

theorem ceil_fifty_lb (w0 m : ℝ) (k : ℤ) (hm : ((k : ℝ) * 50) ≤ m) :
    k * 50 ≤ ⌈(max w0 m) / 50⌉ * 50 := by
  have h1 : ((k : ℤ) : ℝ) ≤ (max w0 m) / 50 := by
    have h2 := le_trans hm (le_max_right w0 m)
    linarith
  have h3 : k ≤ ⌈(max w0 m) / 50⌉ := by
    exact_mod_cast le_trans h1 (Int.le_ceil _)
  exact mul_le_mul_of_nonneg_right h3 (by norm_num)

theorem computeRecommendedDimensionsMM_bounds (layout : MMLayout) :
    (computeRecommendedDimensionsMM layout).width
      = (computeRecommendedDimensionsMM layout).baseWidth ∧
    (computeRecommendedDimensionsMM layout).height
      = (computeRecommendedDimensionsMM layout).baseHeight ∧
    800 ≤ (computeRecommendedDimensionsMM layout).width ∧
    500 ≤ (computeRecommendedDimensionsMM layout).height := by
  unfold computeRecommendedDimensionsMM
  split
  · exact ⟨rfl, rfl, by norm_num, by norm_num⟩
  · refine ⟨rfl, rfl, ?_, ?_⟩
    · refine le_trans (by norm_num) (ceil_fifty_lb _ _ 16 ?_)
      exact le_trans (by norm_num) (le_max_left 800 _)
    · refine le_trans (by norm_num) (ceil_fifty_lb _ _ 10 ?_)
      exact le_trans (by norm_num) (le_max_left 500 _)

theorem ceil_width_chain (a w0 rw bp : ℝ) (ha : a ≤ rw) (hbp : 0 ≤ bp) :
    a ≤ ((⌈(max w0 (max 800 (rw + bp))) / 50⌉ * 50 : ℤ) : ℝ) := by
  have h1 : a ≤ max w0 (max 800 (rw + bp)) := by
    have h2 : rw + bp ≤ max 800 (rw + bp) := le_max_right 800 (rw + bp)
    have h3 : max 800 (rw + bp) ≤ max w0 (max 800 (rw + bp)) := le_max_right w0 _
    linarith
  have h4 := Int.le_ceil ((max w0 (max 800 (rw + bp))) / 50)
  push_cast
  linarith

theorem computeRecommendedDimensionsMM_width_ge (layout : MMLayout)
    (e1 e2 : PyStr × TreePos) (h1 : e1 ∈ layout.positions) (h2 : e2 ∈ layout.positions) :
    (e2.2.x + (e2.2.width : ℝ) / 2) - (e1.2.x - (e1.2.width : ℝ) / 2)
      ≤ ((computeRecommendedDimensionsMM layout).width : ℝ) := by
  have hne : layout.positions.isEmpty = false := by
    cases hp : layout.positions with
    | nil => rw [hp] at h1; cases h1
    | cons a t => rfl
  have hmax : e2.2.x + (e2.2.width : ℝ) / 2
      ≤ rListMax (layout.positions.map (fun kv => kv.2.x + (kv.2.width : ℝ) / 2)) :=
    le_rListMax_of_mem (List.mem_map_of_mem _ h2)
  have hmin : rListMin (layout.positions.map (fun kv => kv.2.x - (kv.2.width : ℝ) / 2))
      ≤ e1.2.x - (e1.2.width : ℝ) / 2 :=
    rListMin_le_of_mem (List.mem_map_of_mem _ h1)
  unfold computeRecommendedDimensionsMM
  split
  · next hemp => rw [hne] at hemp; cases hemp
  · refine ceil_width_chain _ _ _ _ ?_ ?_
    · linarith
    · exact_mod_cast calculateAdaptiveBasePadding_nonneg _ 1 1

/-- C5 (amended): for every successful `enhance_spec` call of either engine the
recommended dimensions satisfy `width = baseWidth` and `height = baseHeight`;
the graph engine clamps width into `[max 600 (400+10n), 1400]` and height into
`[max 500 (350+8n), 1200]` (n = retained concepts), while the tree engine only
enforces the content-derived minimums 800×500 (rounded up to 50 px) with no
fixed upper cap. -/
theorem c5_dims_base_and_bounds {rng rng42 : ℕ → ℝ} {specG specT : PyVal}
    {outG : CMSpecOut} {outT : MMSpecOut}
    (hg : enhanceCM rng rng42 specG = .ok outG)
    (ht : enhanceMM specT = .ok outT) :
    (outG.dims.width = outG.dims.baseWidth ∧ outG.dims.height = outG.dims.baseHeight ∧
      max 600 (400 + (outG.concepts.length : ℤ) * 10) ≤ outG.dims.width ∧
      outG.dims.width ≤ 1400 ∧
      max 500 (350 + (outG.concepts.length : ℤ) * 8) ≤ outG.dims.height ∧
      outG.dims.height ≤ 1200) ∧
    (outT.dims.width = outT.dims.baseWidth ∧ outT.dims.height = outT.dims.baseHeight ∧
      800 ≤ outT.dims.width ∧ 500 ≤ outT.dims.height) := by
  obtain ⟨_, t, cs, rs, _, _, _, _, _, _, hcon, _, hdims, _⟩ := enhanceCM_ok_inv hg
  obtain ⟨_, _, _, _, _, _, _, _, _, _, _, _, _, hdimsT⟩ := enhanceMM_ok_inv ht
  constructor
  · have hn : outG.concepts.length ≤ 30 := by
      rw [hcon]; exact normalizeSpec_concepts_le t cs rs
    rw [hdims]
    exact computeRecommendedDimensionsCM_bounds outG.layout outG.topic outG.concepts hn
  · rw [hdimsT]
    exact computeRecommendedDimensionsMM_bounds outT.layout

theorem c5_dims_base_and_bounds_witness :
    ∃ outG outT,
      enhanceCM zeroStream zeroStream
        (mkSpec [("topic", .str "T".toList), ("concepts", .list [.str "A".toList])])
          = .ok outG ∧
      enhanceMM (mkSpec [("topic", .str "T".toList),
        ("children", .list [mkSpec [("id", .str "b".toList),
          ("label", .str "B".toList)]])]) = .ok outT ∧
      ((outG.dims.width = outG.dims.baseWidth ∧ outG.dims.height = outG.dims.baseHeight ∧
        max 600 (400 + (outG.concepts.length : ℤ) * 10) ≤ outG.dims.width ∧
        outG.dims.width ≤ 1400 ∧
        max 500 (350 + (outG.concepts.length : ℤ) * 8) ≤ outG.dims.height ∧
        outG.dims.height ≤ 1200) ∧
       (outT.dims.width = outT.dims.baseWidth ∧ outT.dims.height = outT.dims.baseHeight ∧
        800 ≤ outT.dims.width ∧ 500 ≤ outT.dims.height)) := by
  refine ⟨_, _, rfl, rfl, ?_⟩
  exact c5_dims_base_and_bounds
    (show enhanceCM zeroStream zeroStream
      (mkSpec [("topic", .str "T".toList), ("concepts", .list [.str "A".toList])])
        = .ok _ from rfl)
    (show enhanceMM (mkSpec [("topic", .str "T".toList),
      ("children", .list [mkSpec [("id", .str "b".toList),
        ("label", .str "B".toList)]])]) = .ok _ from rfl)

set_option maxRecDepth 8000 in
theorem mm_wide_eval :
    (generateMindMapLayout "T".toList
        [⟨"b".toList, List.replicate 200 'm', []⟩]).positions
      = [(topicKey, TreePos.mk 0 0 37.4 70 "topic" "T".toList),
         (branchKey 0, TreePos.mk
           (((162 : ℚ) : ℝ) * Real.cos (((45 : ℤ) : ℝ) * Real.pi / 180))
           (((162 : ℚ) : ℝ) * Real.sin (((45 : ℤ) : ℝ) * Real.pi / 180))
           3005 45 "branch" (List.replicate 200 'm'))] := by
  unfold generateMindMapLayout
  norm_num +decide [mmAngles, calculateAdaptiveBranchRadius, calculateTextWidth, pyCharWidth,
    getAdaptiveFontSize, getAdaptiveNodeHeight, getAdaptivePadding,
    List.map_replicate, List.sum_replicate, nsmul_eq_mul, List.enum, List.enumFrom,
    show "T".toList = ['T'] from rfl]

set_option maxRecDepth 8000 in
/-- C5 counterexample: a tree input with one 200-character branch label
succeeds and yields a recommended width above 1400 px — the fixed upper cap
the graph engine enforces — so the tree engine's dimensions are not bounded
above by a fixed cap. -/
theorem c5_counterexample_tree_uncapped :
    ∃ out,
      enhanceMM (mkSpec [("topic", .str "T".toList),
        ("children", .list [mkSpec [("id", .str "b".toList),
          ("label", .str (List.replicate 200 'm'))]])]) = .ok out ∧
      1400 < out.dims.width := by
  refine ⟨_, rfl, ?_⟩
  show (1400 : ℤ) < (computeRecommendedDimensionsMM (generateMindMapLayout "T".toList
    [⟨"b".toList, List.replicate 200 'm', []⟩])).width
  have h1 : (topicKey, TreePos.mk 0 0 37.4 70 "topic" "T".toList)
      ∈ (generateMindMapLayout "T".toList
          [⟨"b".toList, List.replicate 200 'm', []⟩]).positions := by
    rw [mm_wide_eval]; exact List.mem_cons_self _ _
  have h2 : (branchKey 0, TreePos.mk
        (((162 : ℚ) : ℝ) * Real.cos (((45 : ℤ) : ℝ) * Real.pi / 180))
        (((162 : ℚ) : ℝ) * Real.sin (((45 : ℤ) : ℝ) * Real.pi / 180))
        3005 45 "branch" (List.replicate 200 'm'))
      ∈ (generateMindMapLayout "T".toList
          [⟨"b".toList, List.replicate 200 'm', []⟩]).positions := by
    rw [mm_wide_eval]; exact List.mem_cons_of_mem _ (List.mem_cons_self _ _)
  have hkey := computeRecommendedDimensionsMM_width_ge _ _ _ h1 h2
  dsimp only at hkey
  have hcos : 0 ≤ Real.cos (((45 : ℤ) : ℝ) * Real.pi / 180) := by
    refine Real.cos_nonneg_of_mem_Icc (Set.mem_Icc.mpr ⟨?_, ?_⟩)
    · push_cast
      linarith [Real.pi_pos]
    · push_cast
      linarith [Real.pi_pos]
  have h162 : (0 : ℝ) ≤ ((162 : ℚ) : ℝ) * Real.cos (((45 : ℤ) : ℝ) * Real.pi / 180) :=
    mul_nonneg (by norm_num) hcos
  have hc1 : ((3005 : ℚ) : ℝ) = 3005 := by norm_num
  have hc2 : ((37.4 : ℚ) : ℝ) = 37.4 := by norm_num
  rw [hc1, hc2] at hkey
  have hfin : (1400 : ℝ) < (((computeRecommendedDimensionsMM (generateMindMapLayout "T".toList
      [⟨"b".toList, List.replicate 200 'm', []⟩])).width : ℤ) : ℝ) := by
    norm_num at hkey ⊢
    linarith
  exact_mod_cast hfin

theorem mm_six_eval (topic : PyStr) (c0 c1 c2 c3 c4 c5 : MMBranch)
    (h0 : c0.children = []) (h1 : c1.children = []) (h2 : c2.children = []) (h3 : c3.children = []) (h4 : c4.children = []) (h5 : c5.children = []) :
    (generateMindMapLayout topic [c0, c1, c2, c3, c4, c5]).positions
      = [(topicKey, TreePos.mk 0 0
           (calculateTextWidth topic (getAdaptiveFontSize topic "topic"))
           ((getAdaptiveNodeHeight topic "topic" : ℕ) : ℚ) "topic" topic),
         (branchKey 0, TreePos.mk
           ((180 : ℝ) * Real.cos (((-45 : ℤ) : ℝ) * Real.pi / 180))
           ((180 : ℝ) * Real.sin (((-45 : ℤ) : ℝ) * Real.pi / 180))
           (calculateTextWidth c0.label (getAdaptiveFontSize c0.label "branch")
             + (getAdaptivePadding c0.label : ℚ))
           ((getAdaptiveNodeHeight c0.label "branch" : ℕ) : ℚ) "branch" c0.label),
         (branchKey 1, TreePos.mk
           ((180 : ℝ) * Real.cos (((0 : ℤ) : ℝ) * Real.pi / 180))
           ((180 : ℝ) * Real.sin (((0 : ℤ) : ℝ) * Real.pi / 180))
           (calculateTextWidth c1.label (getAdaptiveFontSize c1.label "branch")
             + (getAdaptivePadding c1.label : ℚ))
           ((getAdaptiveNodeHeight c1.label "branch" : ℕ) : ℚ) "branch" c1.label),
         (branchKey 2, TreePos.mk
           ((180 : ℝ) * Real.cos (((45 : ℤ) : ℝ) * Real.pi / 180))
           ((180 : ℝ) * Real.sin (((45 : ℤ) : ℝ) * Real.pi / 180))
           (calculateTextWidth c2.label (getAdaptiveFontSize c2.label "branch")
             + (getAdaptivePadding c2.label : ℚ))
           ((getAdaptiveNodeHeight c2.label "branch" : ℕ) : ℚ) "branch" c2.label),
         (branchKey 3, TreePos.mk
           ((180 : ℝ) * Real.cos (((135 : ℤ) : ℝ) * Real.pi / 180))
           ((180 : ℝ) * Real.sin (((135 : ℤ) : ℝ) * Real.pi / 180))
           (calculateTextWidth c3.label (getAdaptiveFontSize c3.label "branch")
             + (getAdaptivePadding c3.label : ℚ))
           ((getAdaptiveNodeHeight c3.label "branch" : ℕ) : ℚ) "branch" c3.label),
         (branchKey 4, TreePos.mk
           ((180 : ℝ) * Real.cos (((180 : ℤ) : ℝ) * Real.pi / 180))
           ((180 : ℝ) * Real.sin (((180 : ℤ) : ℝ) * Real.pi / 180))
           (calculateTextWidth c4.label (getAdaptiveFontSize c4.label "branch")
             + (getAdaptivePadding c4.label : ℚ))
           ((getAdaptiveNodeHeight c4.label "branch" : ℕ) : ℚ) "branch" c4.label),
         (branchKey 5, TreePos.mk
           ((180 : ℝ) * Real.cos (((225 : ℤ) : ℝ) * Real.pi / 180))
           ((180 : ℝ) * Real.sin (((225 : ℤ) : ℝ) * Real.pi / 180))
           (calculateTextWidth c5.label (getAdaptiveFontSize c5.label "branch")
             + (getAdaptivePadding c5.label : ℚ))
           ((getAdaptiveNodeHeight c5.label "branch" : ℕ) : ℚ) "branch" c5.label)] := by
  unfold generateMindMapLayout
  norm_num [show mmAngles 6 = [-45, 0, 45, 135, 180, 225] from by decide,
    h0, h1, h2, h3, h4, h5, calculateAdaptiveBranchRadius,
    List.enum, List.enumFrom, List.getD]

theorem minmax_six (a : ℝ) (ha : 0 ≤ a) :
    rListMin [-a, 0, a, a, 0, -a] + rListMax [-a, 0, a, a, 0, -a] = 0 := by
  simp only [rListMin, rListMax, List.foldl]
  rw [min_eq_left (show -a ≤ (0 : ℝ) from by linarith),
    min_eq_left (show -a ≤ a from by linarith),
    min_eq_left (show -a ≤ a from by linarith),
    min_eq_left (show -a ≤ (0 : ℝ) from by linarith),
    min_self,
    max_eq_right (show -a ≤ (0 : ℝ) from by linarith),
    max_eq_right (show (0 : ℝ) ≤ a from ha),
    max_self,
    max_eq_left (show (0 : ℝ) ≤ a from ha),
    max_eq_left (show -a ≤ a from by linarith)]
  ring

theorem angle_neg45 : ((-45 : ℤ) : ℝ) * Real.pi / 180 = -(Real.pi / 4) := by
  push_cast
  ring

theorem angle_zero : ((0 : ℤ) : ℝ) * Real.pi / 180 = 0 := by
  push_cast
  ring

theorem angle_45 : ((45 : ℤ) : ℝ) * Real.pi / 180 = Real.pi / 4 := by
  push_cast
  ring

theorem angle_135 : ((135 : ℤ) : ℝ) * Real.pi / 180 = Real.pi - Real.pi / 4 := by
  push_cast
  ring

theorem angle_180 : ((180 : ℤ) : ℝ) * Real.pi / 180 = Real.pi := by
  push_cast
  ring

theorem angle_225 : ((225 : ℤ) : ℝ) * Real.pi / 180 = Real.pi + Real.pi / 4 := by
  push_cast
  ring

/-- C8: in every successful tree-engine result with exactly six branches and
no children, branches 0, 1 and 2 sit in the right column (x > 0), branches
3, 4 and 5 sit in the left column (x < 0), and the topic's y-coordinate is
the midpoint of the least and greatest branch y-coordinates. -/
theorem c8_six_branch_balance {specT : PyVal} {out : MMSpecOut}
    (ht : enhanceMM specT = .ok out)
    (h6 : out.children.length = 6)
    (hnc : ∀ b ∈ out.children, b.children = []) :
    ∃ tp p0 p1 p2 p3 p4 p5,
      out.layout.positions
        = [(topicKey, tp), (branchKey 0, p0), (branchKey 1, p1), (branchKey 2, p2),
           (branchKey 3, p3), (branchKey 4, p4), (branchKey 5, p5)] ∧
      0 < p0.x ∧ 0 < p1.x ∧ 0 < p2.x ∧ p3.x < 0 ∧ p4.x < 0 ∧ p5.x < 0 ∧
      rListMin [p0.y, p1.y, p2.y, p3.y, p4.y, p5.y]
          + rListMax [p0.y, p1.y, p2.y, p3.y, p4.y, p5.y] = 2 * tp.y := by
  obtain ⟨_, t, cs, res, _, _, _, _, _, _, _, hch, hlay, _⟩ := enhanceMM_ok_inv ht
  have hex : ∃ a0 a1 a2 a3 a4 a5, out.children = [a0, a1, a2, a3, a4, a5] := by
    cases hc : out.children with
    | nil => rw [hc] at h6; simp at h6
    | cons a0 t0 =>
      cases t0 with
      | nil => rw [hc] at h6; simp at h6
      | cons a1 t1 =>
        cases t1 with
        | nil => rw [hc] at h6; simp at h6
        | cons a2 t2 =>
          cases t2 with
          | nil => rw [hc] at h6; simp at h6
          | cons a3 t3 =>
            cases t3 with
            | nil => rw [hc] at h6; simp at h6
            | cons a4 t4 =>
              cases t4 with
              | nil => rw [hc] at h6; simp at h6
              | cons a5 t5 =>
                cases t5 with
                | nil => exact ⟨a0, a1, a2, a3, a4, a5, rfl⟩
                | cons a6 t6 => rw [hc] at h6; simp at h6
  obtain ⟨c0, c1, c2, c3, c4, c5, hcs⟩ := hex
  have hb0 : c0.children = [] := hnc c0 (by rw [hcs]; simp)
  have hb1 : c1.children = [] := hnc c1 (by rw [hcs]; simp)
  have hb2 : c2.children = [] := hnc c2 (by rw [hcs]; simp)
  have hb3 : c3.children = [] := hnc c3 (by rw [hcs]; simp)
  have hb4 : c4.children = [] := hnc c4 (by rw [hcs]; simp)
  have hb5 : c5.children = [] := hnc c5 (by rw [hcs]; simp)
  have hres : res.1 = [c0, c1, c2, c3, c4, c5] := by rw [← hch]; exact hcs
  have hpose := mm_six_eval (pyStrip t) c0 c1 c2 c3 c4 c5 hb0 hb1 hb2 hb3 hb4 hb5
  rw [← hres, ← hlay] at hpose
  have hs2 : 0 < Real.sqrt 2 := Real.sqrt_pos.mpr (by norm_num)
  refine ⟨_, _, _, _, _, _, _, hpose, ?_, ?_, ?_, ?_, ?_, ?_, ?_⟩
  · show 0 < (180 : ℝ) * Real.cos (((-45 : ℤ) : ℝ) * Real.pi / 180)
    rw [angle_neg45, Real.cos_neg, Real.cos_pi_div_four]
    nlinarith
  · show 0 < (180 : ℝ) * Real.cos (((0 : ℤ) : ℝ) * Real.pi / 180)
    rw [angle_zero, Real.cos_zero]
    norm_num
  · show 0 < (180 : ℝ) * Real.cos (((45 : ℤ) : ℝ) * Real.pi / 180)
    rw [angle_45, Real.cos_pi_div_four]
    nlinarith
  · show (180 : ℝ) * Real.cos (((135 : ℤ) : ℝ) * Real.pi / 180) < 0
    rw [angle_135, Real.cos_pi_sub, Real.cos_pi_div_four]
    nlinarith
  · show (180 : ℝ) * Real.cos (((180 : ℤ) : ℝ) * Real.pi / 180) < 0
    rw [angle_180, Real.cos_pi]
    norm_num
  · show (180 : ℝ) * Real.cos (((225 : ℤ) : ℝ) * Real.pi / 180) < 0
    rw [angle_225, Real.cos_add, Real.cos_pi, Real.sin_pi, Real.cos_pi_div_four,
      Real.sin_pi_div_four]
    nlinarith
  · show rListMin [(180 : ℝ) * Real.sin (((-45 : ℤ) : ℝ) * Real.pi / 180),
        (180 : ℝ) * Real.sin (((0 : ℤ) : ℝ) * Real.pi / 180),
        (180 : ℝ) * Real.sin (((45 : ℤ) : ℝ) * Real.pi / 180),
        (180 : ℝ) * Real.sin (((135 : ℤ) : ℝ) * Real.pi / 180),
        (180 : ℝ) * Real.sin (((180 : ℤ) : ℝ) * Real.pi / 180),
        (180 : ℝ) * Real.sin (((225 : ℤ) : ℝ) * Real.pi / 180)]
      + rListMax [(180 : ℝ) * Real.sin (((-45 : ℤ) : ℝ) * Real.pi / 180),
        (180 : ℝ) * Real.sin (((0 : ℤ) : ℝ) * Real.pi / 180),
        (180 : ℝ) * Real.sin (((45 : ℤ) : ℝ) * Real.pi / 180),
        (180 : ℝ) * Real.sin (((135 : ℤ) : ℝ) * Real.pi / 180),
        (180 : ℝ) * Real.sin (((180 : ℤ) : ℝ) * Real.pi / 180),
        (180 : ℝ) * Real.sin (((225 : ℤ) : ℝ) * Real.pi / 180)] = 2 * (0 : ℝ)
    rw [angle_neg45, angle_zero, angle_45, angle_135, angle_180, angle_225,
      Real.sin_neg, Real.sin_zero, Real.sin_pi_sub, Real.sin_add, Real.sin_pi,
      Real.cos_pi, Real.sin_pi_div_four]
    rw [show (180 : ℝ) * -(Real.sqrt 2 / 2) = -(90 * Real.sqrt 2) from by ring,
      show (180 : ℝ) * (0 : ℝ) = (0 : ℝ) from by ring,
      show (180 : ℝ) * (Real.sqrt 2 / 2) = 90 * Real.sqrt 2 from by ring,
      show (180 : ℝ) * (0 * Real.cos (Real.pi / 4) + -1 * (Real.sqrt 2 / 2))
          = -(90 * Real.sqrt 2) from by ring]
    rw [minmax_six (90 * Real.sqrt 2) (by positivity)]
    norm_num

/-- Witness for C8 at a concrete six-branch input. -/
theorem c8_six_branch_balance_witness :
    ∃ out,
      enhanceMM (mkSpec [("topic", .str "T".toList),
        ("children", .list [
          mkSpec [("id", .str "b1".toList), ("label", .str "B1".toList)],
          mkSpec [("id", .str "b2".toList), ("label", .str "B2".toList)],
          mkSpec [("id", .str "b3".toList), ("label", .str "B3".toList)],
          mkSpec [("id", .str "b4".toList), ("label", .str "B4".toList)],
          mkSpec [("id", .str "b5".toList), ("label", .str "B5".toList)],
          mkSpec [("id", .str "b6".toList), ("label", .str "B6".toList)]])])
        = .ok out ∧
      out.children.length = 6 ∧ (∀ b ∈ out.children, b.children = []) ∧
      (∃ tp p0 p1 p2 p3 p4 p5,
        out.layout.positions
          = [(topicKey, tp), (branchKey 0, p0), (branchKey 1, p1), (branchKey 2, p2),
             (branchKey 3, p3), (branchKey 4, p4), (branchKey 5, p5)] ∧
        0 < p0.x ∧ 0 < p1.x ∧ 0 < p2.x ∧ p3.x < 0 ∧ p4.x < 0 ∧ p5.x < 0 ∧
        rListMin [p0.y, p1.y, p2.y, p3.y, p4.y, p5.y]
            + rListMax [p0.y, p1.y, p2.y, p3.y, p4.y, p5.y] = 2 * tp.y) := by
  refine ⟨_, rfl, by decide, by decide, ?_⟩
  exact c8_six_branch_balance
    (show enhanceMM (mkSpec [("topic", .str "T".toList),
        ("children", .list [
          mkSpec [("id", .str "b1".toList), ("label", .str "B1".toList)],
          mkSpec [("id", .str "b2".toList), ("label", .str "B2".toList)],
          mkSpec [("id", .str "b3".toList), ("label", .str "B3".toList)],
          mkSpec [("id", .str "b4".toList), ("label", .str "B4".toList)],
          mkSpec [("id", .str "b5".toList), ("label", .str "B5".toList)],
          mkSpec [("id", .str "b6".toList), ("label", .str "B6".toList)]])])
      = .ok _ from rfl) (by decide) (by decide)

theorem radial_four_eval (rng : ℕ → ℝ) :
    (radialLayout rng "T".toList
        ["A".toList, "B".toList, "C".toList, "D".toList] []).positions
      = [("T".toList, GPos.mk 0 0),
         ("A".toList, GPos.mk (1.8 * Real.cos (rng 0)) (1.8 * Real.sin (rng 0))),
         ("B".toList, GPos.mk (1.8 * Real.cos (Real.pi + rng 1))
            (1.8 * Real.sin (Real.pi + rng 1))),
         ("C".toList, GPos.mk (3 * Real.cos (rng 2)) (3 * Real.sin (rng 2))),
         ("D".toList, GPos.mk (3 * Real.cos (Real.pi + rng 3))
            (3 * Real.sin (Real.pi + rng 3)))] := by
  unfold radialLayout
  norm_num +decide [groupInsOrder, List.enum, List.enumFrom, min_def]

/-- C9 (amended): the seeded randomness claim holds only for the sector
strategies: when the input spec carries a `keys` list, the result of
`ConceptMapAgent.enhance_spec` does not depend on the unseeded global
generator at all (only on the `random.seed(42)` stream), so repeated calls
agree.  The radial jitter, by contrast, reads the unseeded generator. -/
theorem c9_sector_rng_independent (rng rng' rng42 : ℕ → ℝ) (spec : PyVal)
    (ks : List PyVal) (hk : pyGet spec "keys".toList = .list ks) :
    enhanceCM rng rng42 spec = enhanceCM rng' rng42 spec := by
  cases spec with
  | dict kvs =>
    unfold enhanceCM
    dsimp only
    rw [hk]
  | none => rfl
  | bool b => rfl
  | int n => rfl
  | str s => rfl
  | list xs => rfl

/-- Witness for the amended C9 theorem at a concrete keys-carrying spec and
two distinct unseeded streams. -/
theorem c9_sector_rng_independent_witness :
    enhanceCM zeroStream zeroStream (mkSpec [("topic", .str "T".toList),
        ("concepts", .list []), ("keys", .list [.str "K".toList])])
      = enhanceCM piStream zeroStream (mkSpec [("topic", .str "T".toList),
        ("concepts", .list []), ("keys", .list [.str "K".toList])]) :=
  c9_sector_rng_independent zeroStream piStream zeroStream _ [.str "K".toList] rfl

/-- C9 counterexample: the radial (`_method == 'enhanced_30'`) strategy is
not deterministic across global-generator states: with four concepts the
first ring holds two nodes, jitter is drawn from the unseeded generator,
and the all-zero and all-π streams give different position maps for the
identical input spec. -/
theorem c9_counterexample_radial_jitter :
    ∃ out1 out2,
      enhanceCM zeroStream zeroStream (mkSpec
        [("topic", .str "T".toList),
         ("concepts", .list [.str "A".toList, .str "B".toList,
            .str "C".toList, .str "D".toList]),
         ("_method", .str "enhanced_30".toList)]) = .ok out1 ∧
      enhanceCM piStream zeroStream (mkSpec
        [("topic", .str "T".toList),
         ("concepts", .list [.str "A".toList, .str "B".toList,
            .str "C".toList, .str "D".toList]),
         ("_method", .str "enhanced_30".toList)]) = .ok out2 ∧
      out1.layout.positions ≠ out2.layout.positions := by
  refine ⟨_, _, rfl, rfl, ?_⟩
  have h1 : (normalizeSpec "T".toList [PyVal.str "A".toList, PyVal.str "B".toList,
      PyVal.str "C".toList, PyVal.str "D".toList] []).topic = "T".toList := by decide
  have h2 : (normalizeSpec "T".toList [PyVal.str "A".toList, PyVal.str "B".toList,
      PyVal.str "C".toList, PyVal.str "D".toList] []).concepts
      = ["A".toList, "B".toList, "C".toList, "D".toList] := by decide
  have h3 : (normalizeSpec "T".toList [PyVal.str "A".toList, PyVal.str "B".toList,
      PyVal.str "C".toList, PyVal.str "D".toList] []).rels = [] := by decide
  show ¬ ((radialLayout zeroStream
      (normalizeSpec "T".toList [PyVal.str "A".toList, PyVal.str "B".toList,
        PyVal.str "C".toList, PyVal.str "D".toList] []).topic
      (normalizeSpec "T".toList [PyVal.str "A".toList, PyVal.str "B".toList,
        PyVal.str "C".toList, PyVal.str "D".toList] []).concepts
      (normalizeSpec "T".toList [PyVal.str "A".toList, PyVal.str "B".toList,
        PyVal.str "C".toList, PyVal.str "D".toList] []).rels).positions
    = (radialLayout piStream
      (normalizeSpec "T".toList [PyVal.str "A".toList, PyVal.str "B".toList,
        PyVal.str "C".toList, PyVal.str "D".toList] []).topic
      (normalizeSpec "T".toList [PyVal.str "A".toList, PyVal.str "B".toList,
        PyVal.str "C".toList, PyVal.str "D".toList] []).concepts
      (normalizeSpec "T".toList [PyVal.str "A".toList, PyVal.str "B".toList,
        PyVal.str "C".toList, PyVal.str "D".toList] []).rels).positions)
  rw [h1, h2, h3, radial_four_eval zeroStream, radial_four_eval piStream]
  simp only [zeroStream, piStream]
  intro h
  have hAx := congrArg (fun l => (l.getD 1 (([] : PyStr), GPos.mk 0 0)).2.x) h
  simp only [List.getD, List.get?, Option.getD] at hAx
  rw [Real.cos_zero, Real.cos_pi] at hAx
  norm_num at hAx

theorem wordsAcc_mem (s : PyStr) : ∀ (cur : PyStr), (∀ c ∈ cur, pyIsSpace c = false) →
    ∀ w ∈ wordsAcc cur s, w ≠ [] ∧ ∀ c ∈ w, pyIsSpace c = false := by
  induction s with
  | nil =>
    intro cur hcur w hw
    unfold wordsAcc at hw
    split at hw
    · cases hw
    · next hne =>
      rw [List.mem_singleton] at hw
      subst hw
      refine ⟨fun he => hne (by simpa using congrArg List.reverse he), ?_⟩
      intro c hc
      exact hcur c (List.mem_reverse.mp hc)
  | cons a t ih =>
    intro cur hcur w hw
    unfold wordsAcc at hw
    split at hw
    · split at hw
      · exact ih [] (fun c hc => absurd hc (List.not_mem_nil c)) w hw
      · next hne =>
        rcases List.mem_cons.mp hw with h1 | h2
        · subst h1
          refine ⟨fun he => hne (by simpa using congrArg List.reverse he), ?_⟩
          intro c hc
          exact hcur c (List.mem_reverse.mp hc)
        · exact ih [] (fun c hc => absurd hc (List.not_mem_nil c)) w h2
    · next hnsp =>
      refine ih (a :: cur) ?_ w hw
      intro c hc
      rcases List.mem_cons.mp hc with h1 | h2
      · subst h1
        exact Bool.not_eq_true _ ▸ (by simpa using hnsp)
      · exact hcur c h2

theorem wordsAcc_append_word (w : PyStr) (hw : ∀ c ∈ w, pyIsSpace c = false) :
    ∀ (cur rest : PyStr), wordsAcc cur (w ++ rest) = wordsAcc (w.reverse ++ cur) rest := by
  induction w with
  | nil => intro cur rest; simp
  | cons a t ih =>
    intro cur rest
    have ha : pyIsSpace a = false := hw a (List.mem_cons_self a t)
    have hstep : wordsAcc cur (a :: (t ++ rest)) = wordsAcc (a :: cur) (t ++ rest) := by
      simp only [wordsAcc, ha]
      rw [if_neg (by simp)]
    show wordsAcc cur (a :: (t ++ rest)) = _
    rw [hstep, ih (fun c hc => hw c (List.mem_cons_of_mem a hc)) (a :: cur) rest]
    simp [List.append_assoc]

theorem wordsAcc_space_cons (cur rest : PyStr) (hne : cur ≠ []) :
    wordsAcc cur (' ' :: rest) = cur.reverse :: wordsAcc [] rest := by
  unfold wordsAcc
  rw [if_pos (by decide), if_neg hne]
  cases rest with
  | nil => rfl
  | cons c cs => rfl

theorem intercalate_cons_cons (s a b : PyStr) (l : List PyStr) :
    List.intercalate s (a :: b :: l) = a ++ s ++ List.intercalate s (b :: l) := by
  simp [List.intercalate, List.intersperse]

theorem intercalate_one (w : PyStr) : List.intercalate [' '] [w] = w := by
  simp [List.intercalate, List.intersperse]

theorem words_intercalate : ∀ (ws : List PyStr),
    (∀ w ∈ ws, w ≠ [] ∧ ∀ c ∈ w, pyIsSpace c = false) →
    pyWords (List.intercalate [' '] ws) = ws := by
  intro ws
  induction ws with
  | nil => intro _; rfl
  | cons w vs ih =>
    intro h
    have hw := h w (List.mem_cons_self w vs)
    cases vs with
    | nil =>
      show wordsAcc [] (List.intercalate [' '] [w]) = [w]
      rw [intercalate_one]
      rw [show wordsAcc [] w = wordsAcc [] (w ++ []) from by rw [List.append_nil]]
      rw [wordsAcc_append_word w hw.2 [] []]
      unfold wordsAcc
      rw [List.append_nil, if_neg (by simp [hw.1])]
      simp
    | cons v vs =>
      have hih := ih (fun x hx => h x (List.mem_cons_of_mem w hx))
      unfold pyWords at hih ⊢
      rw [intercalate_cons_cons, List.append_assoc]
      rw [wordsAcc_append_word w hw.2 [] _]
      rw [List.append_nil]
      show wordsAcc w.reverse (' ' :: List.intercalate [' '] (v :: vs)) = _
      rw [wordsAcc_space_cons _ _ (by simp [hw.1])]
      rw [List.reverse_reverse, hih]

theorem dropWhile_nonspace_eq {l : List Char} (h : ∀ c ∈ l, pyIsSpace c = false) :
    List.dropWhile pyIsSpace l = l := by
  cases l with
  | nil => rfl
  | cons a t =>
    rw [List.dropWhile_cons]
    simp [h a (List.mem_cons_self a t)]

theorem rstrip_of_nonspace {s : PyStr} (h : ∀ c ∈ s, pyIsSpace c = false) : pyRstrip s = s := by
  unfold pyRstrip
  rw [dropWhile_nonspace_eq (fun c hc => h c (List.mem_reverse.mp hc)), List.reverse_reverse]

theorem rstrip_eq_nil_allspace {s : PyStr} (h : pyRstrip s = []) :
    ∀ c ∈ s, pyIsSpace c = true := by
  unfold pyRstrip at h
  have h2 : s.reverse.dropWhile pyIsSpace = [] := by
    have := congrArg List.reverse h
    simpa using this
  intro c hc
  exact List.dropWhile_eq_nil_iff.mp h2 c (List.mem_reverse.mpr hc)

theorem rstrip_append_spaces {sp : PyStr} (h : ∀ c ∈ sp, pyIsSpace c = true) (a : PyStr) :
    pyRstrip (a ++ sp) = pyRstrip a := by
  unfold pyRstrip
  rw [List.reverse_append, List.dropWhile_append]
  have h1 : sp.reverse.dropWhile pyIsSpace = [] :=
    List.dropWhile_eq_nil_iff.mpr (fun x hx => h x (List.mem_reverse.mp hx))
  rw [h1]
  simp

theorem rstrip_append_keep {b : PyStr} (h : pyRstrip b ≠ []) (a : PyStr) :
    pyRstrip (a ++ b) = a ++ pyRstrip b := by
  unfold pyRstrip at h ⊢
  rw [List.reverse_append, List.dropWhile_append]
  have h2 : ¬ (b.reverse.dropWhile pyIsSpace).isEmpty = true := by
    intro hh
    exact h (by rw [List.isEmpty_iff.mp hh]; rfl)
  rw [if_neg h2]
  simp

theorem length_dropWhile_le_sp : ∀ (l : List Char),
    (List.dropWhile pyIsSpace l).length ≤ l.length := by
  intro l
  induction l with
  | nil => simp
  | cons a t ih =>
    rw [List.dropWhile_cons]
    split
    · exact le_trans ih (Nat.le_succ _)
    · exact le_refl _

theorem length_rstrip_le (s : PyStr) : (pyRstrip s).length ≤ s.length := by
  unfold pyRstrip
  rw [List.length_reverse]
  have := length_dropWhile_le_sp s.reverse
  rw [List.length_reverse] at this
  exact this

theorem goodStr_append_char {c : Char} (hc : pyIsSpace c = false) :
    ∀ (ws : List PyStr), GoodWords ws →
    ∃ ws2, GoodWords ws2 ∧
      List.intercalate [' '] ws ++ [c] = List.intercalate [' '] ws2 := by
  intro ws
  induction ws with
  | nil =>
    intro _
    refine ⟨[[c]], ?_, by rw [intercalate_one]; rfl⟩
    intro w hw
    rw [List.mem_singleton] at hw
    subst hw
    exact ⟨by simp, fun x hx => by rw [List.mem_singleton] at hx; subst hx; exact hc⟩
  | cons w vs ih =>
    intro h
    have hw := h w (List.mem_cons_self w vs)
    cases vs with
    | nil =>
      refine ⟨[w ++ [c]], ?_, by rw [intercalate_one, intercalate_one]⟩
      intro x hx
      rw [List.mem_singleton] at hx
      subst hx
      refine ⟨by simp, fun y hy => ?_⟩
      rcases List.mem_append.mp hy with h1 | h2
      · exact hw.2 y h1
      · rw [List.mem_singleton] at h2; subst h2; exact hc
    | cons v vs' =>
      obtain ⟨ws2', hg2, heq⟩ := ih (fun x hx => h x (List.mem_cons_of_mem w hx))
      have hne2 : ws2' ≠ [] := by
        intro hnil
        rw [hnil] at heq
        have : List.intercalate [' '] (v :: vs') ++ [c] = [] := by
          rw [heq]; rfl
        simp at this
      cases ws2' with
      | nil => exact absurd rfl hne2
      | cons w2 t2 =>
        refine ⟨w :: w2 :: t2, ?_, ?_⟩
        · intro x hx
          rcases List.mem_cons.mp hx with h1 | h2
          · subst h1; exact hw
          · exact hg2 x h2
        · rw [intercalate_cons_cons, intercalate_cons_cons, List.append_assoc,
            List.append_assoc, ← heq]
          simp

theorem rstrip_allspace {s : PyStr} (h : ∀ c ∈ s, pyIsSpace c = true) : pyRstrip s = [] := by
  unfold pyRstrip
  rw [List.dropWhile_eq_nil_iff.mpr (fun x hx => h x (List.mem_reverse.mp hx))]
  rfl

theorem rstrip_take_good : ∀ (ws : List PyStr), GoodWords ws →
    ∀ k, GoodStr (pyRstrip ((List.intercalate [' '] ws).take k)) := by
  intro ws
  induction ws with
  | nil =>
    intro _ k
    exact ⟨[], fun w hw => absurd hw (List.not_mem_nil w),
      by simp [pyRstrip, List.intercalate]⟩
  | cons w vs ih =>
    intro h k
    have hw := h w (List.mem_cons_self w vs)
    have htake_ns : ∀ c ∈ w.take k, pyIsSpace c = false :=
      fun c hc => hw.2 c (List.take_subset k w hc)
    have hsingle : GoodStr (pyRstrip (w.take k)) := by
      rw [rstrip_of_nonspace htake_ns]
      by_cases hnil : w.take k = []
      · exact ⟨[], fun x hx => absurd hx (List.not_mem_nil x), by rw [hnil]; rfl⟩
      · refine ⟨[w.take k], ?_, (intercalate_one _).symm⟩
        intro x hx
        rw [List.mem_singleton] at hx
        subst hx
        exact ⟨hnil, htake_ns⟩
    cases vs with
    | nil =>
      rw [intercalate_one]
      exact hsingle
    | cons v vs' =>
      rw [intercalate_cons_cons, List.append_assoc]
      rw [List.take_append_eq_append_take]
      rcases le_or_lt k w.length with hk | hk
      · rw [Nat.sub_eq_zero_of_le hk]
        rw [List.take_zero, List.append_nil]
        exact hsingle
      · rw [List.take_of_length_le (Nat.le_of_lt hk)]
        obtain ⟨j, hj⟩ : ∃ j, k - w.length = j + 1 :=
          ⟨k - w.length - 1, by omega⟩
        rw [hj]
        have hstep : ([' '] ++ List.intercalate [' '] (v :: vs')).take (j + 1)
            = ' ' :: (List.intercalate [' '] (v :: vs')).take j := rfl
        rw [hstep]
        have hihj := ih (fun x hx => h x (List.mem_cons_of_mem w hx)) j
        by_cases hnil : pyRstrip ((List.intercalate [' '] (v :: vs')).take j) = []
        · have hall : ∀ c ∈ ' ' :: (List.intercalate [' '] (v :: vs')).take j,
              pyIsSpace c = true := by
            intro c hc
            rcases List.mem_cons.mp hc with h1 | h2
            · subst h1; decide
            · exact rstrip_eq_nil_allspace hnil c h2
          rw [rstrip_append_spaces hall w, rstrip_of_nonspace hw.2]
          refine ⟨[w], ?_, (intercalate_one _).symm⟩
          intro x hx
          rw [List.mem_singleton] at hx
          subst hx
          exact hw
        · have hb : pyRstrip (' ' :: (List.intercalate [' '] (v :: vs')).take j) ≠ [] := by
            intro hh
            exact hnil (rstrip_allspace (fun c hc =>
              rstrip_eq_nil_allspace hh c (List.mem_cons_of_mem ' ' hc)))
          rw [rstrip_append_keep hb w]
          have hsp : pyRstrip (' ' :: (List.intercalate [' '] (v :: vs')).take j)
              = ' ' :: pyRstrip ((List.intercalate [' '] (v :: vs')).take j) := by
            have := rstrip_append_keep hnil [' ']
            simpa using this
          rw [hsp]
          obtain ⟨ws2', hg2, heq⟩ := hihj
          have hne2 : ws2' ≠ [] := by
            intro hnil2
            rw [hnil2] at heq
            exact hnil (by rw [heq]; rfl)
          cases ws2' with
          | nil => exact absurd rfl hne2
          | cons w2 t2 =>
            refine ⟨w :: w2 :: t2, ?_, ?_⟩
            · intro x hx
              rcases List.mem_cons.mp hx with h1 | h2
              · subst h1; exact hw
              · exact hg2 x h2
            · rw [intercalate_cons_cons, List.append_assoc, ← heq]
              simp

theorem goodStr_append_one {s : PyStr} (hg : GoodStr s) {c : Char}
    (hc : pyIsSpace c = false) : GoodStr (s ++ [c]) := by
  obtain ⟨ws, hgw, rfl⟩ := hg
  obtain ⟨ws2, hg2, heq⟩ := goodStr_append_char hc ws hgw
  exact ⟨ws2, hg2, heq⟩

theorem cleanText_goodStr (t : PyStr) : GoodStr (cleanText 60 t) := by
  have hgw : GoodWords (pyWords t) :=
    fun w hw => wordsAcc_mem t [] (fun c hc => absurd hc (List.not_mem_nil c)) w hw
  unfold cleanText
  dsimp only
  split
  · exact goodStr_append_one (rstrip_take_good (pyWords t) hgw (60 - 1)) (by decide)
  · exact ⟨pyWords t, hgw, rfl⟩

theorem cleanText_len_le (t : PyStr) : (cleanText 60 t).length ≤ 60 := by
  unfold cleanText
  dsimp only
  split
  · rw [List.length_append]
    have h1 := length_rstrip_le ((List.intercalate [' '] (pyWords t)).take (60 - 1))
    have h2 := List.length_take_le (60 - 1) (List.intercalate [' '] (pyWords t))
    simp only [List.length_singleton]
    omega
  · next h =>
    omega

theorem cleanText_fix {s : PyStr} (hg : GoodStr s) (hl : s.length ≤ 60) :
    cleanText 60 s = s := by
  obtain ⟨ws, hgw, rfl⟩ := hg
  unfold cleanText
  dsimp only
  rw [words_intercalate ws hgw]
  rw [if_neg (by omega)]

theorem cleanText_60_idem (t : PyStr) : cleanText 60 (cleanText 60 t) = cleanText 60 t :=
  cleanText_fix (cleanText_goodStr t) (cleanText_len_le t)

theorem cleanTextPy_idem (v : PyVal) :
    cleanText 60 (cleanTextPy 60 v) = cleanTextPy 60 v := by
  cases v with
  | str s => exact cleanText_60_idem s
  | none => rfl
  | bool b => rfl
  | int n => rfl
  | list xs => rfl
  | dict kvs => rfl

theorem conceptLoop_shape_inv (topic : PyStr) : ∀ (cs : List PyVal) (acc : ConceptAcc),
    acc.canonToDisplay = acc.concepts.map (fun c => (canonical c, c)) →
    (∀ c ∈ acc.concepts, cleanText 60 c = c ∧ c ≠ []) →
    ((conceptLoop topic cs acc).canonToDisplay
        = (conceptLoop topic cs acc).concepts.map (fun c => (canonical c, c))) ∧
    ∀ c ∈ (conceptLoop topic cs acc).concepts, cleanText 60 c = c ∧ c ≠ [] := by
  intro cs
  induction cs with
  | nil => intro acc h1 h2; exact ⟨h1, h2⟩
  | cons c cs ih =>
    intro acc h1 h2
    cases c with
    | str raw =>
      simp only [conceptLoop]
      have key : ∀ acc2 : ConceptAcc,
          acc2.canonToDisplay = acc2.concepts.map (fun c => (canonical c, c)) →
          (∀ c ∈ acc2.concepts, cleanText 60 c = c ∧ c ≠ []) →
          (((if acc2.concepts.length ≥ 30 then acc2
              else conceptLoop topic cs acc2).canonToDisplay
              = (if acc2.concepts.length ≥ 30 then acc2
                  else conceptLoop topic cs acc2).concepts.map (fun c => (canonical c, c))) ∧
            ∀ c ∈ (if acc2.concepts.length ≥ 30 then acc2
                else conceptLoop topic cs acc2).concepts, cleanText 60 c = c ∧ c ≠ []) := by
        intro acc2 g1 g2
        split
        · exact ⟨g1, g2⟩
        · exact ih acc2 g1 g2
      apply key
      · split
        · next hg =>
          simp only [List.map_append, List.map_cons, List.map_nil, h1]
        · exact h1
      · split
        · next hg =>
          intro x hx
          rcases List.mem_append.mp hx with hm | hm
          · exact h2 x hm
          · rw [List.mem_singleton] at hm
            subst hm
            exact ⟨cleanText_60_idem raw, hg.1⟩
        · exact h2
    | none => exact ih acc h1 h2
    | bool b => exact ih acc h1 h2
    | int n => exact ih acc h1 h2
    | list xs => exact ih acc h1 h2
    | dict kvs => exact ih acc h1 h2

theorem findDisplayFor_clean {relsRaw : List PyVal} {mc d : PyStr}
    (h : findDisplayFor relsRaw mc = some d) : cleanText 60 d = d := by
  induction relsRaw with
  | nil => cases h
  | cons r rs ih =>
    unfold findDisplayFor at h
    rw [List.findSome?_cons] at h
    revert h
    cases r with
    | dict kvs =>
      dsimp only
      by_cases h1 : canonical (cleanTextPy 60 ((dictGet kvs "from".toList).getD (.str []))) = mc
      · rw [if_pos h1]
        intro h
        cases h
        exact cleanTextPy_idem _
      · rw [if_neg h1]
        by_cases h2 : canonical (cleanTextPy 60 ((dictGet kvs "to".toList).getD (.str []))) = mc
        · rw [if_pos h2]
          intro h
          cases h
          exact cleanTextPy_idem _
        · rw [if_neg h2]
          intro h
          exact ih h
    | none => intro h; exact ih h
    | bool b => intro h; exact ih h
    | int n => intro h; exact ih h
    | str s => intro h; exact ih h
    | list xs => intro h; exact ih h

theorem promoteLoop_shape_inv (relsRaw : List PyVal) :
    ∀ (ms : List PyStr) (acc : ConceptAcc),
      acc.canonToDisplay = acc.concepts.map (fun c => (canonical c, c)) →
      (∀ c ∈ acc.concepts, cleanText 60 c = c ∧ c ≠ []) →
      ((promoteLoop relsRaw ms acc).canonToDisplay
          = (promoteLoop relsRaw ms acc).concepts.map (fun c => (canonical c, c))) ∧
      ∀ c ∈ (promoteLoop relsRaw ms acc).concepts, cleanText 60 c = c ∧ c ≠ [] := by
  intro ms
  induction ms with
  | nil => intro acc h1 h2; exact ⟨h1, h2⟩
  | cons mc ms ih =>
    intro acc h1 h2
    simp only [promoteLoop]
    apply ih
    · split
      · next hg =>
        cases hd : findDisplayFor relsRaw mc with
        | none => exact h1
        | some d =>
          dsimp only
          split
          · simp only [List.map_append, List.map_cons, List.map_nil, h1,
              findDisplayFor_canonical hd]
          · exact h1
      · exact h1
    · split
      · next hg =>
        cases hd : findDisplayFor relsRaw mc with
        | none => exact h2
        | some d =>
          dsimp only
          split
          · next hne =>
            intro x hx
            rcases List.mem_append.mp hx with hm | hm
            · exact h2 x hm
            · rw [List.mem_singleton] at hm
              subst hm
              exact ⟨findDisplayFor_clean hd, hne⟩
          · exact h2
      · exact h2

theorem promoteLoop_seen_kept (relsRaw : List PyVal) {x : PyStr} :
    ∀ (ms : List PyStr) (acc : ConceptAcc),
      x ∉ acc.seen → (∀ mc ∈ ms, mc ≠ x) →
      x ∉ (promoteLoop relsRaw ms acc).seen := by
  intro ms
  induction ms with
  | nil => intro acc h1 _; exact h1
  | cons mc ms ih =>
    intro acc h1 hms
    simp only [promoteLoop]
    apply ih
    · split
      · next hg =>
        cases hd : findDisplayFor relsRaw mc with
        | none => exact h1
        | some d =>
          dsimp only
          split
          · intro hmem
            rcases List.mem_append.mp hmem with hm | hm
            · exact h1 hm
            · rw [List.mem_singleton] at hm
              exact hms mc (List.mem_cons_self mc ms) hm.symm
          · exact h1
      · exact h1
    · exact fun y hy => hms y (List.mem_cons_of_mem mc hy)

theorem promoteLoop_concepts_sup (relsRaw : List PyVal) {x : PyStr} :
    ∀ (ms : List PyStr) (acc : ConceptAcc),
      x ∈ acc.concepts → x ∈ (promoteLoop relsRaw ms acc).concepts := by
  intro ms
  induction ms with
  | nil => intro acc h1; exact h1
  | cons mc ms ih =>
    intro acc h1
    simp only [promoteLoop]
    apply ih
    split
    · next hg =>
      cases hd : findDisplayFor relsRaw mc with
      | none => exact h1
      | some d =>
        dsimp only
        split
        · exact List.mem_append.mpr (Or.inl h1)
        · exact h1
    · exact h1

theorem assocGet_map_mem {concs : List PyStr} {k d : PyStr}
    (h : assocGet (concs.map (fun c => (canonical c, c))) k = some d) :
    d ∈ concs ∧ canonical d = k := by
  unfold assocGet at h
  rcases Option.map_eq_some'.mp h with ⟨kv, hfind, hkv⟩
  have hmem := List.mem_of_find?_eq_some hfind
  have hpred := List.find?_some hfind
  rcases List.mem_map.mp hmem with ⟨c, hc, hceq⟩
  rw [← hceq] at hpred hkv
  have hk : canonical c = k := by
    have hb : (canonical c == k) = true := hpred
    exact eq_of_beq hb
  rw [← hkv]
  exact ⟨hc, hk⟩

theorem assocGet_map_none2 {concs : List PyStr} {k : PyStr}
    (h : assocGet (concs.map (fun c => (canonical c, c))) k = none) :
    k ∉ concs.map canonical := by
  unfold assocGet at h
  have hfind : List.find? (fun kv => kv.1 == k)
      (concs.map (fun c => (canonical c, c))) = none := by
    cases hf : List.find? (fun kv => kv.1 == k) (concs.map (fun c => (canonical c, c))) with
    | none => rfl
    | some kv => rw [hf] at h; cases h
  intro hk
  rcases List.mem_map.mp hk with ⟨c, hc, hceq⟩
  have hnp := List.find?_eq_none.mp hfind (canonical c, c)
    (List.mem_map_of_mem (fun c => (canonical c, c)) hc)
  apply hnp
  have : canonical c = k := hceq
  simp [this]

theorem resolve_display_props (concs : List PyStr) (frmRaw : PyStr)
    (hclean : ∀ c ∈ concs, cleanText 60 c = c ∧ c ≠ [])
    (hraw_clean : cleanText 60 frmRaw = frmRaw) (hraw_ne : frmRaw ≠ []) :
    (cleanText 60 ((assocGet (concs.map (fun c => (canonical c, c)))
        (canonical frmRaw)).getD frmRaw)
      = (assocGet (concs.map (fun c => (canonical c, c))) (canonical frmRaw)).getD frmRaw) ∧
    ((assocGet (concs.map (fun c => (canonical c, c))) (canonical frmRaw)).getD frmRaw ≠ []) ∧
    canonical ((assocGet (concs.map (fun c => (canonical c, c)))
        (canonical frmRaw)).getD frmRaw) = canonical frmRaw ∧
    (((assocGet (concs.map (fun c => (canonical c, c))) (canonical frmRaw)).getD frmRaw) ∈ concs
      ∨ canonical frmRaw ∉ concs.map canonical) := by
  cases hA : assocGet (concs.map (fun c => (canonical c, c))) (canonical frmRaw) with
  | none =>
    rw [Option.getD_none]
    exact ⟨hraw_clean, hraw_ne, rfl, Or.inr (assocGet_map_none2 hA)⟩
  | some d =>
    obtain ⟨hd, hdc⟩ := assocGet_map_mem hA
    rw [Option.getD_some]
    exact ⟨(hclean d hd).1, (hclean d hd).2, hdc, Or.inl hd⟩

theorem relStep_rels_inv (topic : PyStr) (seen : List PyStr) (concs : List PyStr)
    (hclean : ∀ c ∈ concs, cleanText 60 c = c ∧ c ≠ [])
    (acc : RelAcc) (r : PyVal)
    (h : ∀ x ∈ acc.rels,
      (cleanText 60 x.frm = x.frm ∧ x.frm ≠ []) ∧
      (cleanText 60 x.dst = x.dst ∧ x.dst ≠ []) ∧
      (cleanText 60 x.label = x.label ∧ x.label ≠ []) ∧
      canonical x.frm ≠ canonical x.dst ∧
      (x.frm ∈ concs ∨ canonical x.frm ∉ concs.map canonical) ∧
      (x.dst ∈ concs ∨ canonical x.dst ∉ concs.map canonical)) :
    ∀ x ∈ (relStep topic seen (concs.map (fun c => (canonical c, c))) acc r).rels,
      (cleanText 60 x.frm = x.frm ∧ x.frm ≠ []) ∧
      (cleanText 60 x.dst = x.dst ∧ x.dst ≠ []) ∧
      (cleanText 60 x.label = x.label ∧ x.label ≠ []) ∧
      canonical x.frm ≠ canonical x.dst ∧
      (x.frm ∈ concs ∨ canonical x.frm ∉ concs.map canonical) ∧
      (x.dst ∈ concs ∨ canonical x.dst ∉ concs.map canonical) := by
  cases r with
  | dict kvs =>
    simp only [relStep]
    split
    · exact h
    · next hne =>
      split
      · exact h
      · next hcc =>
        split
        · exact h
        · next hkey =>
          dsimp only
          intro x hx
          rcases List.mem_append.mp hx with hm | hm
          · exact h x hm
          · rw [List.mem_singleton] at hm
            subst hm
            push_neg at hne
            obtain ⟨hf, ht2, hl⟩ := hne
            have hres1 := resolve_display_props concs
              (cleanTextPy 60 ((dictGet kvs "from".toList).getD (.str []))) hclean
              (cleanTextPy_idem _) hf
            have hres2 := resolve_display_props concs
              (cleanTextPy 60 ((dictGet kvs "to".toList).getD (.str []))) hclean
              (cleanTextPy_idem _) ht2
            refine ⟨⟨hres1.1, hres1.2.1⟩, ⟨hres2.1, hres2.2.1⟩,
              ⟨cleanTextPy_idem _, hl⟩, ?_, ?_, ?_⟩
            · show canonical ((assocGet (concs.map (fun c => (canonical c, c)))
                  (canonical (cleanTextPy 60 ((dictGet kvs "from".toList).getD
                    (.str []))))).getD (cleanTextPy 60 ((dictGet kvs "from".toList).getD
                    (.str [])))) ≠ canonical ((assocGet (concs.map (fun c => (canonical c, c)))
                  (canonical (cleanTextPy 60 ((dictGet kvs "to".toList).getD
                    (.str []))))).getD (cleanTextPy 60 ((dictGet kvs "to".toList).getD
                    (.str []))))
              rw [hres1.2.2.1, hres2.2.2.1]
              exact hcc
            · show _ ∈ concs ∨ canonical ((assocGet (concs.map (fun c => (canonical c, c)))
                  (canonical (cleanTextPy 60 ((dictGet kvs "from".toList).getD
                    (.str []))))).getD (cleanTextPy 60 ((dictGet kvs "from".toList).getD
                    (.str [])))) ∉ concs.map canonical
              rcases hres1.2.2.2 with hin | hout
              · exact Or.inl hin
              · refine Or.inr ?_
                rw [hres1.2.2.1]
                exact hout
            · show _ ∈ concs ∨ canonical ((assocGet (concs.map (fun c => (canonical c, c)))
                  (canonical (cleanTextPy 60 ((dictGet kvs "to".toList).getD
                    (.str []))))).getD (cleanTextPy 60 ((dictGet kvs "to".toList).getD
                    (.str [])))) ∉ concs.map canonical
              rcases hres2.2.2.2 with hin | hout
              · exact Or.inl hin
              · refine Or.inr ?_
                rw [hres2.2.2.1]
                exact hout
  | none => exact h
  | bool b => exact h
  | int n => exact h
  | str s => exact h
  | list xs => exact h

theorem relLoop_rels_inv (topic : PyStr) (seen : List PyStr) (concs : List PyStr)
    (hclean : ∀ c ∈ concs, cleanText 60 c = c ∧ c ≠ []) (rs : List PyVal) :
    ∀ x ∈ (relLoop topic seen (concs.map (fun c => (canonical c, c))) rs).rels,
      (cleanText 60 x.frm = x.frm ∧ x.frm ≠ []) ∧
      (cleanText 60 x.dst = x.dst ∧ x.dst ≠ []) ∧
      (cleanText 60 x.label = x.label ∧ x.label ≠ []) ∧
      canonical x.frm ≠ canonical x.dst ∧
      (x.frm ∈ concs ∨ canonical x.frm ∉ concs.map canonical) ∧
      (x.dst ∈ concs ∨ canonical x.dst ∉ concs.map canonical) := by
  unfold relLoop
  suffices hgen : ∀ (rs : List PyVal) (acc : RelAcc),
      (∀ x ∈ acc.rels,
        (cleanText 60 x.frm = x.frm ∧ x.frm ≠ []) ∧
        (cleanText 60 x.dst = x.dst ∧ x.dst ≠ []) ∧
        (cleanText 60 x.label = x.label ∧ x.label ≠ []) ∧
        canonical x.frm ≠ canonical x.dst ∧
        (x.frm ∈ concs ∨ canonical x.frm ∉ concs.map canonical) ∧
        (x.dst ∈ concs ∨ canonical x.dst ∉ concs.map canonical)) →
      ∀ x ∈ (rs.foldl (relStep topic seen (concs.map (fun c => (canonical c, c)))) acc).rels,
        (cleanText 60 x.frm = x.frm ∧ x.frm ≠ []) ∧
        (cleanText 60 x.dst = x.dst ∧ x.dst ≠ []) ∧
        (cleanText 60 x.label = x.label ∧ x.label ≠ []) ∧
        canonical x.frm ≠ canonical x.dst ∧
        (x.frm ∈ concs ∨ canonical x.frm ∉ concs.map canonical) ∧
        (x.dst ∈ concs ∨ canonical x.dst ∉ concs.map canonical) from
    hgen rs ⟨[], [], []⟩ (fun x hx => absurd hx (List.not_mem_nil x))
  intro rs
  induction rs with
  | nil => intro acc hacc; exact hacc
  | cons x xs ih =>
    intro acc hacc
    exact ih (relStep topic seen (concs.map (fun c => (canonical c, c))) acc x)
      (relStep_rels_inv topic seen concs hclean acc x hacc)

theorem conceptLoop_of_normalized (topic : PyStr) :
    ∀ (l : List PyStr) (acc : ConceptAcc),
      acc.seen = acc.concepts.map canonical →
      acc.canonToDisplay = acc.concepts.map (fun c => (canonical c, c)) →
      (∀ c ∈ l, cleanText 60 c = c ∧ c ≠ [] ∧ c ≠ topic) →
      (((acc.concepts ++ l).map canonical).Nodup) →
      acc.concepts.length + l.length ≤ 30 →
      conceptLoop topic (l.map .str) acc
        = ⟨acc.concepts ++ l, (acc.concepts ++ l).map canonical,
           (acc.concepts ++ l).map (fun c => (canonical c, c))⟩ := by
  intro l
  induction l with
  | nil =>
    intro acc h1 h2 _ _ _
    simp only [List.map_nil]
    show acc = _
    cases acc with
    | mk cc ss cd =>
      simp only at h1 h2
      simp [h1, h2]
  | cons c l ih =>
    intro acc h1 h2 hcl hnd hlen
    have hc := hcl c (List.mem_cons_self c l)
    simp only [List.map_cons, conceptLoop]
    rw [hc.1]
    have hnotin : canonical c ∉ acc.seen := by
      rw [h1]
      intro hin
      rw [List.map_append, List.map_cons] at hnd
      exact (List.nodup_append.mp hnd).2.2 hin (List.mem_cons_self _ _)
    have hguard : c ≠ [] ∧ canonical c ∉ acc.seen ∧ c ≠ topic := ⟨hc.2.1, hnotin, hc.2.2⟩
    rw [if_pos hguard]
    rcases Nat.lt_or_ge (acc.concepts ++ [c]).length 30 with hcap | hcap
    · rw [if_neg (by dsimp only; omega)]
      have happ : (acc.concepts ++ [c]) ++ l = acc.concepts ++ c :: l := by simp
      have := ih ⟨acc.concepts ++ [c], acc.seen ++ [canonical c],
          acc.canonToDisplay ++ [(canonical c, c)]⟩
        (by simp only [h1, List.map_append, List.map_cons, List.map_nil])
        (by simp only [h2, List.map_append, List.map_cons, List.map_nil])
        (fun x hx => hcl x (List.mem_cons_of_mem c hx))
        (by simp only [happ]; exact hnd)
        (by simp only [List.length_append, List.length_singleton] at hcap ⊢
            simp only [List.length_cons] at hlen
            omega)
      rw [this]
      simp only [happ]
    · rw [if_pos (by dsimp only; omega)]
      have hl0 : l = [] := by
        simp only [List.length_append, List.length_singleton] at hcap
        simp only [List.length_cons] at hlen
        have : l.length = 0 := by omega
        exact List.length_eq_zero.mp this
      subst hl0
      cases acc with
      | mk cc ss cd =>
        simp only at h1 h2
        simp [h1, h2]

theorem assocGet_self {concs : List PyStr} (hnd : (concs.map canonical).Nodup) {f : PyStr}
    (hmem : f ∈ concs ∨ canonical f ∉ concs.map canonical) :
    (assocGet (concs.map (fun c => (canonical c, c))) (canonical f)).getD f = f := by
  cases hA : assocGet (concs.map (fun c => (canonical c, c))) (canonical f) with
  | none => rw [Option.getD_none]
  | some d =>
    rw [Option.getD_some]
    obtain ⟨hd, hdc⟩ := assocGet_map_mem hA
    rcases hmem with hm | hm
    · exact List.inj_on_of_nodup_map hnd hd hm hdc
    · exact absurd (hdc ▸ List.mem_map_of_mem canonical hd) hm

theorem relLoop_of_normalized (topic : PyStr) (concs : List PyStr)
    (hnd : (concs.map canonical).Nodup) :
    ∀ (l : List RelOut) (acc : RelAcc),
      (∀ r ∈ l,
        (cleanText 60 r.frm = r.frm ∧ r.frm ≠ []) ∧
        (cleanText 60 r.dst = r.dst ∧ r.dst ≠ []) ∧
        (cleanText 60 r.label = r.label ∧ r.label ≠ []) ∧
        canonical r.frm ≠ canonical r.dst ∧
        (r.frm ∈ concs ∨ (canonical r.frm ∉ concs.map canonical ∧
          canonical r.frm = canonical topic)) ∧
        (r.dst ∈ concs ∨ (canonical r.dst ∉ concs.map canonical ∧
          canonical r.dst = canonical topic))) →
      ((acc.pairSeen ++ l.map canonPair).Nodup) →
      l.foldl (fun a r => relStep topic (concs.map canonical)
          (concs.map (fun c => (canonical c, c))) a
          (.dict [("from".toList, .str r.frm), ("to".toList, .str r.dst),
            ("label".toList, .str r.label)])) acc
        = ⟨acc.rels ++ l, acc.missing, acc.pairSeen ++ l.map canonPair⟩ := by
  intro l
  induction l with
  | nil =>
    intro acc _ _
    cases acc with
    | mk rr mm pp => simp
  | cons r l ih =>
    intro acc hr hnd2
    obtain ⟨⟨hfc, hfne⟩, ⟨hdc2, hdne⟩, ⟨hlc, hlne⟩, hcd, hfm, hdm⟩ :=
      hr r (List.mem_cons_self r l)
    rw [List.foldl_cons]
    have hstep : relStep topic (concs.map canonical) (concs.map (fun c => (canonical c, c)))
        acc (.dict [("from".toList, .str r.frm), ("to".toList, .str r.dst),
          ("label".toList, .str r.label)])
        = ⟨acc.rels ++ [r], acc.missing, acc.pairSeen ++ [canonPair r]⟩ := by
      simp only [relStep]
      rw [show (dictGet [("from".toList, .str r.frm), ("to".toList, .str r.dst),
          ("label".toList, .str r.label)] "from".toList) = some (.str r.frm) from rfl]
      rw [show (dictGet [("from".toList, .str r.frm), ("to".toList, .str r.dst),
          ("label".toList, .str r.label)] "to".toList) = some (.str r.dst) from rfl]
      rw [show (dictGet [("from".toList, .str r.frm), ("to".toList, .str r.dst),
          ("label".toList, .str r.label)] "label".toList) = some (.str r.label) from rfl]
      rw [Option.getD_some, Option.getD_some, Option.getD_some]
      rw [show cleanTextPy 60 (PyVal.str r.frm) = cleanText 60 r.frm from rfl,
        show cleanTextPy 60 (PyVal.str r.dst) = cleanText 60 r.dst from rfl,
        show cleanTextPy 60 (PyVal.str r.label) = cleanText 60 r.label from rfl]
      rw [hfc, hdc2, hlc]
      rw [if_neg (by simp [hfne, hdne, hlne])]
      rw [if_neg hcd]
      rw [assocGet_self hnd (hfm.imp id And.left),
        assocGet_self hnd (hdm.imp id And.left)]
      have hkey : sortedPair (canonical r.frm) (canonical r.dst) ∉ acc.pairSeen := by
        intro hin
        have := (List.nodup_append.mp hnd2).2.2 hin
        exact this (by rw [List.map_cons]; exact List.mem_cons_self _ _)
      rw [if_neg hkey]
      have hc1 : ¬(canonical r.frm ∉ concs.map canonical
          ∧ canonical r.frm ≠ canonical topic) := by
        rcases hfm with hin | ⟨_, heq⟩
        · exact fun hc => hc.1 (List.mem_map_of_mem canonical hin)
        · exact fun hc => hc.2 heq
      have hc2 : ¬(canonical r.dst ∉ concs.map canonical
          ∧ canonical r.dst ≠ canonical topic) := by
        rcases hdm with hin | ⟨_, heq⟩
        · exact fun hc => hc.1 (List.mem_map_of_mem canonical hin)
        · exact fun hc => hc.2 heq
      rw [if_neg hc1, if_neg hc2]
      rfl
    rw [hstep]
    have hrec := ih ⟨acc.rels ++ [r], acc.missing, acc.pairSeen ++ [canonPair r]⟩
      (fun x hx => hr x (List.mem_cons_of_mem r hx))
      (by
        dsimp only
        rw [List.append_assoc]
        simpa using hnd2)
    rw [hrec]
    simp

theorem finalFilter_all (topic : PyStr) (concepts : List PyStr) (rels : List RelOut)
    (h : ∀ r ∈ rels, (r.frm ∈ concepts ∨ r.frm = topic) ∧
      (r.dst ∈ concepts ∨ r.dst = topic)) :
    finalFilter topic concepts rels = rels := by
  unfold finalFilter
  rw [List.filter_eq_self]
  intro r hr
  simpa using h r hr

theorem relLoop_of_normalized2 (topic : PyStr) (concs : List PyStr)
    (hnd : (concs.map canonical).Nodup) (l : List RelOut)
    (hyps : ∀ r ∈ l,
      (cleanText 60 r.frm = r.frm ∧ r.frm ≠ []) ∧
      (cleanText 60 r.dst = r.dst ∧ r.dst ≠ []) ∧
      (cleanText 60 r.label = r.label ∧ r.label ≠ []) ∧
      canonical r.frm ≠ canonical r.dst ∧
      (r.frm ∈ concs ∨ (canonical r.frm ∉ concs.map canonical ∧
        canonical r.frm = canonical topic)) ∧
      (r.dst ∈ concs ∨ (canonical r.dst ∉ concs.map canonical ∧
        canonical r.dst = canonical topic)))
    (hpairnd : (l.map canonPair).Nodup) :
    relLoop topic (concs.map canonical) (concs.map (fun c => (canonical c, c)))
        (l.map (fun r => .dict [("from".toList, .str r.frm), ("to".toList, .str r.dst),
          ("label".toList, .str r.label)]))
      = ⟨l, [], l.map canonPair⟩ := by
  unfold relLoop
  rw [List.foldl_map]
  have h := relLoop_of_normalized topic concs hnd l ⟨[], [], []⟩ hyps (by simpa using hpairnd)
  simpa using h

theorem normalizeSpec_of_normalized (topic : PyStr) (concepts : List PyStr)
    (rels : List RelOut)
    (htop : cleanText 60 topic = topic)
    (hcl : ∀ c ∈ concepts, cleanText 60 c = c ∧ c ≠ [] ∧ c ≠ topic)
    (hnd : (concepts.map canonical).Nodup)
    (hlen : concepts.length ≤ 30)
    (hrels : ∀ r ∈ rels,
      (cleanText 60 r.frm = r.frm ∧ r.frm ≠ []) ∧
      (cleanText 60 r.dst = r.dst ∧ r.dst ≠ []) ∧
      (cleanText 60 r.label = r.label ∧ r.label ≠ []) ∧
      canonical r.frm ≠ canonical r.dst ∧
      (r.frm ∈ concepts ∨ (canonical r.frm ∉ concepts.map canonical ∧
        canonical r.frm = canonical topic)) ∧
      (r.dst ∈ concepts ∨ (canonical r.dst ∉ concepts.map canonical ∧
        canonical r.dst = canonical topic)))
    (hpairs : (rels.map canonPair).Nodup)
    (hend : ∀ r ∈ rels, (r.frm ∈ concepts ∨ r.frm = topic) ∧
      (r.dst ∈ concepts ∨ r.dst = topic)) :
    normalizeSpec topic (concepts.map .str)
        (rels.map (fun r => .dict [("from".toList, .str r.frm), ("to".toList, .str r.dst),
          ("label".toList, .str r.label)]))
      = ⟨topic, concepts, rels⟩ := by
  unfold normalizeSpec
  dsimp only
  rw [htop]
  rw [conceptLoop_of_normalized topic concepts ⟨[], [], []⟩ rfl rfl hcl
    (by simpa using hnd) (by simpa using hlen)]
  dsimp only
  rw [List.nil_append]
  rw [relLoop_of_normalized2 topic concepts hnd rels hrels hpairs]
  dsimp only
  simp only [promoteLoop]
  rw [finalFilter_all topic concepts rels hend]

theorem normalizeSpec_idem (t : PyStr) (cs rs : List PyVal) :
    normalizeSpec (normalizeSpec t cs rs).topic
      ((normalizeSpec t cs rs).concepts.map .str)
      ((normalizeSpec t cs rs).rels.map (fun r => .dict [("from".toList, .str r.frm),
        ("to".toList, .str r.dst), ("label".toList, .str r.label)]))
      = normalizeSpec t cs rs := by
  have hnt : (normalizeSpec t cs rs).topic = cleanText 60 t := rfl
  have hnc : (normalizeSpec t cs rs).concepts = (promoteLoop rs (relLoop (cleanText 60 t) (conceptLoop (cleanText 60 t) cs ⟨[], [], []⟩).seen (conceptLoop (cleanText 60 t) cs ⟨[], [], []⟩).canonToDisplay rs).missing (conceptLoop (cleanText 60 t) cs ⟨[], [], []⟩)).concepts := rfl
  have hnr : (normalizeSpec t cs rs).rels = finalFilter (cleanText 60 t) (promoteLoop rs (relLoop (cleanText 60 t) (conceptLoop (cleanText 60 t) cs ⟨[], [], []⟩).seen (conceptLoop (cleanText 60 t) cs ⟨[], [], []⟩).canonToDisplay rs).missing (conceptLoop (cleanText 60 t) cs ⟨[], [], []⟩)).concepts (relLoop (cleanText 60 t) (conceptLoop (cleanText 60 t) cs ⟨[], [], []⟩).seen (conceptLoop (cleanText 60 t) cs ⟨[], [], []⟩).canonToDisplay rs).rels := rfl
  have hC3 := conceptLoop_nodup_inv (cleanText 60 t) cs ⟨[], [], []⟩ rfl List.nodup_nil
    (List.not_mem_nil _)
  have hC2 := conceptLoop_shape_inv (cleanText 60 t) cs ⟨[], [], []⟩ rfl
    (fun c hc => absurd hc (List.not_mem_nil c))
  have hmiss := relLoop_missing_ne (cleanText 60 t) (conceptLoop (cleanText 60 t) cs ⟨[], [], []⟩).seen (conceptLoop (cleanText 60 t) cs ⟨[], [], []⟩).canonToDisplay rs
  have hF1 := promoteLoop_nodup_inv (cleanText 60 t) rs (relLoop (cleanText 60 t) (conceptLoop (cleanText 60 t) cs ⟨[], [], []⟩).seen (conceptLoop (cleanText 60 t) cs ⟨[], [], []⟩).canonToDisplay rs).missing (conceptLoop (cleanText 60 t) cs ⟨[], [], []⟩)
    hC3.1 hC3.2.1 hC3.2.2 hmiss
  have hF2 := promoteLoop_shape_inv rs (relLoop (cleanText 60 t) (conceptLoop (cleanText 60 t) cs ⟨[], [], []⟩).seen (conceptLoop (cleanText 60 t) cs ⟨[], [], []⟩).canonToDisplay rs).missing (conceptLoop (cleanText 60 t) cs ⟨[], [], []⟩) hC2.1 hC2.2
  have htop : cleanText 60 (cleanText 60 t) = cleanText 60 t := cleanText_60_idem t
  have hcl : ∀ c ∈ (promoteLoop rs (relLoop (cleanText 60 t) (conceptLoop (cleanText 60 t) cs ⟨[], [], []⟩).seen (conceptLoop (cleanText 60 t) cs ⟨[], [], []⟩).canonToDisplay rs).missing (conceptLoop (cleanText 60 t) cs ⟨[], [], []⟩)).concepts,
      cleanText 60 c = c ∧ c ≠ [] ∧ c ≠ (cleanText 60 t) :=
    fun c hc => ⟨(hF2.2 c hc).1, (hF2.2 c hc).2, fun he => hF1.2.2 (he ▸ hc)⟩
  have hnd : ((promoteLoop rs (relLoop (cleanText 60 t) (conceptLoop (cleanText 60 t) cs ⟨[], [], []⟩).seen (conceptLoop (cleanText 60 t) cs ⟨[], [], []⟩).canonToDisplay rs).missing (conceptLoop (cleanText 60 t) cs ⟨[], [], []⟩)).concepts.map canonical).Nodup := by
    rw [hF1.1]
    exact hF1.2.1
  have hlen : (promoteLoop rs (relLoop (cleanText 60 t) (conceptLoop (cleanText 60 t) cs ⟨[], [], []⟩).seen (conceptLoop (cleanText 60 t) cs ⟨[], [], []⟩).canonToDisplay rs).missing (conceptLoop (cleanText 60 t) cs ⟨[], [], []⟩)).concepts.length ≤ 30 := normalizeSpec_concepts_le t cs rs
  have hend : ∀ r ∈ (finalFilter (cleanText 60 t) (promoteLoop rs (relLoop (cleanText 60 t) (conceptLoop (cleanText 60 t) cs ⟨[], [], []⟩).seen (conceptLoop (cleanText 60 t) cs ⟨[], [], []⟩).canonToDisplay rs).missing (conceptLoop (cleanText 60 t) cs ⟨[], [], []⟩)).concepts (relLoop (cleanText 60 t) (conceptLoop (cleanText 60 t) cs ⟨[], [], []⟩).seen (conceptLoop (cleanText 60 t) cs ⟨[], [], []⟩).canonToDisplay rs).rels),
      (r.frm ∈ (promoteLoop rs (relLoop (cleanText 60 t) (conceptLoop (cleanText 60 t) cs ⟨[], [], []⟩).seen (conceptLoop (cleanText 60 t) cs ⟨[], [], []⟩).canonToDisplay rs).missing (conceptLoop (cleanText 60 t) cs ⟨[], [], []⟩)).concepts ∨ r.frm = (cleanText 60 t)) ∧
      (r.dst ∈ (promoteLoop rs (relLoop (cleanText 60 t) (conceptLoop (cleanText 60 t) cs ⟨[], [], []⟩).seen (conceptLoop (cleanText 60 t) cs ⟨[], [], []⟩).canonToDisplay rs).missing (conceptLoop (cleanText 60 t) cs ⟨[], [], []⟩)).concepts ∨ r.dst = (cleanText 60 t)) :=
    normalizeSpec_rel_endpoints t cs rs
  have hc2dinv := conceptLoop_c2d_inv (cleanText 60 t) cs ⟨[], [], []⟩
    (fun kv hkv => absurd hkv (List.not_mem_nil kv))
  have hF5 := relLoop_pair_props (cleanText 60 t) (conceptLoop (cleanText 60 t) cs ⟨[], [], []⟩).seen (conceptLoop (cleanText 60 t) cs ⟨[], [], []⟩).canonToDisplay hc2dinv rs
  have hRAnd : ((relLoop (cleanText 60 t) (conceptLoop (cleanText 60 t) cs ⟨[], [], []⟩).seen (conceptLoop (cleanText 60 t) cs ⟨[], [], []⟩).canonToDisplay rs).rels.map canonPair).Nodup := by
    rw [hF5.1]
    exact hF5.2.1
  have hpairs : ((finalFilter (cleanText 60 t) (promoteLoop rs (relLoop (cleanText 60 t) (conceptLoop (cleanText 60 t) cs ⟨[], [], []⟩).seen (conceptLoop (cleanText 60 t) cs ⟨[], [], []⟩).canonToDisplay rs).missing (conceptLoop (cleanText 60 t) cs ⟨[], [], []⟩)).concepts (relLoop (cleanText 60 t) (conceptLoop (cleanText 60 t) cs ⟨[], [], []⟩).seen (conceptLoop (cleanText 60 t) cs ⟨[], [], []⟩).canonToDisplay rs).rels).map canonPair).Nodup := by
    unfold finalFilter
    exact hRAnd.sublist ((List.filter_sublist _).map canonPair)
  have hF4 : ∀ x ∈ (relLoop (cleanText 60 t) (conceptLoop (cleanText 60 t) cs ⟨[], [], []⟩).seen (conceptLoop (cleanText 60 t) cs ⟨[], [], []⟩).canonToDisplay rs).rels,
      (cleanText 60 x.frm = x.frm ∧ x.frm ≠ []) ∧
      (cleanText 60 x.dst = x.dst ∧ x.dst ≠ []) ∧
      (cleanText 60 x.label = x.label ∧ x.label ≠ []) ∧
      canonical x.frm ≠ canonical x.dst ∧
      (x.frm ∈ (conceptLoop (cleanText 60 t) cs ⟨[], [], []⟩).concepts ∨ canonical x.frm ∉ (conceptLoop (cleanText 60 t) cs ⟨[], [], []⟩).concepts.map canonical) ∧
      (x.dst ∈ (conceptLoop (cleanText 60 t) cs ⟨[], [], []⟩).concepts ∨ canonical x.dst ∉ (conceptLoop (cleanText 60 t) cs ⟨[], [], []⟩).concepts.map canonical) := by
    have hre : (relLoop (cleanText 60 t) (conceptLoop (cleanText 60 t) cs ⟨[], [], []⟩).seen (conceptLoop (cleanText 60 t) cs ⟨[], [], []⟩).canonToDisplay rs)
        = relLoop (cleanText 60 t) (conceptLoop (cleanText 60 t) cs ⟨[], [], []⟩).seen ((conceptLoop (cleanText 60 t) cs ⟨[], [], []⟩).concepts.map (fun c => (canonical c, c))) rs := by
      rw [← hC2.1]
    rw [hre]
    exact relLoop_rels_inv (cleanText 60 t) (conceptLoop (cleanText 60 t) cs ⟨[], [], []⟩).seen (conceptLoop (cleanText 60 t) cs ⟨[], [], []⟩).concepts hC2.2 rs
  have hrels : ∀ r ∈ (finalFilter (cleanText 60 t) (promoteLoop rs (relLoop (cleanText 60 t) (conceptLoop (cleanText 60 t) cs ⟨[], [], []⟩).seen (conceptLoop (cleanText 60 t) cs ⟨[], [], []⟩).canonToDisplay rs).missing (conceptLoop (cleanText 60 t) cs ⟨[], [], []⟩)).concepts (relLoop (cleanText 60 t) (conceptLoop (cleanText 60 t) cs ⟨[], [], []⟩).seen (conceptLoop (cleanText 60 t) cs ⟨[], [], []⟩).canonToDisplay rs).rels),
      (cleanText 60 r.frm = r.frm ∧ r.frm ≠ []) ∧
      (cleanText 60 r.dst = r.dst ∧ r.dst ≠ []) ∧
      (cleanText 60 r.label = r.label ∧ r.label ≠ []) ∧
      canonical r.frm ≠ canonical r.dst ∧
      (r.frm ∈ (promoteLoop rs (relLoop (cleanText 60 t) (conceptLoop (cleanText 60 t) cs ⟨[], [], []⟩).seen (conceptLoop (cleanText 60 t) cs ⟨[], [], []⟩).canonToDisplay rs).missing (conceptLoop (cleanText 60 t) cs ⟨[], [], []⟩)).concepts ∨ (canonical r.frm ∉ (promoteLoop rs (relLoop (cleanText 60 t) (conceptLoop (cleanText 60 t) cs ⟨[], [], []⟩).seen (conceptLoop (cleanText 60 t) cs ⟨[], [], []⟩).canonToDisplay rs).missing (conceptLoop (cleanText 60 t) cs ⟨[], [], []⟩)).concepts.map canonical ∧
        canonical r.frm = canonical (cleanText 60 t))) ∧
      (r.dst ∈ (promoteLoop rs (relLoop (cleanText 60 t) (conceptLoop (cleanText 60 t) cs ⟨[], [], []⟩).seen (conceptLoop (cleanText 60 t) cs ⟨[], [], []⟩).canonToDisplay rs).missing (conceptLoop (cleanText 60 t) cs ⟨[], [], []⟩)).concepts ∨ (canonical r.dst ∉ (promoteLoop rs (relLoop (cleanText 60 t) (conceptLoop (cleanText 60 t) cs ⟨[], [], []⟩).seen (conceptLoop (cleanText 60 t) cs ⟨[], [], []⟩).canonToDisplay rs).missing (conceptLoop (cleanText 60 t) cs ⟨[], [], []⟩)).concepts.map canonical ∧
        canonical r.dst = canonical (cleanText 60 t))) := by
    intro r hr
    have hsub : r ∈ (relLoop (cleanText 60 t) (conceptLoop (cleanText 60 t) cs ⟨[], [], []⟩).seen (conceptLoop (cleanText 60 t) cs ⟨[], [], []⟩).canonToDisplay rs).rels := List.mem_of_mem_filter hr
    refine ⟨(hF4 r hsub).1, (hF4 r hsub).2.1, (hF4 r hsub).2.2.1, (hF4 r hsub).2.2.2.1,
      ?_, ?_⟩
    · rcases (hend r hr).1 with hin | heq
      · exact Or.inl hin
      · refine Or.inr ⟨?_, by rw [heq]⟩
        rw [heq]
        rcases (hF4 r hsub).2.2.2.2.1 with hin2 | hout2
        · rw [heq] at hin2
          exact absurd (promoteLoop_concepts_sup rs (relLoop (cleanText 60 t) (conceptLoop (cleanText 60 t) cs ⟨[], [], []⟩).seen (conceptLoop (cleanText 60 t) cs ⟨[], [], []⟩).canonToDisplay rs).missing (conceptLoop (cleanText 60 t) cs ⟨[], [], []⟩) hin2) hF1.2.2
        · rw [heq] at hout2
          have hnotseen : canonical (cleanText 60 t) ∉ (conceptLoop (cleanText 60 t) cs ⟨[], [], []⟩).seen := by
            rw [← hC3.1]
            exact hout2
          have hkept := promoteLoop_seen_kept rs (relLoop (cleanText 60 t) (conceptLoop (cleanText 60 t) cs ⟨[], [], []⟩).seen (conceptLoop (cleanText 60 t) cs ⟨[], [], []⟩).canonToDisplay rs).missing (conceptLoop (cleanText 60 t) cs ⟨[], [], []⟩) hnotseen hmiss
          rw [hF1.1]
          exact hkept
    · rcases (hend r hr).2 with hin | heq
      · exact Or.inl hin
      · refine Or.inr ⟨?_, by rw [heq]⟩
        rw [heq]
        rcases (hF4 r hsub).2.2.2.2.2 with hin2 | hout2
        · rw [heq] at hin2
          exact absurd (promoteLoop_concepts_sup rs (relLoop (cleanText 60 t) (conceptLoop (cleanText 60 t) cs ⟨[], [], []⟩).seen (conceptLoop (cleanText 60 t) cs ⟨[], [], []⟩).canonToDisplay rs).missing (conceptLoop (cleanText 60 t) cs ⟨[], [], []⟩) hin2) hF1.2.2
        · rw [heq] at hout2
          have hnotseen : canonical (cleanText 60 t) ∉ (conceptLoop (cleanText 60 t) cs ⟨[], [], []⟩).seen := by
            rw [← hC3.1]
            exact hout2
          have hkept := promoteLoop_seen_kept rs (relLoop (cleanText 60 t) (conceptLoop (cleanText 60 t) cs ⟨[], [], []⟩).seen (conceptLoop (cleanText 60 t) cs ⟨[], [], []⟩).canonToDisplay rs).missing (conceptLoop (cleanText 60 t) cs ⟨[], [], []⟩) hnotseen hmiss
          rw [hF1.1]
          exact hkept
  rw [hnt, hnc, hnr]
  have hn : normalizeSpec t cs rs = ⟨cleanText 60 t, (promoteLoop rs (relLoop (cleanText 60 t) (conceptLoop (cleanText 60 t) cs ⟨[], [], []⟩).seen (conceptLoop (cleanText 60 t) cs ⟨[], [], []⟩).canonToDisplay rs).missing (conceptLoop (cleanText 60 t) cs ⟨[], [], []⟩)).concepts, finalFilter (cleanText 60 t) (promoteLoop rs (relLoop (cleanText 60 t) (conceptLoop (cleanText 60 t) cs ⟨[], [], []⟩).seen (conceptLoop (cleanText 60 t) cs ⟨[], [], []⟩).canonToDisplay rs).missing (conceptLoop (cleanText 60 t) cs ⟨[], [], []⟩)).concepts (relLoop (cleanText 60 t) (conceptLoop (cleanText 60 t) cs ⟨[], [], []⟩).seen (conceptLoop (cleanText 60 t) cs ⟨[], [], []⟩).canonToDisplay rs).rels⟩ := rfl
  rw [hn]
  exact normalizeSpec_of_normalized (cleanText 60 t) (promoteLoop rs (relLoop (cleanText 60 t) (conceptLoop (cleanText 60 t) cs ⟨[], [], []⟩).seen (conceptLoop (cleanText 60 t) cs ⟨[], [], []⟩).canonToDisplay rs).missing (conceptLoop (cleanText 60 t) cs ⟨[], [], []⟩)).concepts (finalFilter (cleanText 60 t) (promoteLoop rs (relLoop (cleanText 60 t) (conceptLoop (cleanText 60 t) cs ⟨[], [], []⟩).seen (conceptLoop (cleanText 60 t) cs ⟨[], [], []⟩).canonToDisplay rs).missing (conceptLoop (cleanText 60 t) cs ⟨[], [], []⟩)).concepts (relLoop (cleanText 60 t) (conceptLoop (cleanText 60 t) cs ⟨[], [], []⟩).seen (conceptLoop (cleanText 60 t) cs ⟨[], [], []⟩).canonToDisplay rs).rels)
    htop hcl hnd hlen hrels hpairs hend

/-- C7: the graph engine's normalization is idempotent.  For every successful
`ConceptMapAgent.enhance_spec` call, feeding the normalized topic, concept
list and relationship list back through the normalization pipeline (concepts
as strings, relationships as `from`/`to`/`label` dicts) reproduces exactly
the same topic, concepts and relationships. -/
theorem c7_normalization_idempotent {rng rng42 : ℕ → ℝ} {spec : PyVal} {out : CMSpecOut}
    (h : enhanceCM rng rng42 spec = .ok out) :
    normalizeSpec out.topic (out.concepts.map .str)
        (out.relationships.map (fun r => .dict [("from".toList, .str r.frm),
          ("to".toList, .str r.dst), ("label".toList, .str r.label)]))
      = ⟨out.topic, out.concepts, out.relationships⟩ := by
  obtain ⟨kvs, t0, cs0, rs0, hspec, ht0, hcs0, hrs0, hts, htop, hcon, hrel, hdims, hlay⟩ :=
    enhanceCM_ok_inv h
  rw [htop, hcon, hrel]
  exact normalizeSpec_idem t0 cs0 rs0

/-- Witness for C7 at a concrete successful input with a concept,
a promoted endpoint and one relationship. -/
theorem c7_normalization_idempotent_witness :
    ∃ out,
      enhanceCM zeroStream zeroStream (mkSpec
        [("topic", .str "T".toList), ("concepts", .list [.str "A".toList]),
         ("relationships", .list [mkSpec [("from", .str "A".toList),
            ("to", .str "B".toList), ("label", .str "x".toList)]])]) = .ok out ∧
      normalizeSpec out.topic (out.concepts.map .str)
          (out.relationships.map (fun r => .dict [("from".toList, .str r.frm),
            ("to".toList, .str r.dst), ("label".toList, .str r.label)]))
        = ⟨out.topic, out.concepts, out.relationships⟩ := by
  refine ⟨_, rfl, ?_⟩
  exact c7_normalization_idempotent
    (show enhanceCM zeroStream zeroStream (mkSpec
      [("topic", .str "T".toList), ("concepts", .list [.str "A".toList]),
       ("relationships", .list [mkSpec [("from", .str "A".toList),
          ("to", .str "B".toList), ("label", .str "x".toList)]])]) = .ok _ from rfl)
